import Mathlib

/-!
# allhic `partition.go`: link-matrix construction and filtering

A shallow embedding of `src/partition.go` (package `allhic`) and theorems about it.

* Go's `int`/`int64` are 64-bit two's-complement integers: values are `Int`, and every
  arithmetic result is wrapped by `wrapInt64`.
* Go's `float64` is IEEE-754 binary64 with round-to-nearest-even: values are `F64`, a
  sign/mantissa/exponent triple, and every operation rounds its exact result.
* A Go runtime panic aborts the run: functions that can panic return `Except GoPanic _`.
* `[]*ContigInfo` is a list of records (every pointer is a fresh allocation of `readRE`,
  so there is no aliasing); `[][]int64` is a list of rows; `map[string]int` is an
  association list read with `List.lookup`.
-/

namespace Allhic

/-! ## Machine integers -/

/-- Two's-complement wrap-around of an exact integer into the `int64` range. -/
def wrapInt64 (x : Int) : Int := (x + 2 ^ 63) % 2 ^ 64 - 2 ^ 63

/-- Go `x + y` on `int64`. -/
def addInt64 (x y : Int) : Int := wrapInt64 (x + y)

/-- Go `x * y` on `int64`. -/
def mulInt64 (x y : Int) : Int := wrapInt64 (x * y)

/-- Go `x / y` on `int64` for `y != 0`: the quotient truncated toward zero (the only
overflow, `MinInt64 / -1`, wraps to `MinInt64`). The caller handles `y == 0`, which panics. -/
def divInt64 (x y : Int) : Int := wrapInt64 (Int.tdiv x y)

/-- Run-time panics of the Go runtime that the embedded code can raise. A panic aborts the
run with the runtime's fixed message; it carries no program data. -/
inductive GoPanic where
  | integerDivideByZero
  | indexOutOfRange
deriving DecidableEq, Repr

/-! ## float64 -/

/-- Number of binary digits of `n`, by repeated halving; `fuel` bounds the halvings. -/
def bitLenAux : Nat → Nat → Nat
  | 0, _ => 0
  | fuel + 1, n => if n = 0 then 0 else bitLenAux fuel (n / 2) + 1

/-- Number of binary digits of `n` (`0` for `n = 0`). -/
def bitLen (n : Nat) : Nat := bitLenAux n n

/-- An IEEE-754 binary64 value. `fin neg m e` is `(-1)^neg * m * 2^e` with `m < 2^53`,
`-1074 ≤ e ≤ 971`, and `2^52 ≤ m` unless `e = -1074` (zero and subnormals). -/
inductive F64 where
  | nan
  | inf (neg : Bool)
  | fin (neg : Bool) (m : Nat) (e : Int)
deriving DecidableEq, Repr

namespace F64

/-- Round the exact value `(-1)^neg * p / q` (`q > 0`) to the nearest binary64, ties to
the even mantissa; values too large become infinite. -/
def round (neg : Bool) (p q : Nat) : F64 :=
  if p = 0 then fin neg 0 (-1074) else
  let e1 : Int := (bitLen p : Int) - (bitLen q : Int) - 52
  let e2 : Int := if p * 2 ^ (-e1).toNat / (q * 2 ^ e1.toNat) < 2 ^ 52 then e1 - 1 else e1
  let e : Int := if e2 < -1074 then -1074 else e2
  let num := p * 2 ^ (-e).toNat
  let den := q * 2 ^ e.toNat
  let m0 := num / den
  let r := num % den
  let m := if den < 2 * r ∨ (2 * r = den ∧ m0 % 2 = 1) then m0 + 1 else m0
  let (m, e) := if m = 2 ^ 53 then (2 ^ 52, e + 1) else (m, e)
  if 971 < e then inf neg else fin neg m e

/-- Go `float64(x)` for an integer `x`. -/
def ofInt (x : Int) : F64 := round (decide (x < 0)) x.natAbs 1

/-- Go `x * y` on `float64`. -/
def mul : F64 → F64 → F64
  | nan, _ => nan
  | _, nan => nan
  | inf s, inf t => inf (xor s t)
  | inf s, fin t m _ => if m = 0 then nan else inf (xor s t)
  | fin s m _, inf t => if m = 0 then nan else inf (xor s t)
  | fin s m e, fin t n f =>
      round (xor s t) (m * n * 2 ^ (e + f).toNat) (2 ^ (-(e + f)).toNat)

/-- Go `x / y` on `float64` (never panics: a zero divisor gives an infinity or NaN). -/
def div : F64 → F64 → F64
  | nan, _ => nan
  | _, nan => nan
  | inf _, inf _ => nan
  | inf s, fin t _ _ => inf (xor s t)
  | fin s _ _, inf t => fin (xor s t) 0 (-1074)
  | fin s m e, fin t n f =>
      if n = 0 then (if m = 0 then nan else inf (xor s t))
      else round (xor s t) (m * 2 ^ (e - f).toNat) (n * 2 ^ (f - e).toNat)

/-- Go `math.Ceil`. -/
def ceil : F64 → F64
  | nan => nan
  | inf s => inf s
  | fin s m e =>
      if 0 ≤ e then fin s m e
      else if s then round true (m / 2 ^ (-e).toNat) 1
      else round false ((m + 2 ^ (-e).toNat - 1) / 2 ^ (-e).toNat) 1

/-- The exact value of a finite float multiplied by `2^1074`, an integer. -/
def scaled (s : Bool) (m : Nat) (e : Int) : Int :=
  (if s then -1 else 1) * (m : Int) * 2 ^ (e + 1074).toNat

/-- Go `x >= y` on `float64` (false when either side is NaN). -/
def ge : F64 → F64 → Bool
  | nan, _ => false
  | _, nan => false
  | inf s, inf t => !s || t
  | inf s, fin _ _ _ => !s
  | fin _ _ _, inf t => t
  | fin s m e, fin t n f => decide (scaled t n f ≤ scaled s m e)

/-- Go `int64(x)` for a `float64`: the value truncated toward zero. Where the truncated
value is not an `int64` (NaN, infinities, magnitude `≥ 2^63`) Go leaves the result to the
implementation; this is the amd64 result, `MinInt64`. -/
def toInt64 : F64 → Int
  | nan => -2 ^ 63
  | inf _ => -2 ^ 63
  | fin s m e =>
      let t : Int := (if s then -1 else 1) * ((m * 2 ^ e.toNat / 2 ^ (-e).toNat : Nat) : Int)
      if -2 ^ 63 ≤ t ∧ t < 2 ^ 63 then t else -2 ^ 63

end F64

/-! ## Data model -/

/-- The fields of `ContigInfo` used by `partition.go`. -/
structure ContigInfo where
  name : String
  recounts : Int
  length : Int
  skip : Bool
deriving DecidableEq, Repr

/-- The fields of `ContigPair` filled by `parseDist`; `at_` is the Go field `at`. -/
structure ContigPair where
  ai : Int
  bi : Int
  at_ : String
  bt : String
  RE1 : Int
  RE2 : Int
  nObservedLinks : Int
  nExpectedLinks : F64
deriving DecidableEq, Repr

/-- A `[][]int64`: a list of rows. -/
abbrev Matrix := List (List Int)

/-- Read `M[i][j]` (`0` outside the matrix; the embedded code only reads inside). -/
def mget (M : Matrix) (i j : Nat) : Int := (M.getD i []).getD j 0

/-- The matrix after `M[i][j] = v`, for `i`, `j` inside the matrix. -/
def mset (M : Matrix) (i j : Nat) (v : Int) : Matrix := M.set i ((M.getD i []).set j v)

/-- The assignment `M[i][j] = v` with Go's bounds checks. -/
def msetChecked (M : Matrix) (i j : Nat) (v : Int) : Except GoPanic Matrix :=
  if i < M.length ∧ j < (M.getD i []).length then .ok (mset M i j v)
  else .error .indexOutOfRange

/-- The struct `Partitioner`. `contigToIdx` maps a name to a position in `contigs`;
`clusters` lists the entries of the `Clusters` map. -/
structure Partitioner where
  Contigsfile : String
  Distfile : String
  K : Int
  contigs : List ContigInfo
  contigToIdx : List (String × Nat)
  matrix : Matrix
  longestRE : Int
  clusters : List (Int × List Int)
  OutREfiles : List String
deriving DecidableEq, Repr

/-- Modelled from the spec: `Make2DSliceInt64(m, n)` is not in the source at hand; the
Matrix Builder "builds an N×N zero-initialized matrix". -/
def Make2DSliceInt64 (m n : Nat) : Matrix := List.replicate m (List.replicate n 0)

/-- Go `v, _ := m[key]`: the stored value, or the zero value `0` when the key is absent. -/
def mapIndex (m : List (String × Nat)) (key : String) : Nat := (m.lookup key).getD 0

/-- Go `m[key] = v` on the association list: the binding for `key` is replaced. -/
def mapAssign (m : List (String × Nat)) (key : String) (v : Nat) : List (String × Nat) :=
  (key, v) :: m.filter (fun kv => kv.1 != key)

/-- The loop `for i, contig := range r.contigs { r.contigToIdx[contig.name] = i }` of
`readRE`, started at position `i` with the map `m`. -/
def readRE.indexLoop : List ContigInfo → Nat → List (String × Nat) → List (String × Nat)
  | [], _, m => m
  | contig :: rest, i, m => readRE.indexLoop rest (i + 1) (mapAssign m contig.name i)

/-- The name-to-index map `readRE` builds for a contig list. -/
def readRE.contigToIdx (contigs : List ContigInfo) : List (String × Nat) :=
  readRE.indexLoop contigs 0 []

/-! ## makeMatrix -/

/-- The normalized weight of an edge,
`int64(e.nObservedLinks) * longestSquared / (int64(e.RE1) * int64(e.RE2))`,
for a non-zero divisor. -/
def makeMatrix.weight (longestSquared : Int) (e : ContigPair) : Int :=
  divInt64 (mulInt64 e.nObservedLinks longestSquared) (mulInt64 e.RE1 e.RE2)

/-- The loop `for _, e := range edges` of `makeMatrix` on the matrix `M`. -/
def makeMatrix.loop (idx : List (String × Nat)) (longestSquared : Int) :
    List ContigPair → Matrix → Except GoPanic Matrix
  | [], M => .ok M
  | e :: rest, M =>
      let a := mapIndex idx e.at_
      let b := mapIndex idx e.bt
      if a = b then makeMatrix.loop idx longestSquared rest M
      else if mulInt64 e.RE1 e.RE2 = 0 then .error .integerDivideByZero
      else
        let w := makeMatrix.weight longestSquared e
        match msetChecked M a b w with
        | .error p => .error p
        | .ok M1 =>
            match msetChecked M1 b a w with
            | .error p => .error p
            | .ok M2 => makeMatrix.loop idx longestSquared rest M2

/-- The function `makeMatrix`; `edges` is the result of `r.parseDist()`. -/
def makeMatrix (r : Partitioner) (edges : List ContigPair) : Except GoPanic Partitioner :=
  let N := r.contigs.length
  let M := Make2DSliceInt64 N N
  let longestSquared := mulInt64 r.longestRE r.longestRE
  match makeMatrix.loop r.contigToIdx longestSquared edges M with
  | .error p => .error p
  | .ok M' => .ok { r with matrix := M' }

/-! ## skipContigsWithFewREs -/

/-- The values `skipContigsWithFewREs` reports: the three counters and the two averages
of its log line. -/
structure ShortReport where
  nShort : Int
  shortRE : Int
  shortLen : Int
  avgRE : F64
  avgLen : Int
deriving DecidableEq, Repr

/-- The loop `for i, contig := range r.contigs` of `skipContigsWithFewREs`, with the
counters `nShort`, `shortRE`, `shortLen`; returns the contigs and the final counters. -/
def skipContigsWithFewREs.loop (MinREs : Int) :
    List ContigInfo → Int → Int → Int → List ContigInfo × Int × Int × Int
  | [], nShort, shortRE, shortLen => ([], nShort, shortRE, shortLen)
  | contig :: rest, nShort, shortRE, shortLen =>
      if contig.recounts < MinREs then
        let out := skipContigsWithFewREs.loop MinREs rest (addInt64 nShort 1)
          (addInt64 shortRE contig.recounts) (addInt64 shortLen contig.length)
        ({ contig with skip := true } :: out.1, out.2)
      else
        let out := skipContigsWithFewREs.loop MinREs rest nShort shortRE shortLen
        (contig :: out.1, out.2)

/-- The function `skipContigsWithFewREs`; the constant `MinREs` is a parameter. -/
def skipContigsWithFewREs (MinREs : Int) (r : Partitioner) : Partitioner × ShortReport :=
  let out := skipContigsWithFewREs.loop MinREs r.contigs 0 0 0
  let nShort := out.2.1
  let shortRE := out.2.2.1
  let shortLen := out.2.2.2
  let avgRE := if 0 < nShort then F64.div (F64.ofInt shortRE) (F64.ofInt nShort)
    else F64.fin false 0 (-1074)
  let avgLen := if 0 < nShort then divInt64 shortLen nShort else 0
  ({ r with contigs := out.1 }, ⟨nShort, shortRE, shortLen, avgRE, avgLen⟩)

/-! ## skipRepeats

The matrix is read and written at `[i][j]` for `i, j < N = len(r.contigs)`; the model
is for a matrix of `N` rows of `N` entries, which is what `makeMatrix` leaves. -/

/-- Go `nLinks[i] += counts`. -/
def skipRepeats.addAt (nLinks : List Int) (i : Nat) (counts : Int) : List Int :=
  nLinks.set i (addInt64 (nLinks.getD i 0) counts)

/-- The first loop nest of `skipRepeats`: `totalLinks` and `nLinks` accumulated over all
`i < j < N`. -/
def skipRepeats.countLinks (M : Matrix) (N : Nat) : Int × List Int :=
  (List.range N).foldl
    (fun acc i =>
      (List.range' (i + 1) (N - (i + 1))).foldl
        (fun acc j =>
          let counts := mget M i j
          (addInt64 acc.1 counts,
            skipRepeats.addAt (skipRepeats.addAt acc.2 i counts) j counts))
        acc)
    (0, List.replicate N 0)

/-- The threshold base `nLinksAvg := 2.0 * float64(totalLinks) / float64(N)`. -/
def skipRepeats.nLinksAvg (totalLinks : Int) (N : Nat) : F64 :=
  F64.div (F64.mul (F64.ofInt 2) (F64.ofInt totalLinks)) (F64.ofInt N)

/-- The expression `float64(nLinks[i]) / nLinksAvg`. -/
def skipRepeats.factor (nLinks : List Int) (nLinksAvg : F64) (i : Nat) : F64 :=
  F64.div (F64.ofInt (nLinks.getD i 0)) nLinksAvg

/-- The expression `int64(math.Ceil(float64(x) / factor))`. -/
def skipRepeats.rescale (factor : F64) (x : Int) : Int :=
  F64.toInt64 (F64.ceil (F64.div (F64.ofInt x) factor))

/-- The inner loop `for j := 0; j < N; j++` of `skipRepeats` on row `i`. -/
def skipRepeats.adjustRow (factor : F64) (N i : Nat) (M : Matrix) : Matrix :=
  (List.range N).foldl
    (fun M j =>
      if mget M i j ≠ 0 then mset M i j (skipRepeats.rescale factor (mget M i j)) else M)
    M

/-- The state left by the second loop of `skipRepeats`. -/
structure RepeatState where
  matrix : Matrix
  contigs : List ContigInfo
  nRepetitive : Int
  repetitiveLength : Int
deriving DecidableEq, Repr

/-- The loop `for i, contig := range r.contigs` of `skipRepeats`, at position `i` with
the matrix `M` and the counters `nRepetitive`, `repetitiveLength`. -/
def skipRepeats.loop (MaxLinkDensity : F64) (nLinks : List Int) (nLinksAvg : F64) (N : Nat) :
    List ContigInfo → Nat → Matrix → Int → Int → RepeatState
  | [], _, M, nRepetitive, repetitiveLength => ⟨M, [], nRepetitive, repetitiveLength⟩
  | contig :: rest, i, M, nRepetitive, repetitiveLength =>
      let factor := skipRepeats.factor nLinks nLinksAvg i
      let M1 := skipRepeats.adjustRow factor N i M
      if F64.ge factor MaxLinkDensity then
        let st := skipRepeats.loop MaxLinkDensity nLinks nLinksAvg N rest (i + 1) M1
          (addInt64 nRepetitive 1) (addInt64 repetitiveLength contig.length)
        { st with contigs := { contig with skip := true } :: st.contigs }
      else
        let st := skipRepeats.loop MaxLinkDensity nLinks nLinksAvg N rest (i + 1) M1
          nRepetitive repetitiveLength
        { st with contigs := contig :: st.contigs }

/-- The values `skipRepeats` reports in its log line. -/
structure RepeatReport where
  nRepetitive : Int
  avgRepetiveLength : Int
deriving DecidableEq, Repr

/-- The function `skipRepeats`; the constant `MaxLinkDensity`, which the comparison
`factor >= MaxLinkDensity` converts to `float64`, is a parameter. -/
def skipRepeats (MaxLinkDensity : F64) (r : Partitioner) : Partitioner × RepeatReport :=
  let N := r.contigs.length
  let totals := skipRepeats.countLinks r.matrix N
  let nLinksAvg := skipRepeats.nLinksAvg totals.1 N
  let st := skipRepeats.loop MaxLinkDensity totals.2 nLinksAvg N r.contigs 0 r.matrix 0 0
  let avgRepetiveLength :=
    if 0 < st.nRepetitive then divInt64 st.repetitiveLength st.nRepetitive else 0
  ({ r with contigs := st.contigs, matrix := st.matrix }, ⟨st.nRepetitive, avgRepetiveLength⟩)

/-! ## Predicates used in the statements -/

/-- `M` has `N` rows of `N` entries. -/
def IsSquare (N : Nat) (M : Matrix) : Prop :=
  M.length = N ∧ ∀ i, i < N → (M.getD i []).length = N

/-- The edge `e` resolves, in either orientation, to the index pair `a`, `b`. -/
def touches (idx : List (String × Nat)) (e : ContigPair) (a b : Nat) : Prop :=
  (mapIndex idx e.at_ = a ∧ mapIndex idx e.bt = b) ∨
    (mapIndex idx e.at_ = b ∧ mapIndex idx e.bt = a)

instance (idx : List (String × Nat)) (e : ContigPair) (a b : Nat) :
    Decidable (touches idx e a b) := by
  unfold touches; infer_instance

/-- Every index stored in the map is a position of a list of length `N`. -/
def InRange (idx : List (String × Nat)) (N : Nat) : Prop := ∀ kv ∈ idx, kv.2 < N

/-! ## Example data -/

/-- Two contigs `A` (10 sites) and `B` (5 sites). -/
def exContigs : List ContigInfo := [⟨"A", 10, 100, false⟩, ⟨"B", 5, 50, false⟩]

/-- The state after loading `exContigs`: `longestRE = 10`, no matrix yet. -/
def exLoaded : Partitioner :=
  { Contigsfile := "counts_RE.txt", Distfile := "dist.txt", K := 2, contigs := exContigs,
    contigToIdx := readRE.contigToIdx exContigs, matrix := [], longestRE := 10,
    clusters := [], OutREfiles := [] }

/-- An edge row with the given names, site counts and observed links. -/
def exEdge (a b : String) (RE1 RE2 nObservedLinks : Int) : ContigPair :=
  { ai := 0, bi := 1, at_ := a, bt := b, RE1 := RE1, RE2 := RE2,
    nObservedLinks := nObservedLinks, nExpectedLinks := F64.fin false 0 (-1074) }

/-- A state with the given contigs and matrix, as left by `readRE` and `makeMatrix`. -/
def exState (contigs : List ContigInfo) (longestRE : Int) (M : Matrix) : Partitioner :=
  { Contigsfile := "counts_RE.txt", Distfile := "dist.txt", K := 2, contigs := contigs,
    contigToIdx := readRE.contigToIdx contigs, matrix := M, longestRE := longestRE,
    clusters := [], OutREfiles := [] }

/-- Three contigs of 10 sites each. -/
def exThreeContigs : List ContigInfo :=
  [⟨"A", 10, 100, false⟩, ⟨"B", 10, 50, false⟩, ⟨"C", 10, 50, false⟩]

/-- Three contigs with all pairwise weights equal to 10. -/
def exUniform : Partitioner :=
  exState exThreeContigs 10 [[0, 10, 10], [10, 0, 10], [10, 10, 0]]

/-- Four contigs of 10 sites each. -/
def exFourContigs : List ContigInfo :=
  [⟨"A", 10, 100, false⟩, ⟨"B", 10, 50, false⟩, ⟨"C", 10, 50, false⟩, ⟨"D", 10, 50, false⟩]

/-- The edges `A`–`B` with `2^53` observed links and `C`–`D` with one. -/
def exLargeEdges : List ContigPair :=
  [exEdge "A" "B" 10 10 9007199254740992, exEdge "C" "D" 10 10 1]

/-- The state `makeMatrix` leaves for `exFourContigs` and `exLargeEdges`: `A`–`B` has
weight `2^53` and `C`–`D` has weight 1. -/
def exLarge : Partitioner :=
  exState exFourContigs 10
    [[0, 9007199254740992, 0, 0], [9007199254740992, 0, 0, 0], [0, 0, 0, 1], [0, 0, 1, 0]]

/-- Three loaded contigs before `makeMatrix`, with `longestRE = 10`. -/
def exChainLoaded : Partitioner := exState exThreeContigs 10 []

/-- The edges `A`–`B` (weight 1) and `B`–`C` (weight 2). -/
def exChainEdges : List ContigPair := [exEdge "A" "B" 10 10 1, exEdge "B" "C" 10 10 2]

/-- The state `makeMatrix` leaves for `exChainLoaded` and `exChainEdges`. -/
def exChain : Partitioner := exState exThreeContigs 10 [[0, 1, 0], [1, 0, 2], [0, 2, 0]]

/-- The uniform example with `B` already excluded, as after the Short-Contig Filter. -/
def exMarked : Partitioner :=
  exState [⟨"A", 10, 100, false⟩, ⟨"B", 5, 50, true⟩, ⟨"C", 10, 50, false⟩] 10
    [[0, 10, 10], [10, 0, 10], [10, 10, 0]]

/-- The three contigs with the cluster assignment `0 ↦ [2, 0]`, `1 ↦ [1]`. -/
def exClustered : Partitioner :=
  { exState exThreeContigs 10 [[0, 10, 10], [10, 0, 10], [10, 10, 0]] with
    clusters := [(0, [2, 0]), (1, [1])] }

/-- Three contigs, `B` already excluded, and a matrix without any link. -/
def exNoLinks : Partitioner :=
  exState [⟨"A", 10, 100, false⟩, ⟨"B", 5, 50, true⟩, ⟨"C", 10, 50, false⟩] 10
    [[0, 0, 0], [0, 0, 0], [0, 0, 0]]

/-- Three contigs of one site each; `A`–`B` and `A`–`C` have weight `2^62`. -/
def exOverflow : Partitioner :=
  exState [⟨"A", 1, 100, false⟩, ⟨"B", 1, 50, false⟩, ⟨"C", 1, 50, false⟩] 1
    [[0, 4611686018427387904, 4611686018427387904], [4611686018427387904, 0, 0],
      [4611686018427387904, 0, 0]]

/-- Four contigs of one site each; `A`–`B` and `A`–`C` have weight `2^63 - 1` and `A`–`D`
has weight 1. -/
def exWrapped : Partitioner :=
  exState [⟨"A", 1, 100, false⟩, ⟨"B", 1, 50, false⟩, ⟨"C", 1, 50, false⟩,
      ⟨"D", 1, 50, false⟩] 1
    [[0, 9223372036854775807, 9223372036854775807, 1], [9223372036854775807, 0, 0, 0],
      [9223372036854775807, 0, 0, 0], [1, 0, 0, 0]]

/-- Two contigs of `10^6` sites each, loaded and before `makeMatrix`. -/
def exDenseLoaded : Partitioner :=
  exState [⟨"A", 1000000, 100, false⟩, ⟨"B", 1000000, 50, false⟩] 1000000 []

/-- The edge `A`–`B` with `10^7` observed links and `10^6` sites on each side. -/
def exDenseEdges : List ContigPair := [exEdge "A" "B" 1000000 1000000 10000000]

/-- The edges `A`–`B` (weight 11) and `C`–`D` (weight 19). -/
def exUnevenEdges : List ContigPair := [exEdge "A" "B" 10 10 11, exEdge "C" "D" 10 10 19]

/-- The state `makeMatrix` leaves for `exFourContigs` and `exUnevenEdges`. -/
def exUneven : Partitioner :=
  exState exFourContigs 10 [[0, 11, 0, 0], [11, 0, 0, 0], [0, 0, 0, 19], [0, 0, 19, 0]]

/-! ## strconv.Atoi -/

/-- The error kinds of Go's `strconv.NumError`. -/
inductive NumError where
  | ErrSyntax
  | ErrRange
deriving DecidableEq, Repr

/-- The digit loop of Go's `strconv.ParseUint(s, 10, 64)`, `n` being the value read so
far: a character that is not a decimal digit is a syntax error with value `0`; a value
above `2^64 - 1` is a range error with value `2^64 - 1`. -/
def ParseUint.loop : List Char → Nat → Nat × Option NumError
  | [], n => (n, none)
  | c :: rest, n =>
      if c.isDigit then
        if 1844674407370955162 ≤ n then (18446744073709551615, some .ErrRange)
        else if 18446744073709551615 < n * 10 + (c.toNat - 48) then
          (18446744073709551615, some .ErrRange)
        else ParseUint.loop rest (n * 10 + (c.toNat - 48))
      else (0, some .ErrSyntax)

/-- Go `strconv.ParseUint(s, 10, 64)` on the characters of `s`. -/
def ParseUint (s : List Char) : Nat × Option NumError :=
  if s = [] then (0, some .ErrSyntax) else ParseUint.loop s 0

/-- Go `strconv.ParseInt(s, 10, 64)` on the characters of `s`: an optional sign, then
`ParseUint`; a syntax error gives `0`, a value outside `int64` the nearest `int64`. -/
def ParseInt (s : List Char) : Int × Option NumError :=
  match s with
  | [] => (0, some .ErrSyntax)
  | c :: rest =>
      let neg := decide (c = '-')
      let digits := if c = '+' ∨ c = '-' then rest else c :: rest
      match ParseUint digits with
      | (_, some .ErrSyntax) => (0, some .ErrSyntax)
      | (un, _) =>
          if ¬ neg ∧ 9223372036854775808 ≤ un then (9223372036854775807, some .ErrRange)
          else if neg ∧ 9223372036854775808 < un then (-9223372036854775808, some .ErrRange)
          else (if neg then -(un : Int) else (un : Int), none)

/-- Go `strconv.Atoi(s)` with a 64-bit `int`: the value and the error (`none` for `nil`).
Its fast path for short strings returns the same results as `ParseInt(s, 10, 0)`. A
character outside ASCII is, like each of its bytes, not a digit. -/
def Atoi (s : String) : Int × Option NumError := ParseInt s.data

/-! ## readRE and parseDist -/

/-- The first loop of `readRE` over the rows `recs` of the contig table, from the contig
list and `longestRE` so far. Reading a column a row does not have panics. -/
def readRE.loop : List (List String) → List ContigInfo → Int →
    Except GoPanic (List ContigInfo × Int)
  | [], contigs, longestRE => .ok (contigs, longestRE)
  | rec :: rest, contigs, longestRE =>
      match rec[0]?, rec[1]?, rec[2]? with
      | some name, some col1, some col2 =>
          let recounts := (Atoi col1).1
          let length := (Atoi col2).1
          let ci : ContigInfo := ⟨name, recounts, length, false⟩
          readRE.loop rest (contigs ++ [ci])
            (if recounts > longestRE then recounts else longestRE)
      | _, _, _ => .error .indexOutOfRange

/-- The function `readRE`; `recs` is the result of `ReadCSVLines(r.Contigsfile)`. -/
def readRE (r : Partitioner) (recs : List (List String)) : Except GoPanic Partitioner :=
  match readRE.loop recs r.contigs 0 with
  | .error p => .error p
  | .ok out =>
      .ok { r with contigs := out.1, longestRE := out.2,
                   contigToIdx := readRE.contigToIdx out.1 }

/-- The record `readRE` makes of a row: its first column, and `strconv.Atoi` of the second
and third with the errors dropped. -/
def readRE.rowContig (rec : List String) : ContigInfo :=
  ⟨rec.getD 0 "", (Atoi (rec.getD 1 "")).1, (Atoi (rec.getD 2 "")).1, false⟩

/-- The edge `parseDist` makes of a row of eight columns. -/
def parseDist.rowPair (ParseFloat : String → F64) (rec : List String) : ContigPair :=
  ⟨(Atoi (rec.getD 0 "")).1, (Atoi (rec.getD 1 "")).1, rec.getD 2 "", rec.getD 3 "",
    (Atoi (rec.getD 4 "")).1, (Atoi (rec.getD 5 "")).1, (Atoi (rec.getD 6 "")).1,
    ParseFloat (rec.getD 7 "")⟩

/-- A freshly made `Partitioner` for the two input files and `K`. -/
def exFresh : Partitioner :=
  { Contigsfile := "counts_RE.txt", Distfile := "dist.txt", K := 2, contigs := [],
    contigToIdx := [], matrix := [], longestRE := 0, clusters := [], OutREfiles := [] }

/-- The function `parseDist`; `recs` is the result of `ReadCSVLines(r.Distfile)` and
`ParseFloat` stands for `strconv.ParseFloat(_, 64)` with its error dropped. -/
def parseDist (ParseFloat : String → F64) :
    List (List String) → Except GoPanic (List ContigPair)
  | [] => .ok []
  | rec :: rest =>
      match rec[0]?, rec[1]?, rec[2]?, rec[3]?, rec[4]?, rec[5]?, rec[6]?, rec[7]? with
      | some c0, some c1, some c2, some c3, some c4, some c5, some c6, some c7 =>
          let cp : ContigPair :=
            ⟨(Atoi c0).1, (Atoi c1).1, c2, c3, (Atoi c4).1, (Atoi c5).1, (Atoi c6).1,
              ParseFloat c7⟩
          match parseDist ParseFloat rest with
          | .error p => .error p
          | .ok edges => .ok (cp :: edges)
      | _, _, _, _, _, _, _, _ => .error .indexOutOfRange

/-! ## splitRE -/

/-- The decimal digit `d` as a character. -/
def digitChar (d : Nat) : Char := Char.ofNat (48 + d)

/-- The decimal digits of `n` in front of `acc`; `fuel` bounds the number of digits. -/
def formatNatAux : Nat → Nat → List Char → List Char
  | 0, _, acc => acc
  | fuel + 1, n, acc =>
      if n < 10 then digitChar n :: acc
      else formatNatAux fuel (n / 10) (digitChar (n % 10) :: acc)

/-- The decimal digits of `n`. -/
def formatNat (n : Nat) : List Char := formatNatAux (n + 1) n []

/-- Go's `%d` for an integer: the decimal digits, after `-` for a negative value. -/
def formatInt (x : Int) : String :=
  String.mk (if x < 0 then '-' :: formatNat x.natAbs else formatNat x.natAbs)

/-- The output name `fmt.Sprintf("%s.%dg%d.txt", base, K, j+1)` of cluster `j`. -/
def splitRE.outfile (base : String) (K j : Int) : String :=
  base ++ "." ++ formatInt K ++ "g" ++ formatInt (addInt64 j 1) ++ ".txt"

/-- The inner loop of `splitRE`: the records `r.contigs[idx]` for the indices of a
cluster, in their order; an index outside the contig list panics. -/
def splitRE.gather (contigs : List ContigInfo) : List Int → Except GoPanic (List ContigInfo)
  | [] => .ok []
  | idx :: rest =>
      if idx < 0 then .error .indexOutOfRange
      else
        match contigs[idx.toNat]? with
        | none => .error .indexOutOfRange
        | some c =>
            match splitRE.gather contigs rest with
            | .error p => .error p
            | .ok cs => .ok (c :: cs)

/-- The outer loop of `splitRE` over the entries of `r.clusters` in the order the map
iteration yields them: the calls `writeRE(outfile, contigs)` made, in order. -/
def splitRE.loop (contigs : List ContigInfo) (base : String) (K : Int) :
    List (Int × List Int) → Except GoPanic (List (String × List ContigInfo))
  | [] => .ok []
  | (j, cl) :: rest =>
      match splitRE.gather contigs cl with
      | .error p => .error p
      | .ok cs =>
          match splitRE.loop contigs base K rest with
          | .error p => .error p
          | .ok writes => .ok ((splitRE.outfile base K j, cs) :: writes)

/-- The function `splitRE`: the new state and the calls of `writeRE` it made.
`RemoveExt` is a parameter, its source not being at hand. -/
def splitRE (RemoveExt : String → String) (r : Partitioner) :
    Except GoPanic (Partitioner × List (String × List ContigInfo)) :=
  match splitRE.loop r.contigs (RemoveExt r.Contigsfile) r.K r.clusters with
  | .error p => .error p
  | .ok writes =>
      .ok ({ r with OutREfiles := r.OutREfiles ++ writes.map (fun w => w.1) }, writes)

/-! ## Quantities used in the statements on `skipRepeats` -/

/-- The contigs, with their positions, whose factor as `skipRepeats` computes it reaches
`MaxLinkDensity`. -/
def skipRepeats.reaching (MaxLinkDensity : F64) (r : Partitioner) : List (Nat × ContigInfo) :=
  (r.contigs.enumFrom 0).filter (fun p =>
    F64.ge
      (skipRepeats.factor (skipRepeats.countLinks r.matrix r.contigs.length).2
        (skipRepeats.nLinksAvg (skipRepeats.countLinks r.matrix r.contigs.length).1
          r.contigs.length) p.1)
      MaxLinkDensity)

/-- The sum of `f i` over `i < n`. -/
def sumBelow (n : Nat) (f : Nat → Int) : Int := ((List.range n).map f).sum

/-- The exact sum of `M[i][j]` over the pairs `i < j < N`. -/
def pairTotal (M : Matrix) (N : Nat) : Int :=
  sumBelow N (fun i => sumBelow N (fun j => if i < j then mget M i j else 0))

/-- The exact sum of the entries of the pairs `i < j < N` that contain `k`: `M[k][j]` for
`k < j` and `M[j][k]` for `j < k`. -/
def linkTotal (M : Matrix) (N k : Nat) : Int :=
  sumBelow N (fun j => if k < j then mget M k j else if j < k then mget M j k else 0)

/-- The exact sum of row `k` of `M` over the columns below `N`. -/
def rowTotal (M : Matrix) (N k : Nat) : Int := sumBelow N (fun j => mget M k j)

/-- The number of contigs whose flag `skip` is false in `before` and true in `after`. -/
def newlyMarked (before after : List ContigInfo) : Nat :=
  ((before.zip after).filter (fun p => !p.1.skip && p.2.skip)).length

/-- The rescaled entry as the specification words it, in exact arithmetic:
`ceil(x / factor)` with `factor = linksOf / avgLinks` and `avgLinks = 2 * totalLinks / N`. -/
def specRescale (x linksOf totalLinks : Int) (N : Nat) : Int :=
  Int.ceil ((x : ℚ) / ((linksOf : ℚ) / (2 * (totalLinks : ℚ) / (N : ℚ))))

/-! ## Decomposition of float rounding, used in the bounds on `skipRepeats` -/

/-- The exponent `F64.round` chooses for `p / q`. -/
def F64.roundExp (p q : Nat) : Int :=
  let e1 : Int := (bitLen p : Int) - (bitLen q : Int) - 52
  let e2 : Int := if p * 2 ^ (-e1).toNat / (q * 2 ^ e1.toNat) < 2 ^ 52 then e1 - 1 else e1
  if e2 < -1074 then -1074 else e2

/-- The mantissa `F64.round` gives `p / q` at the exponent `e`, before renormalisation. -/
def F64.roundMant (p q : Nat) (e : Int) : Nat :=
  let num := p * 2 ^ (-e).toNat
  let den := q * 2 ^ e.toNat
  let m0 := num / den
  let r := num % den
  if den < 2 * r ∨ (2 * r = den ∧ m0 % 2 = 1) then m0 + 1 else m0

/-- A finite positive float `x` with `2^lo ≤ x ≤ 2^hi`. -/
def F64.Between (x : F64) (lo hi : Int) : Prop :=
  ∃ m e, x = F64.fin false m e ∧ (2 : ℚ) ^ lo ≤ (m : ℚ) * (2 : ℚ) ^ e ∧
    (m : ℚ) * (2 : ℚ) ^ e ≤ (2 : ℚ) ^ hi

/-! ## Lemmas on `int64` arithmetic -/

theorem wrapInt64_of_inRange (x : Int) (hlo : -2 ^ 63 ≤ x) (hhi : x < 2 ^ 63) :
    wrapInt64 x = x := by
  unfold wrapInt64
  rw [Int.emod_eq_of_lt (by omega) (by omega)]
  omega

theorem wrapInt64_zero : wrapInt64 0 = 0 := by decide

theorem wrapInt64_modEq (x : Int) : (wrapInt64 x) % 2 ^ 64 = x % 2 ^ 64 := by
  unfold wrapInt64
  omega

theorem wrapInt64_congr (x y : Int) (h : x % 2 ^ 64 = y % 2 ^ 64) :
    wrapInt64 x = wrapInt64 y := by
  unfold wrapInt64
  omega

theorem mulInt64_wrap_right (x y : Int) : mulInt64 x (wrapInt64 y) = wrapInt64 (x * y) := by
  unfold mulInt64
  apply wrapInt64_congr
  rw [Int.mul_emod, wrapInt64_modEq, ← Int.mul_emod]

theorem tdiv_inRange (a b : Int) (hb : 0 < b) (hlo : -2 ^ 63 ≤ a) (hhi : a < 2 ^ 63) :
    -2 ^ 63 ≤ Int.tdiv a b ∧ Int.tdiv a b < 2 ^ 63 := by
  rcases Int.lt_or_le a 0 with ha | ha
  · have hneg : Int.tdiv a b = -(Int.tdiv (-a) b) := by
      rw [Int.neg_tdiv]; omega
    have h1 : 0 ≤ Int.tdiv (-a) b := Int.tdiv_nonneg (by omega) (by omega)
    have h2 : Int.tdiv (-a) b ≤ -a := by
      rw [Int.tdiv_eq_ediv (by omega) (by omega)]
      exact Int.ediv_le_self b (by omega)
    omega
  · have h1 : 0 ≤ Int.tdiv a b := Int.tdiv_nonneg ha (by omega)
    have h2 : Int.tdiv a b ≤ a := by
      rw [Int.tdiv_eq_ediv ha (by omega)]
      exact Int.ediv_le_self b ha
    omega

/-- Without overflow the weight of an edge is the exact quotient, truncated toward zero. -/
theorem weight_exact (L : Int) (e : ContigPair) (h1 : 0 < e.RE1) (h2 : 0 < e.RE2)
    (hden : e.RE1 * e.RE2 < 2 ^ 63)
    (hlo : -2 ^ 63 ≤ e.nObservedLinks * L * L) (hhi : e.nObservedLinks * L * L < 2 ^ 63) :
    makeMatrix.weight (mulInt64 L L) e =
      Int.tdiv (e.nObservedLinks * L * L) (e.RE1 * e.RE2) := by
  have hpos : 0 < e.RE1 * e.RE2 := Int.mul_pos h1 h2
  unfold makeMatrix.weight divInt64
  have hnum : mulInt64 e.nObservedLinks (mulInt64 L L) = e.nObservedLinks * L * L := by
    unfold mulInt64
    rw [← mulInt64, mulInt64_wrap_right, ← Int.mul_assoc]
    exact wrapInt64_of_inRange _ hlo hhi
  have hd : mulInt64 e.RE1 e.RE2 = e.RE1 * e.RE2 :=
    wrapInt64_of_inRange _ (by omega) hden
  rw [hnum, hd]
  obtain ⟨hl, hh⟩ := tdiv_inRange _ _ hpos hlo hhi
  exact wrapInt64_of_inRange _ hl hh

/-! ## The `float64` model on known values -/

/-- The model agrees with IEEE-754 binary64 on standard values: `1.0`, `1/3` and `1/10`
have the bit patterns `0x3FF0…0`, `0x3FD5555555555555` and `0x3FB999999999999A`;
`2^53 + 1` rounds to the even neighbour `2^53` and `2^53 + 3` to `2^53 + 4`; a zero
divisor gives an infinity or NaN; `Ceil(3.5) = 4` and `Ceil(-0.5) = -0`; NaN compares
false. -/
theorem F64.known_values :
    F64.ofInt 1 = F64.fin false 4503599627370496 (-52) ∧
      F64.div (F64.ofInt 1) (F64.ofInt 3) = F64.fin false 6004799503160661 (-54) ∧
      F64.div (F64.ofInt 1) (F64.ofInt 10) = F64.fin false 7205759403792794 (-56) ∧
      F64.ofInt 9007199254740993 = F64.ofInt 9007199254740992 ∧
      F64.ofInt 9007199254740995 = F64.ofInt 9007199254740996 ∧
      F64.div (F64.ofInt 1) (F64.ofInt 0) = F64.inf false ∧
      F64.div (F64.ofInt 0) (F64.ofInt 0) = F64.nan ∧
      F64.ceil (F64.div (F64.ofInt 7) (F64.ofInt 2)) = F64.ofInt 4 ∧
      F64.ceil (F64.div (F64.ofInt (-1)) (F64.ofInt 2)) = F64.fin true 0 (-1074) ∧
      F64.toInt64 (F64.div (F64.ofInt (-7)) (F64.ofInt 2)) = -3 ∧
      F64.ge F64.nan F64.nan = false ∧
      F64.ge (F64.ofInt 2) (F64.div (F64.ofInt 4) (F64.ofInt 2)) = true := by
  decide!

/-! ## Matrix lemmas -/

theorem mget_mset_of_ne (M : Matrix) (i j k l : Nat) (v : Int) (h : ¬(k = i ∧ l = j)) :
    mget (mset M i j v) k l = mget M k l := by
  unfold mget mset
  simp only [List.getD_eq_getElem?_getD, List.getElem?_set]
  by_cases hki : i = k
  · subst hki
    by_cases hlen : i < M.length
    · have hlj : ¬ j = l := fun hjl => h ⟨rfl, hjl.symm⟩
      simp [hlen, hlj]
    · simp [hlen]
      have : M[i]? = none := by simp; omega
      simp [this]
  · simp [hki]

theorem mget_mset_self (M : Matrix) (i j : Nat) (v : Int) (hi : i < M.length)
    (hj : j < (M.getD i []).length) : mget (mset M i j v) i j = v := by
  unfold mget mset
  simp only [List.getD_eq_getElem?_getD, List.getElem?_set] at hj ⊢
  have hrow : M[i]? = some M[i] := List.getElem?_eq_getElem hi
  rw [hrow] at hj
  simp only [Option.getD_some] at hj
  simp [hi, hrow, hj]

theorem length_mset (M : Matrix) (i j : Nat) (v : Int) : (mset M i j v).length = M.length := by
  simp [mset]

theorem rowLength_mset (M : Matrix) (i j k : Nat) (v : Int) :
    ((mset M i j v).getD k []).length = (M.getD k []).length := by
  unfold mset
  simp only [List.getD_eq_getElem?_getD, List.getElem?_set]
  by_cases hki : i = k
  · subst hki
    by_cases hlen : i < M.length
    · simp [hlen]
    · have : M[i]? = none := by simp; omega
      simp [hlen, this]
  · simp [hki]

theorem IsSquare.mset {N : Nat} {M : Matrix} (h : IsSquare N M) (i j : Nat) (v : Int) :
    IsSquare N (mset M i j v) := by
  refine ⟨by rw [length_mset]; exact h.1, fun k hk => ?_⟩
  rw [rowLength_mset]; exact h.2 k hk

theorem isSquare_make (N : Nat) : IsSquare N (Make2DSliceInt64 N N) := by
  refine ⟨by simp [Make2DSliceInt64], fun i hi => ?_⟩
  simp [Make2DSliceInt64, List.getD_eq_getElem?_getD, List.getElem?_replicate, hi]

theorem mget_make (m n i j : Nat) : mget (Make2DSliceInt64 m n) i j = 0 := by
  unfold mget Make2DSliceInt64
  simp only [List.getD_eq_getElem?_getD, List.getElem?_replicate]
  by_cases hi : i < m
  · by_cases hj : j < n <;> simp [hi, hj]
  · simp [hi]

/-! ## Lemmas on the loop of `makeMatrix` -/

theorem loop_nil (idx : List (String × Nat)) (ls : Int) (M : Matrix) :
    makeMatrix.loop idx ls [] M = .ok M := rfl

theorem loop_cons_self (idx : List (String × Nat)) (ls : Int) (e : ContigPair)
    (rest : List ContigPair) (M : Matrix) (h : mapIndex idx e.at_ = mapIndex idx e.bt) :
    makeMatrix.loop idx ls (e :: rest) M = makeMatrix.loop idx ls rest M := by
  simp [makeMatrix.loop, h]

theorem loop_cons_zero (idx : List (String × Nat)) (ls : Int) (e : ContigPair)
    (rest : List ContigPair) (M : Matrix) (h : mapIndex idx e.at_ ≠ mapIndex idx e.bt)
    (hz : mulInt64 e.RE1 e.RE2 = 0) :
    makeMatrix.loop idx ls (e :: rest) M = .error .integerDivideByZero := by
  simp [makeMatrix.loop, h, hz]

theorem loop_cons_store (idx : List (String × Nat)) (ls : Int) (e : ContigPair)
    (rest : List ContigPair) (M : Matrix) {N : Nat} (hM : IsSquare N M)
    (h : mapIndex idx e.at_ ≠ mapIndex idx e.bt) (hz : mulInt64 e.RE1 e.RE2 ≠ 0)
    (ha : mapIndex idx e.at_ < N) (hb : mapIndex idx e.bt < N) :
    makeMatrix.loop idx ls (e :: rest) M =
      makeMatrix.loop idx ls rest
        (mset (mset M (mapIndex idx e.at_) (mapIndex idx e.bt) (makeMatrix.weight ls e))
          (mapIndex idx e.bt) (mapIndex idx e.at_) (makeMatrix.weight ls e)) := by
  have h1 : mapIndex idx e.at_ < M.length ∧
      mapIndex idx e.bt < (M.getD (mapIndex idx e.at_) []).length := by
    rw [hM.1, hM.2 _ ha]; exact ⟨ha, hb⟩
  have hM1 := hM.mset (mapIndex idx e.at_) (mapIndex idx e.bt) (makeMatrix.weight ls e)
  have h2 : mapIndex idx e.bt <
      (mset M (mapIndex idx e.at_) (mapIndex idx e.bt) (makeMatrix.weight ls e)).length ∧
      mapIndex idx e.at_ <
        ((mset M (mapIndex idx e.at_) (mapIndex idx e.bt) (makeMatrix.weight ls e)).getD
          (mapIndex idx e.bt) []).length := by
    rw [hM1.1, hM1.2 _ hb]; exact ⟨hb, ha⟩
  simp only [makeMatrix.loop, h, hz, msetChecked, h1, h2, if_false, if_true, and_self]

/-- What a completed iteration did: a self-pair leaves the matrix alone; any other edge
had a non-zero divisor and indices inside the matrix, and stored its weight twice. -/
theorem loop_cons_ok (idx : List (String × Nat)) (ls : Int) (e : ContigPair)
    (rest : List ContigPair) (M M' : Matrix)
    (h : makeMatrix.loop idx ls (e :: rest) M = .ok M') :
    (mapIndex idx e.at_ = mapIndex idx e.bt ∧ makeMatrix.loop idx ls rest M = .ok M') ∨
    (mapIndex idx e.at_ ≠ mapIndex idx e.bt ∧ mulInt64 e.RE1 e.RE2 ≠ 0 ∧
      (mapIndex idx e.at_ < M.length ∧
        mapIndex idx e.bt < (M.getD (mapIndex idx e.at_) []).length) ∧
      (mapIndex idx e.bt <
          (mset M (mapIndex idx e.at_) (mapIndex idx e.bt) (makeMatrix.weight ls e)).length ∧
        mapIndex idx e.at_ <
          ((mset M (mapIndex idx e.at_) (mapIndex idx e.bt) (makeMatrix.weight ls e)).getD
            (mapIndex idx e.bt) []).length) ∧
      makeMatrix.loop idx ls rest
        (mset (mset M (mapIndex idx e.at_) (mapIndex idx e.bt) (makeMatrix.weight ls e))
          (mapIndex idx e.bt) (mapIndex idx e.at_) (makeMatrix.weight ls e)) = .ok M') := by
  by_cases hab : mapIndex idx e.at_ = mapIndex idx e.bt
  · left
    rw [loop_cons_self idx ls e rest M hab] at h
    exact ⟨hab, h⟩
  · right
    by_cases hz : mulInt64 e.RE1 e.RE2 = 0
    · rw [loop_cons_zero idx ls e rest M hab hz] at h
      cases h
    · by_cases h1 : mapIndex idx e.at_ < M.length ∧
          mapIndex idx e.bt < (M.getD (mapIndex idx e.at_) []).length
      · by_cases h2 : mapIndex idx e.bt <
            (mset M (mapIndex idx e.at_) (mapIndex idx e.bt)
              (makeMatrix.weight ls e)).length ∧
            mapIndex idx e.at_ <
              ((mset M (mapIndex idx e.at_) (mapIndex idx e.bt)
                (makeMatrix.weight ls e)).getD (mapIndex idx e.bt) []).length
        · refine ⟨hab, hz, h1, h2, ?_⟩
          simpa only [makeMatrix.loop, hab, hz, msetChecked, h1, h2, if_false, if_true,
            and_self] using h
        · simp only [makeMatrix.loop, hab, hz, msetChecked, h1, h2, if_false, if_true,
            and_self] at h
          cases h
      · simp only [makeMatrix.loop, hab, hz, msetChecked, h1, if_false, if_true,
          and_self] at h
        cases h

theorem loop_append (idx : List (String × Nat)) (ls : Int) (xs ys : List ContigPair)
    (M : Matrix) :
    makeMatrix.loop idx ls (xs ++ ys) M =
      match makeMatrix.loop idx ls xs M with
      | .error p => .error p
      | .ok M1 => makeMatrix.loop idx ls ys M1 := by
  induction xs generalizing M with
  | nil => simp [makeMatrix.loop]
  | cons e rest ih =>
    simp only [List.cons_append, makeMatrix.loop]
    split
    · exact ih M
    · split
      · rfl
      · split
        · rfl
        · split
          · rfl
          · exact ih _

theorem loop_isSquare (idx : List (String × Nat)) (ls : Int) (N : Nat)
    (es : List ContigPair) (M M' : Matrix)
    (h : makeMatrix.loop idx ls es M = .ok M') (hM : IsSquare N M) : IsSquare N M' := by
  induction es generalizing M with
  | nil =>
    rw [loop_nil] at h
    cases h
    exact hM
  | cons e rest ih =>
    rcases loop_cons_ok idx ls e rest M M' h with ⟨_, h'⟩ | ⟨_, _, _, _, h'⟩
    · exact ih M h' hM
    · exact ih _ h' ((hM.mset _ _ _).mset _ _ _)

/-- Edges that do not resolve to `{a, b}` leave `M[a][b]` alone. -/
theorem loop_untouched (idx : List (String × Nat)) (ls : Int) (a b : Nat)
    (es : List ContigPair) (M M' : Matrix)
    (h : makeMatrix.loop idx ls es M = .ok M')
    (hno : ∀ e ∈ es, ¬ touches idx e a b) : mget M' a b = mget M a b := by
  induction es generalizing M with
  | nil =>
    rw [loop_nil] at h
    cases h
    rfl
  | cons e rest ih =>
    have hrest : ∀ x ∈ rest, ¬ touches idx x a b := fun x hx => hno x (List.mem_cons_of_mem _ hx)
    have he : ¬ touches idx e a b := hno e (List.mem_cons_self _ _)
    rcases loop_cons_ok idx ls e rest M M' h with ⟨_, h'⟩ | ⟨_, _, _, _, h'⟩
    · exact ih M h' hrest
    · rw [ih _ h' hrest, mget_mset_of_ne, mget_mset_of_ne]
      · intro hc
        exact he (Or.inl ⟨hc.1.symm, hc.2.symm⟩)
      · intro hc
        exact he (Or.inr ⟨hc.2.symm, hc.1.symm⟩)

/-- The entries at `[a][b]` and `[b][a]` after an iteration that stored the weight `w`. -/
theorem mget_store (M : Matrix) (a b : Nat) (w : Int) (hab : a ≠ b)
    (h1 : a < M.length ∧ b < (M.getD a []).length)
    (h2 : b < (mset M a b w).length ∧ a < ((mset M a b w).getD b []).length) :
    mget (mset (mset M a b w) b a w) a b = w ∧ mget (mset (mset M a b w) b a w) b a = w := by
  constructor
  · rw [mget_mset_of_ne _ _ _ _ _ _ (fun hc => hab hc.1), mget_mset_self _ _ _ _ h1.1 h1.2]
  · rw [mget_mset_self _ _ _ _ h2.1 h2.2]

/-- Last write wins: after an edge that resolves to `{a, b}` and is followed by no other
such edge, both entries hold that edge's weight. -/
theorem loop_last (idx : List (String × Nat)) (ls : Int) (a b : Nat) (hab : a ≠ b)
    (e : ContigPair) (post : List ContigPair) (M M' : Matrix)
    (h : makeMatrix.loop idx ls (e :: post) M = .ok M')
    (he : touches idx e a b) (hno : ∀ x ∈ post, ¬ touches idx x a b) :
    mget M' a b = makeMatrix.weight ls e ∧ mget M' b a = makeMatrix.weight ls e := by
  have hno' : ∀ x ∈ post, ¬ touches idx x b a := fun x hx hc => hno x hx (Or.symm hc)
  rcases loop_cons_ok idx ls e post M M' h with ⟨hself, _⟩ | ⟨hne, _, h1, h2, h'⟩
  · exfalso
    rcases he with ⟨ha, hb⟩ | ⟨ha, hb⟩
    · exact hab (by rw [← ha, ← hb]; exact hself)
    · exact hab (by rw [← ha, ← hb]; exact hself.symm)
  · rw [loop_untouched idx ls a b post _ M' h' hno, loop_untouched idx ls b a post _ M' h' hno']
    have hst := mget_store M _ _ (makeMatrix.weight ls e) hne h1 h2
    rcases he with ⟨ha, hb⟩ | ⟨ha, hb⟩
    · rw [← ha, ← hb]; exact hst
    · rw [← ha, ← hb]; exact ⟨hst.2, hst.1⟩

/-- The loop keeps a matrix symmetric with a zero diagonal. -/
theorem loop_symm (idx : List (String × Nat)) (ls : Int) (es : List ContigPair)
    (M M' : Matrix) (h : makeMatrix.loop idx ls es M = .ok M')
    (hsym : ∀ a b, mget M a b = mget M b a) (hdiag : ∀ i, mget M i i = 0) :
    (∀ a b, mget M' a b = mget M' b a) ∧ ∀ i, mget M' i i = 0 := by
  induction es generalizing M with
  | nil =>
    rw [loop_nil] at h
    cases h
    exact ⟨hsym, hdiag⟩
  | cons e rest ih =>
    rcases loop_cons_ok idx ls e rest M M' h with ⟨_, h'⟩ | ⟨hne, _, h1, h2, h'⟩
    · exact ih M h' hsym hdiag
    · have hst := mget_store M _ _ (makeMatrix.weight ls e) hne h1 h2
      refine ih _ h' ?_ ?_
      · intro x y
        by_cases hxy : (x = mapIndex idx e.at_ ∧ y = mapIndex idx e.bt)
        · rw [hxy.1, hxy.2, hst.1, hst.2]
        · by_cases hyx : (x = mapIndex idx e.bt ∧ y = mapIndex idx e.at_)
          · rw [hyx.1, hyx.2, hst.1, hst.2]
          · rw [mget_mset_of_ne _ _ _ _ _ _ hyx, mget_mset_of_ne _ _ _ _ _ _ hxy,
              mget_mset_of_ne _ _ _ _ _ _ (fun hc => hxy ⟨hc.2, hc.1⟩),
              mget_mset_of_ne _ _ _ _ _ _ (fun hc => hyx ⟨hc.2, hc.1⟩)]
            exact hsym x y
      · intro i
        rw [mget_mset_of_ne _ _ _ _ _ _ (fun hc => hne (hc.2.symm.trans hc.1)),
          mget_mset_of_ne _ _ _ _ _ _ (fun hc => hne (hc.1.symm.trans hc.2))]
        exact hdiag i

theorem lookup_mem (idx : List (String × Nat)) (key : String) (i : Nat)
    (h : idx.lookup key = some i) : ∃ kv ∈ idx, kv.2 = i := by
  induction idx with
  | nil => simp at h
  | cons kv rest ih =>
    obtain ⟨k, v⟩ := kv
    by_cases hk : key == k
    · rw [List.lookup_cons, hk] at h
      exact ⟨(k, v), List.mem_cons_self _ _, by simpa using h⟩
    · rw [List.lookup_cons] at h
      simp only [hk] at h
      obtain ⟨kv', hmem, hv⟩ := ih h
      exact ⟨kv', List.mem_cons_of_mem _ hmem, hv⟩

/-- With every stored index below `N`, two names that resolve to different indices both
resolve below `N` (an absent name resolves to `0`). -/
theorem mapIndex_lt (idx : List (String × Nat)) (N : Nat) (hidx : InRange idx N)
    (x y : String) (hne : mapIndex idx x ≠ mapIndex idx y) :
    mapIndex idx x < N ∧ mapIndex idx y < N := by
  have key : ∀ k, mapIndex idx k ≠ 0 → mapIndex idx k < N := by
    intro k hk
    unfold mapIndex at hk ⊢
    cases hl : idx.lookup k with
    | none => rw [hl] at hk; simp at hk
    | some i =>
      obtain ⟨kv, hmem, hv⟩ := lookup_mem idx k i hl
      simp only [Option.getD_some]
      rw [← hv]; exact hidx kv hmem
  have hpos : 0 < N := by
    by_cases hx : mapIndex idx x = 0
    · have hy : mapIndex idx y ≠ 0 := fun hy => hne (hx.trans hy.symm)
      exact Nat.lt_of_le_of_lt (Nat.zero_le _) (key y hy)
    · exact Nat.lt_of_le_of_lt (Nat.zero_le _) (key x hx)
  constructor
  · by_cases hx : mapIndex idx x = 0
    · rw [hx]; exact hpos
    · exact key x hx
  · by_cases hy : mapIndex idx y = 0
    · rw [hy]; exact hpos
    · exact key y hy

theorem inRange_indexLoop (contigs : List ContigInfo) (i : Nat) (m : List (String × Nat))
    (hm : InRange m i) : InRange (readRE.indexLoop contigs i m) (i + contigs.length) := by
  induction contigs generalizing i m with
  | nil => simpa [readRE.indexLoop] using hm
  | cons c rest ih =>
    have hstep : InRange (mapAssign m c.name i) (i + 1) := by
      intro kv hkv
      unfold mapAssign at hkv
      rcases List.mem_cons.1 hkv with h | h
      · rw [h]; exact Nat.lt_succ_self i
      · exact Nat.lt_succ_of_lt (hm kv (List.mem_filter.1 h).1)
    have := ih (i + 1) (mapAssign m c.name i) hstep
    simp only [readRE.indexLoop, List.length_cons]
    rw [show i + (rest.length + 1) = i + 1 + rest.length by omega]
    exact this

/-- The map `readRE` builds only holds positions of the contig list. -/
theorem inRange_contigToIdx (contigs : List ContigInfo) :
    InRange (readRE.contigToIdx contigs) contigs.length := by
  have := inRange_indexLoop contigs 0 [] (fun kv hkv => by cases hkv)
  simpa [readRE.contigToIdx] using this

/-- On a square matrix and an in-range map the loop completes exactly when no iteration
divides by zero; in particular it never indexes outside the matrix. -/
theorem loop_total (idx : List (String × Nat)) (ls : Int) (N : Nat) (hidx : InRange idx N)
    (es : List ContigPair) (M : Matrix) (hM : IsSquare N M)
    (hnz : ∀ e ∈ es, mapIndex idx e.at_ ≠ mapIndex idx e.bt → mulInt64 e.RE1 e.RE2 ≠ 0) :
    ∃ M', makeMatrix.loop idx ls es M = .ok M' := by
  induction es generalizing M with
  | nil => exact ⟨M, rfl⟩
  | cons e rest ih =>
    have hrest : ∀ x ∈ rest, mapIndex idx x.at_ ≠ mapIndex idx x.bt →
        mulInt64 x.RE1 x.RE2 ≠ 0 := fun x hx => hnz x (List.mem_cons_of_mem _ hx)
    by_cases hab : mapIndex idx e.at_ = mapIndex idx e.bt
    · rw [loop_cons_self idx ls e rest M hab]
      exact ih M hM hrest
    · have hz := hnz e (List.mem_cons_self _ _) hab
      obtain ⟨ha, hb⟩ := mapIndex_lt idx N hidx _ _ hab
      rw [loop_cons_store idx ls e rest M hM hab hz ha hb]
      exact ih _ ((hM.mset _ _ _).mset _ _ _) hrest

/-- On a square matrix and an in-range map, an edge between two different indices whose
site-count product is zero makes the loop end in the divide-by-zero panic. -/
theorem loop_divideByZero (idx : List (String × Nat)) (ls : Int) (N : Nat)
    (hidx : InRange idx N) (es : List ContigPair) (M : Matrix) (hM : IsSquare N M)
    (hz : ∃ e ∈ es, mapIndex idx e.at_ ≠ mapIndex idx e.bt ∧ mulInt64 e.RE1 e.RE2 = 0) :
    makeMatrix.loop idx ls es M = .error .integerDivideByZero := by
  induction es generalizing M with
  | nil =>
    obtain ⟨e, he, _⟩ := hz
    cases he
  | cons e rest ih =>
    by_cases hab : mapIndex idx e.at_ = mapIndex idx e.bt
    · rw [loop_cons_self idx ls e rest M hab]
      apply ih M hM
      obtain ⟨x, hx, hxne, hxz⟩ := hz
      rcases List.mem_cons.1 hx with h | h
      · exact absurd hab (h ▸ hxne)
      · exact ⟨x, h, hxne, hxz⟩
    · by_cases hez : mulInt64 e.RE1 e.RE2 = 0
      · exact loop_cons_zero idx ls e rest M hab hez
      · obtain ⟨ha, hb⟩ := mapIndex_lt idx N hidx _ _ hab
        rw [loop_cons_store idx ls e rest M hM hab hez ha hb]
        apply ih _ ((hM.mset _ _ _).mset _ _ _)
        obtain ⟨x, hx, hxne, hxz⟩ := hz
        rcases List.mem_cons.1 hx with h | h
        · exact absurd hxz (h ▸ hez)
        · exact ⟨x, h, hxne, hxz⟩

/-! ## Lemmas on the loops of `skipRepeats` -/

/-- The inner loop after its first `n` columns: row `i` is rescaled in the columns below
`n`, every other entry is as before. -/
theorem adjustRow_prefix (factor : F64) (N i : Nat) (M : Matrix) (hM : IsSquare N M)
    (hi : i < N) (n : Nat) (hn : n ≤ N) :
    IsSquare N ((List.range n).foldl
        (fun M j =>
          if mget M i j ≠ 0 then mset M i j (skipRepeats.rescale factor (mget M i j)) else M)
        M) ∧
      ∀ k l, mget ((List.range n).foldl
        (fun M j =>
          if mget M i j ≠ 0 then mset M i j (skipRepeats.rescale factor (mget M i j)) else M)
        M) k l =
        if k = i ∧ l < n then
          (if mget M i l ≠ 0 then skipRepeats.rescale factor (mget M i l) else mget M i l)
        else mget M k l := by
  induction n with
  | zero => exact ⟨hM, fun k l => by simp⟩
  | succ n ih =>
    obtain ⟨hsq, hget⟩ := ih (Nat.le_of_succ_le hn)
    rw [List.range_succ, List.foldl_append]
    simp only [List.foldl_cons, List.foldl_nil]
    generalize (List.range n).foldl
        (fun M j =>
          if mget M i j ≠ 0 then mset M i j (skipRepeats.rescale factor (mget M i j)) else M)
        M = Mn at hsq hget
    have hcur : mget Mn i n = mget M i n := by
      rw [hget]; simp
    rw [hcur]
    by_cases hz : mget M i n ≠ 0
    · rw [if_pos hz]
      refine ⟨hsq.mset _ _ _, fun k l => ?_⟩
      by_cases hkl : k = i ∧ l = n
      · obtain ⟨hk, hl⟩ := hkl
        subst hk; subst hl
        rw [mget_mset_self _ _ _ _ (by rw [hsq.1]; exact hi)
          (by rw [hsq.2 _ hi]; exact hn)]
        simp [hz]
      · rw [mget_mset_of_ne _ _ _ _ _ _ hkl, hget]
        by_cases hk : k = i
        · have hl : l ≠ n := fun h => hkl ⟨hk, h⟩
          have : (l < n + 1) ↔ (l < n) := by omega
          simp [hk, this]
        · simp [hk]
    · rw [if_neg hz]
      refine ⟨hsq, fun k l => ?_⟩
      rw [hget]
      by_cases hkl : k = i ∧ l = n
      · obtain ⟨hk, hl⟩ := hkl
        subst hk; subst hl
        simp [hz]
      · by_cases hk : k = i
        · have hl : l ≠ n := fun h => hkl ⟨hk, h⟩
          have : (l < n + 1) ↔ (l < n) := by omega
          simp [hk, this]
        · simp [hk]

/-- The inner loop rescales the non-zero entries of row `i` and nothing else. -/
theorem adjustRow_spec (factor : F64) (N i : Nat) (M : Matrix) (hM : IsSquare N M)
    (hi : i < N) :
    IsSquare N (skipRepeats.adjustRow factor N i M) ∧
      ∀ k l, mget (skipRepeats.adjustRow factor N i M) k l =
        if k = i ∧ l < N then
          (if mget M i l ≠ 0 then skipRepeats.rescale factor (mget M i l) else mget M i l)
        else mget M k l :=
  adjustRow_prefix factor N i M hM hi N (Nat.le_refl N)

/-- The contigs left by the second loop: the contig at position `i + k` is marked when
its factor reaches the threshold and is otherwise as before. -/
theorem skipRepeats_loop_contigs (MaxLinkDensity : F64) (nLinks : List Int) (nLinksAvg : F64)
    (N : Nat) (contigs : List ContigInfo) (i : Nat) (M : Matrix)
    (nRepetitive repetitiveLength : Int) :
    (skipRepeats.loop MaxLinkDensity nLinks nLinksAvg N contigs i M nRepetitive
        repetitiveLength).contigs.length = contigs.length ∧
      ∀ (k : Nat) (c : ContigInfo), contigs[k]? = some c →
        (skipRepeats.loop MaxLinkDensity nLinks nLinksAvg N contigs i M nRepetitive
          repetitiveLength).contigs[k]? =
          some (if F64.ge (skipRepeats.factor nLinks nLinksAvg (i + k)) MaxLinkDensity
            then { c with skip := true } else c) := by
  induction contigs generalizing i M nRepetitive repetitiveLength with
  | nil => exact ⟨rfl, fun k c h => by simp at h⟩
  | cons c0 rest ih =>
    unfold skipRepeats.loop
    by_cases hge : F64.ge (skipRepeats.factor nLinks nLinksAvg i) MaxLinkDensity = true
    · simp only [hge, if_true]
      obtain ⟨hlen, hget⟩ := ih (i + 1)
        (skipRepeats.adjustRow (skipRepeats.factor nLinks nLinksAvg i) N i M)
        (addInt64 nRepetitive 1) (addInt64 repetitiveLength c0.length)
      refine ⟨by simp [hlen], fun k c hk => ?_⟩
      cases k with
      | zero =>
        simp only [List.getElem?_cons_zero, Option.some.injEq] at hk
        subst hk
        simp [hge]
      | succ k =>
        simp only [List.getElem?_cons_succ] at hk ⊢
        rw [hget k c hk, show i + 1 + k = i + (k + 1) by omega]
    · have hf : F64.ge (skipRepeats.factor nLinks nLinksAvg i) MaxLinkDensity = false := by
        simpa using hge
      simp only [hf, Bool.false_eq_true, if_false]
      obtain ⟨hlen, hget⟩ := ih (i + 1)
        (skipRepeats.adjustRow (skipRepeats.factor nLinks nLinksAvg i) N i M)
        nRepetitive repetitiveLength
      refine ⟨by simp [hlen], fun k c hk => ?_⟩
      cases k with
      | zero =>
        simp only [List.getElem?_cons_zero, Option.some.injEq] at hk
        subst hk
        simp [hf]
      | succ k =>
        simp only [List.getElem?_cons_succ] at hk ⊢
        rw [hget k c hk, show i + 1 + k = i + (k + 1) by omega]

/-- The matrix left by the second loop, run from position `i` over the remaining contigs:
each row it visits is rescaled by that row's factor, every other row is untouched. -/
theorem skipRepeats_loop_matrix (MaxLinkDensity : F64) (nLinks : List Int) (nLinksAvg : F64)
    (N : Nat) (contigs : List ContigInfo) (i : Nat) (M : Matrix)
    (nRepetitive repetitiveLength : Int) (hM : IsSquare N M) (hN : i + contigs.length ≤ N) :
    IsSquare N (skipRepeats.loop MaxLinkDensity nLinks nLinksAvg N contigs i M nRepetitive
        repetitiveLength).matrix ∧
      ∀ k l, mget (skipRepeats.loop MaxLinkDensity nLinks nLinksAvg N contigs i M nRepetitive
          repetitiveLength).matrix k l =
        if (i ≤ k ∧ k < i + contigs.length) ∧ l < N then
          (if mget M k l ≠ 0 then
            skipRepeats.rescale (skipRepeats.factor nLinks nLinksAvg k) (mget M k l)
          else mget M k l)
        else mget M k l := by
  induction contigs generalizing i M nRepetitive repetitiveLength with
  | nil =>
    refine ⟨hM, fun k l => ?_⟩
    simp only [skipRepeats.loop, List.length_nil, Nat.add_zero]
    rw [if_neg (by omega)]
  | cons c0 rest ih =>
    have hi : i < N := by simp only [List.length_cons] at hN; omega
    have hrest : i + 1 + rest.length ≤ N := by simp only [List.length_cons] at hN; omega
    obtain ⟨hsq1, hget1⟩ :=
      adjustRow_spec (skipRepeats.factor nLinks nLinksAvg i) N i M hM hi
    have key : ∀ (n len : Int),
        IsSquare N (skipRepeats.loop MaxLinkDensity nLinks nLinksAvg N rest (i + 1)
          (skipRepeats.adjustRow (skipRepeats.factor nLinks nLinksAvg i) N i M) n len).matrix ∧
        ∀ k l, mget (skipRepeats.loop MaxLinkDensity nLinks nLinksAvg N rest (i + 1)
          (skipRepeats.adjustRow (skipRepeats.factor nLinks nLinksAvg i) N i M) n len).matrix
            k l =
          if (i ≤ k ∧ k < i + (c0 :: rest).length) ∧ l < N then
            (if mget M k l ≠ 0 then
              skipRepeats.rescale (skipRepeats.factor nLinks nLinksAvg k) (mget M k l)
            else mget M k l)
          else mget M k l := by
      intro n len
      obtain ⟨hsq2, hget2⟩ := ih (i + 1)
        (skipRepeats.adjustRow (skipRepeats.factor nLinks nLinksAvg i) N i M) n len hsq1 hrest
      refine ⟨hsq2, fun k l => ?_⟩
      rw [hget2, hget1]
      simp only [List.length_cons]
      by_cases hki : k = i
      · subst hki
        have h1 : ¬ (k + 1 ≤ k ∧ k < k + 1 + rest.length) := by omega
        have h2 : (k ≤ k ∧ k < k + (rest.length + 1)) := by omega
        by_cases hl : l < N
        · simp [h1, h2, hl]
        · simp [h1, hl]
      · have h1 : (i + 1 ≤ k ∧ k < i + 1 + rest.length) ↔
            (i ≤ k ∧ k < i + (rest.length + 1)) := by omega
        simp only [hki, false_and, if_false, h1]
    unfold skipRepeats.loop
    by_cases hge : F64.ge (skipRepeats.factor nLinks nLinksAvg i) MaxLinkDensity = true
    · simp only [hge, if_true]
      exact key _ _
    · have hf : F64.ge (skipRepeats.factor nLinks nLinksAvg i) MaxLinkDensity = false := by
        simpa using hge
      simp only [hf, Bool.false_eq_true, if_false]
      exact key _ _

/-! ## Theorems on `makeMatrix` -/

theorem makeMatrix_ok (r r' : Partitioner) (edges : List ContigPair)
    (h : makeMatrix r edges = .ok r') :
    ∃ M', makeMatrix.loop r.contigToIdx (mulInt64 r.longestRE r.longestRE) edges
        (Make2DSliceInt64 r.contigs.length r.contigs.length) = .ok M' ∧
      r' = { r with matrix := M' } := by
  unfold makeMatrix at h
  simp only at h
  split at h
  · cases h
  · next M' hM' =>
    refine ⟨M', hM', ?_⟩
    cases h
    rfl

theorem makeMatrix_eq_error (r : Partitioner) (edges : List ContigPair) (p : GoPanic)
    (h : makeMatrix.loop r.contigToIdx (mulInt64 r.longestRE r.longestRE) edges
        (Make2DSliceInt64 r.contigs.length r.contigs.length) = .error p) :
    makeMatrix r edges = .error p := by
  unfold makeMatrix
  simp only [h]

theorem makeMatrix_eq_ok (r : Partitioner) (edges : List ContigPair) (M' : Matrix)
    (h : makeMatrix.loop r.contigToIdx (mulInt64 r.longestRE r.longestRE) edges
        (Make2DSliceInt64 r.contigs.length r.contigs.length) = .ok M') :
    makeMatrix r edges = .ok { r with matrix := M' } := by
  unfold makeMatrix
  simp only [h]

/-- With the index map `readRE` builds, `makeMatrix` completes whenever no edge between two
different indices has a zero `int64` product of site counts. -/
theorem makeMatrix_completes (r : Partitioner) (edges : List ContigPair)
    (hidx : r.contigToIdx = readRE.contigToIdx r.contigs)
    (hnz : ∀ e ∈ edges,
      mapIndex r.contigToIdx e.at_ ≠ mapIndex r.contigToIdx e.bt → mulInt64 e.RE1 e.RE2 ≠ 0) :
    ∃ r', makeMatrix r edges = .ok r' := by
  have hrange : InRange r.contigToIdx r.contigs.length := by
    rw [hidx]; exact inRange_contigToIdx r.contigs
  obtain ⟨M', hM'⟩ := loop_total r.contigToIdx (mulInt64 r.longestRE r.longestRE)
    r.contigs.length hrange edges _ (isSquare_make _) hnz
  exact ⟨_, makeMatrix_eq_ok r edges M' hM'⟩

/-- C1, as the code stands: two contigs of `10^6` sites (`longestRE = 10^6`) and the
single edge `A`–`B` with `10^7` observed links and site counts `10^6`, both names known:
the `int64` product `10^7 * 10^12` wraps to `10^19 - 2^64`, and `makeMatrix` stores
`-8446744` where the quotient `nObservedLinks * longestRE * longestRE / (RE1 * RE2)` is
`10^7`. -/
theorem makeMatrix_weight_can_wrap :
    exDenseLoaded.contigToIdx.lookup "A" = some 0 ∧
      exDenseLoaded.contigToIdx.lookup "B" = some 1 ∧
      makeMatrix exDenseLoaded exDenseEdges =
        .ok { exDenseLoaded with matrix := [[0, -8446744], [-8446744, 0]] } ∧
      mulInt64 10000000 (mulInt64 1000000 1000000) = 10000000000000000000 - 2 ^ 64 ∧
      Int.tdiv (10000000 * 1000000 * 1000000) (1000000 * 1000000) = 10000000 ∧
      mget [[0, -8446744], [-8446744, 0]] 0 1 ≠
        Int.tdiv (10000000 * 1000000 * 1000000) (1000000 * 1000000) := by
  refine ⟨by decide, by decide, rfl, by decide, by decide, by decide⟩

/-- C1, amended. Weight formula of `makeMatrix`: when the build completes and exactly one
edge `e` of the list resolves to the index pair `{a, b}` (`a ≠ b`, both names of `e`
known, site counts positive), `matrix[a][b]` is the `int64` value of
`nObservedLinks * longestRE * longestRE / (RE1 * RE2)` as the code evaluates it, each
product wrapped to `int64` and the quotient truncated toward zero; when `RE1 * RE2` and
`nObservedLinks * longestRE * longestRE` are within the `int64` range this is the exact
quotient, truncated toward zero. -/
theorem makeMatrix_weight_formula (r r' : Partitioner) (pre post : List ContigPair)
    (e : ContigPair) (a b : Nat)
    (ha : r.contigToIdx.lookup e.at_ = some a) (hb : r.contigToIdx.lookup e.bt = some b)
    (hab : a ≠ b) (h1 : 0 < e.RE1) (h2 : 0 < e.RE2)
    (_hpre : ∀ x ∈ pre, ¬ touches r.contigToIdx x a b)
    (hpost : ∀ x ∈ post, ¬ touches r.contigToIdx x a b)
    (hrun : makeMatrix r (pre ++ e :: post) = .ok r') :
    mget r'.matrix a b =
        divInt64 (mulInt64 e.nObservedLinks (mulInt64 r.longestRE r.longestRE))
          (mulInt64 e.RE1 e.RE2) ∧
      (e.RE1 * e.RE2 < 2 ^ 63 →
        -2 ^ 63 ≤ e.nObservedLinks * r.longestRE * r.longestRE →
        e.nObservedLinks * r.longestRE * r.longestRE < 2 ^ 63 →
        mget r'.matrix a b =
          Int.tdiv (e.nObservedLinks * r.longestRE * r.longestRE) (e.RE1 * e.RE2)) := by
  obtain ⟨M', hloop, hr'⟩ := makeMatrix_ok r r' _ hrun
  rw [loop_append] at hloop
  split at hloop
  · cases hloop
  · next M1 _ =>
    have htouch : touches r.contigToIdx e a b := by
      left
      simp [mapIndex, ha, hb]
    have hlast := loop_last r.contigToIdx _ a b hab e post M1 M' hloop htouch hpost
    have hm : mget r'.matrix a b = makeMatrix.weight (mulInt64 r.longestRE r.longestRE) e := by
      rw [hr']; exact hlast.1
    refine ⟨hm, fun hden hlo hhi => ?_⟩
    rw [hm]
    exact weight_exact r.longestRE e h1 h2 hden hlo hhi

/-- C1, the worked example: `longestRE = 10`, an edge `A`–`B` with 4 observed links and
site counts 10 and 5 gives `matrix[0][1] = 4 * 100 / (10 * 5) = 8`. -/
theorem makeMatrix_weight_formula_witness :
    makeMatrix exLoaded [exEdge "A" "B" 10 5 4] =
        .ok { exLoaded with matrix := [[0, 8], [8, 0]] } ∧
      mget [[0, 8], [8, 0]] 0 1 = 8 :=
  ⟨rfl,
    ((makeMatrix_weight_formula exLoaded { exLoaded with matrix := [[0, 8], [8, 0]] } [] []
      (exEdge "A" "B" 10 5 4) 0 1 (by decide) (by decide) (by decide) (by decide)
      (by decide) (by simp) (by simp) rfl).2 (by decide) (by decide) (by decide)).trans
      (by decide)⟩

/-- C2. After a completed `makeMatrix` the matrix has `N` rows of `N` entries, is
symmetric and has a zero diagonal, `N` being the number of contigs. -/
theorem makeMatrix_symmetric_zero_diagonal (r r' : Partitioner) (edges : List ContigPair)
    (hrun : makeMatrix r edges = .ok r') :
    IsSquare r.contigs.length r'.matrix ∧
      (∀ a b, a < r.contigs.length → b < r.contigs.length →
        mget r'.matrix a b = mget r'.matrix b a) ∧
      ∀ i, i < r.contigs.length → mget r'.matrix i i = 0 := by
  obtain ⟨M', hloop, hr'⟩ := makeMatrix_ok r r' _ hrun
  have hsq := loop_isSquare _ _ r.contigs.length edges _ M' hloop (isSquare_make _)
  have hsym := loop_symm _ _ edges _ M' hloop
    (fun a b => by rw [mget_make, mget_make]) (fun i => mget_make _ _ i i)
  rw [hr']
  exact ⟨hsq, fun a b _ _ => hsym.1 a b, fun i _ => hsym.2 i⟩

/-- C2 on the two-contig example with the edges `A`–`B` and `B`–`A`. -/
theorem makeMatrix_symmetric_zero_diagonal_witness :
    makeMatrix exLoaded [exEdge "A" "B" 10 5 4, exEdge "B" "A" 5 5 7] =
        .ok { exLoaded with matrix := [[0, 28], [28, 0]] } ∧
      IsSquare 2 [[0, 28], [28, 0]] ∧
      (∀ a b, a < 2 → b < 2 → mget [[0, 28], [28, 0]] a b = mget [[0, 28], [28, 0]] b a) ∧
      ∀ i, i < 2 → mget [[0, 28], [28, 0]] i i = 0 :=
  ⟨rfl, makeMatrix_symmetric_zero_diagonal exLoaded { exLoaded with matrix := [[0, 28], [28, 0]] }
    [exEdge "A" "B" 10 5 4, exEdge "B" "A" 5 5 7] rfl⟩

/-- C9. Last write wins: when the build completes, an edge `e` that resolves (in either
orientation) to the pair `{a, b}`, `a ≠ b`, and is followed by no other edge for that
pair, determines both `matrix[a][b]` and `matrix[b][a]`: they equal the normalized weight
of `e`, whatever edges for the pair came before it. -/
theorem makeMatrix_last_write_wins (r r' : Partitioner) (pre post : List ContigPair)
    (e : ContigPair) (a b : Nat) (hab : a ≠ b) (he : touches r.contigToIdx e a b)
    (hpost : ∀ x ∈ post, ¬ touches r.contigToIdx x a b)
    (hrun : makeMatrix r (pre ++ e :: post) = .ok r') :
    mget r'.matrix a b = makeMatrix.weight (mulInt64 r.longestRE r.longestRE) e ∧
      mget r'.matrix b a = makeMatrix.weight (mulInt64 r.longestRE r.longestRE) e := by
  obtain ⟨M', hloop, hr'⟩ := makeMatrix_ok r r' _ hrun
  rw [loop_append] at hloop
  split at hloop
  · cases hloop
  · next M1 _ =>
    rw [hr']
    exact loop_last r.contigToIdx _ a b hab e post M1 M' hloop he hpost

/-- C9 on two edges for the pair `A`, `B`: the weights are 8 and then 28; the matrix
holds 28, not their sum. -/
theorem makeMatrix_last_write_wins_witness :
    makeMatrix.weight 100 (exEdge "A" "B" 10 5 4) = 8 ∧
      makeMatrix.weight 100 (exEdge "B" "A" 5 5 7) = 28 ∧
      mget [[0, 28], [28, 0]] 0 1 = makeMatrix.weight 100 (exEdge "B" "A" 5 5 7) ∧
      mget [[0, 28], [28, 0]] 1 0 = makeMatrix.weight 100 (exEdge "B" "A" 5 5 7) :=
  ⟨by decide, by decide,
    makeMatrix_last_write_wins exLoaded { exLoaded with matrix := [[0, 28], [28, 0]] }
      [exEdge "A" "B" 10 5 4] [] (exEdge "B" "A" 5 5 7) 0 1 (by decide) (by decide)
      (by simp) rfl⟩

/-- C10. A self-pair contributes nothing: an edge whose two names are equal, inserted at
any position and with any site counts and link count, leaves the outcome of `makeMatrix`
(the matrix, or the failure of another edge) exactly as it is without that edge. -/
theorem makeMatrix_self_pair_ignored (r : Partitioner) (pre post : List ContigPair)
    (e : ContigPair) (hself : e.at_ = e.bt) :
    makeMatrix r (pre ++ e :: post) = makeMatrix r (pre ++ post) := by
  have hloop : ∀ M, makeMatrix.loop r.contigToIdx (mulInt64 r.longestRE r.longestRE)
      (pre ++ e :: post) M =
      makeMatrix.loop r.contigToIdx (mulInt64 r.longestRE r.longestRE) (pre ++ post) M := by
    intro M
    rw [loop_append, loop_append]
    split
    · rfl
    · exact loop_cons_self _ _ e post _ (by rw [hself])
  unfold makeMatrix
  simp only [hloop]

/-- C10 on the example: a self-pair `A`–`A` with zero site counts after the edge `A`–`B`
changes nothing and does not fail. -/
theorem makeMatrix_self_pair_ignored_witness :
    makeMatrix exLoaded [exEdge "A" "B" 10 5 4, exEdge "A" "A" 0 0 99] =
      .ok { exLoaded with matrix := [[0, 8], [8, 0]] } :=
  (makeMatrix_self_pair_ignored exLoaded [exEdge "A" "B" 10 5 4] [] (exEdge "A" "A" 0 0 99)
    rfl).trans rfl

/-- C4, as the code stands: an edge `A`–`B` with `sitesA = 0` makes `makeMatrix` end in
the Go runtime's divide-by-zero panic, and the outcome cannot identify the edge: no
function of the outcome returns the offending edge. -/
theorem makeMatrix_zero_sites_is_panic :
    makeMatrix exLoaded [exEdge "A" "B" 0 5 4] = .error .integerDivideByZero ∧
      ¬ ∃ decode : GoPanic → ContigPair, ∀ (e : ContigPair) (p : GoPanic),
        e.at_ = "A" → e.bt = "B" → e.RE1 = 0 →
        makeMatrix exLoaded [e] = .error p → decode p = e := by
  refine ⟨rfl, ?_⟩
  rintro ⟨decode, h⟩
  have h1 := h (exEdge "A" "B" 0 5 4) .integerDivideByZero rfl rfl rfl rfl
  have h2 := h (exEdge "A" "B" 0 5 7) .integerDivideByZero rfl rfl rfl rfl
  exact absurd (h1.symm.trans h2) (by decide)

/-- C4, amended. With the index map `readRE` builds, an edge list that contains an edge
whose names resolve to two different indices and whose `sitesA` or `sitesB` is zero never
yields a matrix: `makeMatrix` ends in the runtime's integer-divide-by-zero panic. -/
theorem makeMatrix_zero_sites_aborts (r : Partitioner) (edges : List ContigPair)
    (e : ContigPair) (hidx : r.contigToIdx = readRE.contigToIdx r.contigs) (he : e ∈ edges)
    (hab : mapIndex r.contigToIdx e.at_ ≠ mapIndex r.contigToIdx e.bt)
    (hz : e.RE1 = 0 ∨ e.RE2 = 0) :
    makeMatrix r edges = .error .integerDivideByZero := by
  apply makeMatrix_eq_error
  have hrange : InRange r.contigToIdx r.contigs.length := by
    rw [hidx]; exact inRange_contigToIdx r.contigs
  apply loop_divideByZero _ _ r.contigs.length hrange edges _ (isSquare_make _)
  refine ⟨e, he, hab, ?_⟩
  unfold mulInt64
  rcases hz with h | h <;> simp [h, wrapInt64_zero]

/-- C4 amended, on the example: the edge `A`–`B` with `sitesB = 0` behind a valid edge. -/
theorem makeMatrix_zero_sites_aborts_witness :
    makeMatrix exLoaded [exEdge "B" "A" 5 5 7, exEdge "A" "B" 10 0 4] =
      .error .integerDivideByZero :=
  makeMatrix_zero_sites_aborts exLoaded [exEdge "B" "A" 5 5 7, exEdge "A" "B" 10 0 4]
    (exEdge "A" "B" 10 0 4) rfl (by simp) (by decide) (Or.inr rfl)

/-- C5, as the code stands: the name `Z` is not a key of the map, yet the edge `Z`–`B`
builds a matrix without any failure, its weight stored at `[0][1]` and `[1][0]`, the
entries of contig `A`. -/
theorem makeMatrix_unknown_name_resolves_to_zero :
    exLoaded.contigToIdx.lookup "Z" = none ∧
      makeMatrix exLoaded [exEdge "Z" "B" 1 1 1] =
        .ok { exLoaded with matrix := [[0, 100], [100, 0]] } :=
  ⟨by decide, rfl⟩

/-- C5, amended. With the index map `readRE` builds, an edge with a name that is not a
key raises no error: if no edge of the list divides by zero the build completes; the
missing name takes index `0`, and the edge is stored like any other: unless its two
indices coincide, its weight is at `[a][b]` and `[b][a]` when no later edge resolves to
that pair. -/
theorem makeMatrix_unknown_name_is_index_zero (r : Partitioner) (pre post : List ContigPair)
    (e : ContigPair) (hidx : r.contigToIdx = readRE.contigToIdx r.contigs)
    (hunk : r.contigToIdx.lookup e.at_ = none ∨ r.contigToIdx.lookup e.bt = none)
    (hnz : ∀ x ∈ pre ++ e :: post,
      mapIndex r.contigToIdx x.at_ ≠ mapIndex r.contigToIdx x.bt → mulInt64 x.RE1 x.RE2 ≠ 0) :
    ∃ r', makeMatrix r (pre ++ e :: post) = .ok r' ∧
      (mapIndex r.contigToIdx e.at_ = 0 ∨ mapIndex r.contigToIdx e.bt = 0) ∧
      (mapIndex r.contigToIdx e.at_ ≠ mapIndex r.contigToIdx e.bt →
        (∀ x ∈ post, ¬ touches r.contigToIdx x (mapIndex r.contigToIdx e.at_)
          (mapIndex r.contigToIdx e.bt)) →
        mget r'.matrix (mapIndex r.contigToIdx e.at_) (mapIndex r.contigToIdx e.bt) =
            makeMatrix.weight (mulInt64 r.longestRE r.longestRE) e ∧
          mget r'.matrix (mapIndex r.contigToIdx e.bt) (mapIndex r.contigToIdx e.at_) =
            makeMatrix.weight (mulInt64 r.longestRE r.longestRE) e) := by
  have hrange : InRange r.contigToIdx r.contigs.length := by
    rw [hidx]; exact inRange_contigToIdx r.contigs
  obtain ⟨M', hM'⟩ := loop_total r.contigToIdx (mulInt64 r.longestRE r.longestRE)
    r.contigs.length hrange (pre ++ e :: post) _ (isSquare_make _) hnz
  refine ⟨{ r with matrix := M' }, makeMatrix_eq_ok r _ M' hM', ?_, ?_⟩
  · rcases hunk with h | h
    · left; simp [mapIndex, h]
    · right; simp [mapIndex, h]
  · intro hab hpost
    rw [loop_append] at hM'
    split at hM'
    · cases hM'
    · next M1 _ =>
      exact loop_last r.contigToIdx _ _ _ hab e post M1 M' hM' (Or.inl ⟨rfl, rfl⟩) hpost

/-- C5 amended, on the example: the unknown name `Z` in the edge `Z`–`B`. -/
theorem makeMatrix_unknown_name_is_index_zero_witness :
    ∃ r', makeMatrix exLoaded [exEdge "Z" "B" 1 1 1] = .ok r' ∧
      (mapIndex exLoaded.contigToIdx "Z" = 0 ∨ mapIndex exLoaded.contigToIdx "B" = 0) ∧
      (mapIndex exLoaded.contigToIdx "Z" ≠ mapIndex exLoaded.contigToIdx "B" →
        (∀ x ∈ ([] : List ContigPair), ¬ touches exLoaded.contigToIdx x
          (mapIndex exLoaded.contigToIdx "Z") (mapIndex exLoaded.contigToIdx "B")) →
        mget r'.matrix (mapIndex exLoaded.contigToIdx "Z") (mapIndex exLoaded.contigToIdx "B") =
            makeMatrix.weight (mulInt64 exLoaded.longestRE exLoaded.longestRE)
              (exEdge "Z" "B" 1 1 1) ∧
          mget r'.matrix (mapIndex exLoaded.contigToIdx "B") (mapIndex exLoaded.contigToIdx "Z") =
            makeMatrix.weight (mulInt64 exLoaded.longestRE exLoaded.longestRE)
              (exEdge "Z" "B" 1 1 1)) :=
  makeMatrix_unknown_name_is_index_zero exLoaded [] [] (exEdge "Z" "B" 1 1 1) rfl
    (Or.inl (by decide)) (by decide)

/-! ## Theorems on `skipContigsWithFewREs` -/

/-- The contigs left by the loop: each one with too few sites has its flag set, every
other one is as it was. -/
theorem skipContigsWithFewREs_loop_fst (MinREs : Int) (contigs : List ContigInfo)
    (nShort shortRE shortLen : Int) :
    (skipContigsWithFewREs.loop MinREs contigs nShort shortRE shortLen).1 =
      contigs.map (fun c => if c.recounts < MinREs then { c with skip := true } else c) := by
  induction contigs generalizing nShort shortRE shortLen with
  | nil => rfl
  | cons c rest ih =>
    unfold skipContigsWithFewREs.loop
    by_cases h : c.recounts < MinREs
    · simp only [h, if_true, List.map_cons]
      rw [ih]
    · simp only [h, if_false, List.map_cons]
      rw [ih]

/-- C3. Short-Contig Filter: on freshly loaded contigs (every `skip` false) the filter
keeps the list's length and every contig's `recounts`, and afterwards a contig has
`skip = true` if and only if its `recounts < MinREs`; a contig with `recounts = MinREs`
is not marked. -/
theorem skipContigsWithFewREs_marks_iff (MinREs : Int) (r : Partitioner)
    (hfresh : ∀ c ∈ r.contigs, c.skip = false) :
    (skipContigsWithFewREs MinREs r).1.contigs.length = r.contigs.length ∧
      ∀ (i : Nat) (c c' : ContigInfo), r.contigs[i]? = some c →
        (skipContigsWithFewREs MinREs r).1.contigs[i]? = some c' →
        c'.recounts = c.recounts ∧ (c'.skip = true ↔ c.recounts < MinREs) ∧
          (c.recounts = MinREs → c'.skip = false) := by
  have hcs : (skipContigsWithFewREs MinREs r).1.contigs =
      r.contigs.map (fun c => if c.recounts < MinREs then { c with skip := true } else c) := by
    unfold skipContigsWithFewREs
    exact skipContigsWithFewREs_loop_fst MinREs r.contigs 0 0 0
  rw [hcs]
  refine ⟨by simp, fun i c c' hc hc' => ?_⟩
  rw [List.getElem?_map, hc] at hc'
  simp only [Option.map_some', Option.some.injEq] at hc'
  have hskip : c.skip = false := hfresh c (List.getElem?_mem hc)
  by_cases h : c.recounts < MinREs
  · rw [if_pos h] at hc'
    subst hc'
    exact ⟨rfl, by simp [h], fun heq => by omega⟩
  · rw [if_neg h] at hc'
    subst hc'
    exact ⟨rfl, by simp [h, hskip], fun _ => hskip⟩

/-- C3 on the example with `MinREs = 10`: `A` has exactly 10 sites and stays, `B` has 5
and is marked. -/
theorem skipContigsWithFewREs_marks_iff_witness :
    (∀ c ∈ exLoaded.contigs, c.skip = false) ∧
      (skipContigsWithFewREs 10 exLoaded).1.contigs.map (fun c => c.skip) = [false, true] ∧
      ((skipContigsWithFewREs 10 exLoaded).1.contigs.length = exLoaded.contigs.length ∧
        ∀ (i : Nat) (c c' : ContigInfo), exLoaded.contigs[i]? = some c →
          (skipContigsWithFewREs 10 exLoaded).1.contigs[i]? = some c' →
          c'.recounts = c.recounts ∧ (c'.skip = true ↔ c.recounts < 10) ∧
            (c.recounts = 10 → c'.skip = false)) :=
  ⟨by decide, by decide, skipContigsWithFewREs_marks_iff 10 exLoaded (by decide)⟩

/-! ## Theorems on `skipRepeats` -/

/-- C6, as the code stands: on `exLarge` (built by `makeMatrix`; symmetric, zero diagonal,
non-negative, `totalLinks = 2^53 + 1`) with `MaxLinkDensity = 2`, the exact quotient
`linksOf[0] / (2 * totalLinks / N)` is below 2 and contig 0 was not excluded before, yet
`skipRepeats` marks it: `float64(2^53 + 1)` rounds to `2^53`, so the computed factor is
exactly 2. -/
theorem skipRepeats_threshold_uses_rounded_factor :
    makeMatrix (exState exFourContigs 10 []) exLargeEdges = .ok exLarge ∧
      (∀ a, a < 4 → ∀ b, b < 4 → mget exLarge.matrix a b = mget exLarge.matrix b a ∧
        0 ≤ mget exLarge.matrix a b ∧ mget exLarge.matrix a a = 0) ∧
      skipRepeats.countLinks exLarge.matrix 4 =
        (9007199254740993, [9007199254740992, 9007199254740992, 1, 1]) ∧
      ((9007199254740992 : ℚ) / (2 * 9007199254740993 / 4) < 2) ∧
      F64.div (F64.ofInt 9007199254740992)
          (F64.div (F64.mul (F64.ofInt 2) (F64.ofInt 9007199254740993)) (F64.ofInt 4)) =
        F64.ofInt 2 ∧
      exLarge.contigs.map (fun c => c.skip) = [false, false, false, false] ∧
      (skipRepeats (F64.ofInt 2) exLarge).1.contigs.map (fun c => c.skip) =
        [true, true, false, false] := by
  refine ⟨rfl, by decide!, by decide!, by norm_num, by decide!, by decide, by decide!⟩

theorem skipRepeats_contigs (MaxLinkDensity : F64) (r : Partitioner) :
    (skipRepeats MaxLinkDensity r).1.contigs =
      (skipRepeats.loop MaxLinkDensity (skipRepeats.countLinks r.matrix r.contigs.length).2
        (skipRepeats.nLinksAvg (skipRepeats.countLinks r.matrix r.contigs.length).1
          r.contigs.length)
        r.contigs.length r.contigs 0 r.matrix 0 0).contigs := rfl

theorem skipRepeats_matrix (MaxLinkDensity : F64) (r : Partitioner) :
    (skipRepeats MaxLinkDensity r).1.matrix =
      (skipRepeats.loop MaxLinkDensity (skipRepeats.countLinks r.matrix r.contigs.length).2
        (skipRepeats.nLinksAvg (skipRepeats.countLinks r.matrix r.contigs.length).1
          r.contigs.length)
        r.contigs.length r.contigs 0 r.matrix 0 0).matrix := rfl

/-- C6, amended. After `skipRepeats` the contig list has the same length, and contig `i`
has `skip = true` if and only if it had `skip = true` before or `factor[i] >=
MaxLinkDensity`, where `factor[i]` is the `float64` value the code computes,
`float64(linksOf[i]) / (2.0 * float64(totalLinks) / float64(N))`, each operation rounded,
from the totals accumulated over the matrix before any rescaling. -/
theorem skipRepeats_marks_iff (MaxLinkDensity : F64) (r : Partitioner) (i : Nat)
    (c c' : ContigInfo) (hc : r.contigs[i]? = some c)
    (hc' : (skipRepeats MaxLinkDensity r).1.contigs[i]? = some c') :
    (skipRepeats MaxLinkDensity r).1.contigs.length = r.contigs.length ∧
      (c'.skip = true ↔
        c.skip = true ∨
          F64.ge
            (F64.div
              (F64.ofInt ((skipRepeats.countLinks r.matrix r.contigs.length).2.getD i 0))
              (F64.div
                (F64.mul (F64.ofInt 2)
                  (F64.ofInt (skipRepeats.countLinks r.matrix r.contigs.length).1))
                (F64.ofInt r.contigs.length)))
            MaxLinkDensity = true) := by
  obtain ⟨hlen, hget⟩ := skipRepeats_loop_contigs MaxLinkDensity
    (skipRepeats.countLinks r.matrix r.contigs.length).2
    (skipRepeats.nLinksAvg (skipRepeats.countLinks r.matrix r.contigs.length).1
      r.contigs.length)
    r.contigs.length r.contigs 0 r.matrix 0 0
  rw [skipRepeats_contigs] at hc' ⊢
  refine ⟨hlen, ?_⟩
  rw [hget i c hc, Nat.zero_add] at hc'
  simp only [Option.some.injEq] at hc'
  unfold skipRepeats.factor skipRepeats.nLinksAvg at hc'
  split at hc'
  · next hge =>
    subst hc'
    exact ⟨fun _ => Or.inr hge, fun _ => rfl⟩
  · next hge =>
    subst hc'
    exact ⟨fun h => Or.inl h, fun h => h.elim id (fun h' => absurd h' hge)⟩

/-- C6, the worked example: three contigs with all pairwise weights 10 give
`totalLinks = 30`, `nLinksAvg = 20`, every factor `1`; with `MaxLinkDensity = 1` all
three are marked. -/
theorem skipRepeats_marks_iff_witness :
    skipRepeats.countLinks exUniform.matrix 3 = (30, [20, 20, 20]) ∧
      skipRepeats.nLinksAvg 30 3 = F64.ofInt 20 ∧
      skipRepeats.factor [20, 20, 20] (F64.ofInt 20) 0 = F64.ofInt 1 ∧
      (skipRepeats (F64.ofInt 1) exUniform).1.contigs.map (fun c => c.skip) =
        [true, true, true] ∧
      ((⟨"A", 10, 100, true⟩ : ContigInfo).skip = true ↔
        (⟨"A", 10, 100, false⟩ : ContigInfo).skip = true ∨
          F64.ge
            (F64.div
              (F64.ofInt
                ((skipRepeats.countLinks exUniform.matrix exUniform.contigs.length).2.getD 0 0))
              (F64.div
                (F64.mul (F64.ofInt 2)
                  (F64.ofInt
                    (skipRepeats.countLinks exUniform.matrix exUniform.contigs.length).1))
                (F64.ofInt exUniform.contigs.length)))
            (F64.ofInt 1) = true) :=
  ⟨by decide, by decide!, by decide!, by decide!,
    (skipRepeats_marks_iff (F64.ofInt 1) exUniform 0 ⟨"A", 10, 100, false⟩
      ⟨"A", 10, 100, true⟩ (by decide) (by decide!)).2⟩

/-- C7, as the code stands: on `exUneven` (built by `makeMatrix`; symmetric, zero diagonal,
non-negative, `totalLinks = 30`, `linksOf[0] = 11`, `avgLinks = 15`) the exact value
`ceil(11 / (11 / 15))` is `15`, while the `float64` quotients of the code are
`11 / 15 = 0.7333333333333333` and `11 / 0.7333333333333333 = 15.000000000000002`, and
`skipRepeats` stores `16`. -/
theorem skipRepeats_rescale_uses_rounded_quotient :
    makeMatrix (exState exFourContigs 10 []) exUnevenEdges = .ok exUneven ∧
      (∀ a, a < 4 → ∀ b, b < 4 → mget exUneven.matrix a b = mget exUneven.matrix b a ∧
        0 ≤ mget exUneven.matrix a b ∧ mget exUneven.matrix a a = 0) ∧
      skipRepeats.countLinks exUneven.matrix 4 = (30, [11, 11, 19, 19]) ∧
      mget exUneven.matrix 0 1 = 11 ∧
      specRescale 11 11 30 4 = 15 ∧
      skipRepeats.rescale
        (skipRepeats.factor [11, 11, 19, 19] (skipRepeats.nLinksAvg 30 4) 0) 11 = 16 ∧
      mget (skipRepeats (F64.ofInt 2) exUneven).1.matrix 0 1 = 16 := by
  refine ⟨rfl, by decide!, by decide!, by decide, ?_, by decide!, by decide!⟩
  unfold specRescale
  norm_num

/-- C7, amended. Rescaling formula of `skipRepeats`, for a matrix of `N` rows of `N`
entries: a zero entry stays zero and any other entry becomes
`int64(math.Ceil(float64(M[i][j]) / factor[i]))`, with
`factor[i] = float64(linksOf[i]) / (2.0 * float64(totalLinks) / float64(N))` computed
from the totals of the matrix as it was before `skipRepeats`, so that rescaling earlier
rows does not change the factor of later rows; the conversions and both quotients are
`float64` operations, each rounded, so the entry can differ from the exact
`ceil(M[i][j] / factor[i])`. -/
theorem skipRepeats_rescales_rows (MaxLinkDensity : F64) (r : Partitioner)
    (hM : IsSquare r.contigs.length r.matrix) (i j : Nat) (hi : i < r.contigs.length)
    (hj : j < r.contigs.length) :
    mget (skipRepeats MaxLinkDensity r).1.matrix i j =
      if mget r.matrix i j = 0 then 0
      else
        F64.toInt64 (F64.ceil (F64.div (F64.ofInt (mget r.matrix i j))
          (F64.div
            (F64.ofInt ((skipRepeats.countLinks r.matrix r.contigs.length).2.getD i 0))
            (F64.div
              (F64.mul (F64.ofInt 2)
                (F64.ofInt (skipRepeats.countLinks r.matrix r.contigs.length).1))
              (F64.ofInt r.contigs.length))))) := by
  obtain ⟨_, hget⟩ := skipRepeats_loop_matrix MaxLinkDensity
    (skipRepeats.countLinks r.matrix r.contigs.length).2
    (skipRepeats.nLinksAvg (skipRepeats.countLinks r.matrix r.contigs.length).1
      r.contigs.length)
    r.contigs.length r.contigs 0 r.matrix 0 0 hM (by omega)
  rw [skipRepeats_matrix, hget i j]
  have hrow : (0 ≤ i ∧ i < 0 + r.contigs.length) ∧ j < r.contigs.length :=
    ⟨⟨Nat.zero_le i, by omega⟩, hj⟩
  rw [if_pos hrow]
  by_cases hz : mget r.matrix i j = 0
  · simp [hz]
  · simp only [hz, ne_eq, not_false_eq_true, if_true, if_false]
    rfl

/-- C7, the worked examples: with all pairwise weights 10 among three contigs every factor
is 1 and the matrix is unchanged; on the chain `[[0,1,0],[1,0,2],[0,2,0]]` the factors are
`0.5`, `1.5` and `1`, the entry `[0][1]` becomes `ceil(1 / 0.5) = 2` and the entry `[1][0]`
becomes `ceil(1 / 1.5) = 1`. -/
theorem skipRepeats_rescales_rows_witness :
    IsSquare 3 exUniform.matrix ∧
      (∀ i, i < 3 → skipRepeats.factor [20, 20, 20] (F64.ofInt 20) i = F64.ofInt 1) ∧
      (skipRepeats (F64.ofInt 1) exUniform).1.matrix = exUniform.matrix ∧
      mget (skipRepeats (F64.ofInt 1) exUniform).1.matrix 0 1 = 10 ∧
      IsSquare 3 exChain.matrix ∧
      (skipRepeats (F64.ofInt 2) exChain).1.matrix = [[0, 2, 0], [1, 0, 2], [0, 2, 0]] ∧
      mget (skipRepeats (F64.ofInt 2) exChain).1.matrix 0 1 = 2 ∧
      mget (skipRepeats (F64.ofInt 2) exChain).1.matrix 1 0 = 1 :=
  ⟨⟨rfl, by decide⟩, by decide!, by decide!,
    (skipRepeats_rescales_rows (F64.ofInt 1) exUniform ⟨rfl, by decide⟩ 0 1 (by decide)
      (by decide)).trans (by decide!),
    ⟨rfl, by decide⟩, by decide!,
    (skipRepeats_rescales_rows (F64.ofInt 2) exChain ⟨rfl, by decide⟩ 0 1 (by decide)
      (by decide)).trans (by decide!),
    (skipRepeats_rescales_rows (F64.ofInt 2) exChain ⟨rfl, by decide⟩ 1 0 (by decide)
      (by decide)).trans (by decide!)⟩

/-- C8. Row-wise rescaling can break symmetry: `makeMatrix` builds from `exChainEdges`
the symmetric, zero-diagonal, non-negative matrix `[[0,1,0],[1,0,2],[0,2,0]]`; after
`skipRepeats` the entry `[0][1]` is `1 / factor[0] = 1 / 0.5 = 2` while `[1][0]` is
`ceil(1 / factor[1]) = ceil(1 / 1.5) = 1`. -/
theorem skipRepeats_breaks_symmetry :
    ∃ (r0 r : Partitioner) (edges : List ContigPair) (MaxLinkDensity : F64) (i j : Nat),
      makeMatrix r0 edges = .ok r ∧
      (∀ a, a < 3 → ∀ b, b < 3 → mget r.matrix a b = mget r.matrix b a ∧
        0 ≤ mget r.matrix a b ∧ mget r.matrix a a = 0) ∧
      mget (skipRepeats MaxLinkDensity r).1.matrix i j ≠
        mget (skipRepeats MaxLinkDensity r).1.matrix j i ∧
      mget (skipRepeats MaxLinkDensity r).1.matrix i j =
        skipRepeats.rescale
          (skipRepeats.factor (skipRepeats.countLinks r.matrix 3).2
            (skipRepeats.nLinksAvg (skipRepeats.countLinks r.matrix 3).1 3) i)
          (mget r.matrix i j) ∧
      mget (skipRepeats MaxLinkDensity r).1.matrix j i =
        skipRepeats.rescale
          (skipRepeats.factor (skipRepeats.countLinks r.matrix 3).2
            (skipRepeats.nLinksAvg (skipRepeats.countLinks r.matrix 3).1 3) j)
          (mget r.matrix j i) ∧
      (skipRepeats MaxLinkDensity r).1.matrix = [[0, 2, 0], [1, 0, 2], [0, 2, 0]] :=
  ⟨exChainLoaded, exChain, exChainEdges, F64.ofInt 2, 0, 1, rfl, by decide, by decide!,
    by decide!, by decide!, by decide!⟩

/-! ## Theorems on the exclusion flag -/

/-- The second loop of `skipRepeats` keeps every field a function `f` reads, when `f`
does not look at the flag `skip`. -/
theorem skipRepeats_loop_map {α : Type} (f : ContigInfo → α)
    (hf : ∀ c : ContigInfo, f { c with skip := true } = f c)
    (MaxLinkDensity : F64) (nLinks : List Int) (nLinksAvg : F64)
    (N : Nat) (contigs : List ContigInfo) (i : Nat) (M : Matrix)
    (nRepetitive repetitiveLength : Int) :
    (skipRepeats.loop MaxLinkDensity nLinks nLinksAvg N contigs i M nRepetitive
        repetitiveLength).contigs.map f = contigs.map f := by
  induction contigs generalizing i M nRepetitive repetitiveLength with
  | nil => rfl
  | cons c0 rest ih =>
    unfold skipRepeats.loop
    by_cases hge : F64.ge (skipRepeats.factor nLinks nLinksAvg i) MaxLinkDensity = true
    · simp only [hge, if_true, List.map_cons, ih, hf]
    · have hfalse : F64.ge (skipRepeats.factor nLinks nLinksAvg i) MaxLinkDensity = false := by
        simpa using hge
      simp only [hfalse, Bool.false_eq_true, if_false, List.map_cons, ih]

/-- The loop of `skipContigsWithFewREs` keeps every field a function `f` reads, when `f`
does not look at the flag `skip`. -/
theorem skipContigsWithFewREs_map {α : Type} (f : ContigInfo → α)
    (hf : ∀ c : ContigInfo, f { c with skip := true } = f c) (MinREs : Int)
    (r : Partitioner) :
    (skipContigsWithFewREs MinREs r).1.contigs.map f = r.contigs.map f := by
  have hcs : (skipContigsWithFewREs MinREs r).1.contigs =
      r.contigs.map (fun c => if c.recounts < MinREs then { c with skip := true } else c) := by
    unfold skipContigsWithFewREs
    exact skipContigsWithFewREs_loop_fst MinREs r.contigs 0 0 0
  rw [hcs, List.map_map]
  apply List.map_congr_left
  intro c _
  simp only [Function.comp]
  split
  · exact hf c
  · rfl

/-- C11. The exclusion flag is monotonic: a contig whose `skip` is true before
`skipContigsWithFewREs`, respectively before `skipRepeats`, is at the same position with
`skip = true` afterwards. -/
theorem skip_flag_monotonic (MinREs : Int) (MaxLinkDensity : F64) (r : Partitioner)
    (i : Nat) (c : ContigInfo) (hc : r.contigs[i]? = some c) (hskip : c.skip = true) :
    (∃ c', (skipContigsWithFewREs MinREs r).1.contigs[i]? = some c' ∧ c'.skip = true) ∧
      ∃ c', (skipRepeats MaxLinkDensity r).1.contigs[i]? = some c' ∧ c'.skip = true := by
  constructor
  · have hcs : (skipContigsWithFewREs MinREs r).1.contigs =
        r.contigs.map (fun c => if c.recounts < MinREs then { c with skip := true } else c) := by
      unfold skipContigsWithFewREs
      exact skipContigsWithFewREs_loop_fst MinREs r.contigs 0 0 0
    rw [hcs, List.getElem?_map, hc]
    refine ⟨_, rfl, ?_⟩
    show (if c.recounts < MinREs then ({ c with skip := true } : ContigInfo) else c).skip = true
    split
    · rfl
    · exact hskip
  · obtain ⟨_, hget⟩ := skipRepeats_loop_contigs MaxLinkDensity
      (skipRepeats.countLinks r.matrix r.contigs.length).2
      (skipRepeats.nLinksAvg (skipRepeats.countLinks r.matrix r.contigs.length).1
        r.contigs.length)
      r.contigs.length r.contigs 0 r.matrix 0 0
    rw [skipRepeats_contigs, hget i c hc]
    refine ⟨_, rfl, ?_⟩
    split
    · rfl
    · exact hskip

/-- C11 on the example: `B`, already marked by the Short-Contig Filter, is still marked
after either filter although its factor `1` is below `MaxLinkDensity = 2`. -/
theorem skip_flag_monotonic_witness :
    (∃ c', (skipContigsWithFewREs 3 exMarked).1.contigs[1]? = some c' ∧ c'.skip = true) ∧
      ∃ c', (skipRepeats (F64.ofInt 2) exMarked).1.contigs[1]? = some c' ∧ c'.skip = true :=
  skip_flag_monotonic 3 (F64.ofInt 2) exMarked 1 ⟨"B", 5, 50, true⟩ (by decide) rfl

/-- C12. The filters mutate only the exclusion flag: after `skipContigsWithFewREs` and
after `skipRepeats` the contig list has the same length and order, with every name,
`recounts` and `length` as before; `skipContigsWithFewREs` also leaves the matrix,
`longestRE` and the name-to-index map unchanged. -/
theorem filters_mutate_only_skip (MinREs : Int) (MaxLinkDensity : F64) (r : Partitioner) :
    ((skipContigsWithFewREs MinREs r).1.contigs.map (fun c => (c.name, c.recounts, c.length)) =
        r.contigs.map (fun c => (c.name, c.recounts, c.length)) ∧
      (skipContigsWithFewREs MinREs r).1.contigs.length = r.contigs.length) ∧
    ((skipRepeats MaxLinkDensity r).1.contigs.map (fun c => (c.name, c.recounts, c.length)) =
        r.contigs.map (fun c => (c.name, c.recounts, c.length)) ∧
      (skipRepeats MaxLinkDensity r).1.contigs.length = r.contigs.length) ∧
    (skipContigsWithFewREs MinREs r).1.matrix = r.matrix ∧
    (skipContigsWithFewREs MinREs r).1.longestRE = r.longestRE ∧
    (skipContigsWithFewREs MinREs r).1.contigToIdx = r.contigToIdx := by
  have h1 := skipContigsWithFewREs_map (fun c => (c.name, c.recounts, c.length))
    (fun _ => rfl) MinREs r
  have h2 : (skipRepeats MaxLinkDensity r).1.contigs.map
      (fun c => (c.name, c.recounts, c.length)) =
      r.contigs.map (fun c => (c.name, c.recounts, c.length)) := by
    rw [skipRepeats_contigs]
    exact skipRepeats_loop_map (fun c => (c.name, c.recounts, c.length)) (fun _ => rfl)
      _ _ _ _ _ _ _ _ _
  refine ⟨⟨h1, ?_⟩, ⟨h2, ?_⟩, rfl, rfl, rfl⟩
  · have := congrArg List.length h1
    simpa using this
  · have := congrArg List.length h2
    simpa using this

/-! ## Theorems on `readRE` and `parseDist` -/

theorem getElem?_of_length {α : Type} (l : List α) (d : α) (k : Nat) (h : k < l.length) :
    l[k]? = some (l.getD k d) := by
  rw [List.getD_eq_getElem?_getD, List.getElem?_eq_getElem h]
  rfl

/-- One iteration of the first loop of `readRE` on a row with three columns. -/
theorem readRE_loop_cons (rec : List String) (rest : List (List String))
    (contigs : List ContigInfo) (longestRE : Int) (h : 3 ≤ rec.length) :
    readRE.loop (rec :: rest) contigs longestRE =
      readRE.loop rest (contigs ++ [readRE.rowContig rec])
        (if (readRE.rowContig rec).recounts > longestRE then (readRE.rowContig rec).recounts
          else longestRE) := by
  have h0 := getElem?_of_length rec "" 0 (by omega)
  have h1 := getElem?_of_length rec "" 1 (by omega)
  have h2 := getElem?_of_length rec "" 2 (by omega)
  simp only [readRE.loop, h0, h1, h2, readRE.rowContig]

/-- The first loop of `readRE` on rows of three columns: it completes, appends one record
per row in row order, and ends with the largest of the initial `longestRE` and the site
counts read. -/
theorem readRE_loop_spec (recs : List (List String)) (contigs : List ContigInfo)
    (longestRE : Int) (hcols : ∀ rec ∈ recs, 3 ≤ rec.length) :
    ∃ longest', readRE.loop recs contigs longestRE =
        .ok (contigs ++ recs.map readRE.rowContig, longest') ∧
      longestRE ≤ longest' ∧
      (∀ rec ∈ recs, (readRE.rowContig rec).recounts ≤ longest') ∧
      (longest' = longestRE ∨ ∃ rec ∈ recs, (readRE.rowContig rec).recounts = longest') := by
  induction recs generalizing contigs longestRE with
  | nil => exact ⟨longestRE, by simp [readRE.loop], Int.le_refl _, by simp, Or.inl rfl⟩
  | cons rec rest ih =>
    have hrest : ∀ x ∈ rest, 3 ≤ x.length := fun x hx => hcols x (List.mem_cons_of_mem _ hx)
    obtain ⟨L, hrun, hle, hall, hex⟩ := ih (contigs ++ [readRE.rowContig rec])
      (if (readRE.rowContig rec).recounts > longestRE then (readRE.rowContig rec).recounts
        else longestRE) hrest
    refine ⟨L, ?_, ?_, ?_, ?_⟩
    · rw [readRE_loop_cons rec rest contigs longestRE (hcols rec (List.mem_cons_self _ _)),
        hrun]
      simp
    · split at hle <;> omega
    · intro x hx
      rcases List.mem_cons.1 hx with h | h
      · subst h
        split at hle <;> omega
      · exact hall x h
    · rcases hex with h | ⟨x, hx, hxe⟩
      · split at h
        · exact Or.inr ⟨rec, List.mem_cons_self _ _, h.symm⟩
        · exact Or.inl h
      · exact Or.inr ⟨x, List.mem_cons_of_mem _ hx, hxe⟩

theorem readRE_eq_ok (r : Partitioner) (recs : List (List String))
    (contigs : List ContigInfo) (longest : Int)
    (h : readRE.loop recs r.contigs 0 = .ok (contigs, longest)) :
    readRE r recs = .ok { r with contigs := contigs, longestRE := longest,
                                 contigToIdx := readRE.contigToIdx contigs } := by
  unfold readRE
  simp only [h]

/-- C13. `longestRE` is the maximum site count: for rows of three columns whose site
counts are read as non-negative, `readRE` completes, appends one record per row in row
order to the contig list (on a fresh `Partitioner` the list is exactly these records),
and leaves in `longestRE` the maximum `recounts` of the loaded contigs; `0` for an
empty table. -/
theorem readRE_longestRE_is_maximum (r : Partitioner) (recs : List (List String))
    (hcols : ∀ rec ∈ recs, 3 ≤ rec.length)
    (hnonneg : ∀ rec ∈ recs, 0 ≤ (readRE.rowContig rec).recounts) :
    ∃ r', readRE r recs = .ok r' ∧
      r'.contigs = r.contigs ++ recs.map readRE.rowContig ∧
      (∀ c ∈ recs.map readRE.rowContig, c.recounts ≤ r'.longestRE) ∧
      (recs ≠ [] → ∃ c ∈ recs.map readRE.rowContig, c.recounts = r'.longestRE) ∧
      (recs = [] → r'.longestRE = 0) := by
  obtain ⟨L, hrun, hle, hall, hex⟩ := readRE_loop_spec recs r.contigs 0 hcols
  refine ⟨_, readRE_eq_ok r recs _ L hrun, rfl, ?_, ?_, ?_⟩
  · intro c hc
    obtain ⟨rec, hrec, rfl⟩ := List.mem_map.1 hc
    exact hall rec hrec
  · intro hne
    rcases hex with h | ⟨rec, hrec, he⟩
    · obtain ⟨rec, hrec⟩ := List.exists_mem_of_ne_nil recs hne
      refine ⟨readRE.rowContig rec, List.mem_map_of_mem _ hrec, ?_⟩
      have h1 := hall rec hrec
      have h2 := hnonneg rec hrec
      show (readRE.rowContig rec).recounts = L
      omega
    · exact ⟨readRE.rowContig rec, List.mem_map_of_mem _ hrec, he⟩
  · intro hnil
    subst hnil
    rcases hex with h | ⟨rec, hrec, _⟩
    · exact h
    · cases hrec

/-- C13 on a table of three rows with 10, 25 and 7 sites: `longestRE = 25`. -/
theorem readRE_longestRE_is_maximum_witness :
    readRE exFresh [["A", "10", "100"], ["B", "25", "50"], ["C", "7", "70"]] =
        .ok (exState [⟨"A", 10, 100, false⟩, ⟨"B", 25, 50, false⟩, ⟨"C", 7, 70, false⟩] 25 []) ∧
      ∃ r', readRE exFresh [["A", "10", "100"], ["B", "25", "50"], ["C", "7", "70"]] = .ok r' ∧
        r'.contigs = exFresh.contigs ++
          [["A", "10", "100"], ["B", "25", "50"], ["C", "7", "70"]].map readRE.rowContig ∧
        (∀ c ∈ [["A", "10", "100"], ["B", "25", "50"], ["C", "7", "70"]].map readRE.rowContig,
          c.recounts ≤ r'.longestRE) ∧
        (([["A", "10", "100"], ["B", "25", "50"], ["C", "7", "70"]] : List (List String)) ≠ [] →
          ∃ c ∈ [["A", "10", "100"], ["B", "25", "50"], ["C", "7", "70"]].map readRE.rowContig,
            c.recounts = r'.longestRE) ∧
        (([["A", "10", "100"], ["B", "25", "50"], ["C", "7", "70"]] : List (List String)) = [] →
          r'.longestRE = 0) :=
  ⟨rfl, readRE_longestRE_is_maximum exFresh
    [["A", "10", "100"], ["B", "25", "50"], ["C", "7", "70"]] (by decide) (by decide)⟩

/-- `parseDist` on rows of eight columns: it completes with one edge per row, in row
order. -/
theorem parseDist_spec (ParseFloat : String → F64) (recs : List (List String))
    (hcols : ∀ rec ∈ recs, 8 ≤ rec.length) :
    parseDist ParseFloat recs = .ok (recs.map (parseDist.rowPair ParseFloat)) := by
  induction recs with
  | nil => rfl
  | cons rec rest ih =>
    have hlen := hcols rec (List.mem_cons_self _ _)
    have h0 := getElem?_of_length rec "" 0 (by omega)
    have h1 := getElem?_of_length rec "" 1 (by omega)
    have h2 := getElem?_of_length rec "" 2 (by omega)
    have h3 := getElem?_of_length rec "" 3 (by omega)
    have h4 := getElem?_of_length rec "" 4 (by omega)
    have h5 := getElem?_of_length rec "" 5 (by omega)
    have h6 := getElem?_of_length rec "" 6 (by omega)
    have h7 := getElem?_of_length rec "" 7 (by omega)
    simp only [parseDist, h0, h1, h2, h3, h4, h5, h6, h7,
      ih (fun x hx => hcols x (List.mem_cons_of_mem _ hx)), List.map_cons,
      parseDist.rowPair]

theorem ParseInt_syntax_error_value (l : List Char)
    (h : (ParseInt l).2 = some .ErrSyntax) : (ParseInt l).1 = 0 := by
  cases l with
  | nil => rfl
  | cons c rest =>
    unfold ParseInt at h ⊢
    simp only at h ⊢
    generalize ParseUint (if c = '+' ∨ c = '-' then rest else c :: rest) = p at h ⊢
    obtain ⟨un, err⟩ := p
    cases err with
    | none =>
      simp only at h
      split at h
      · cases h
      · split at h
        · cases h
        · cases h
    | some e =>
      cases e with
      | ErrSyntax => rfl
      | ErrRange =>
        simp only at h
        split at h
        · cases h
        · split at h
          · cases h
          · cases h

/-- A text `strconv.Atoi` rejects with a syntax error is read as `0`. -/
theorem Atoi_syntax_error_value (s : String) (h : (Atoi s).2 = some .ErrSyntax) :
    (Atoi s).1 = 0 :=
  ParseInt_syntax_error_value s.data h

/-- C14, as the code stands: the row `A x 100` has a second column that is no integer;
`readRE` reports nothing and makes a `ContigInfo` with `recounts = 0`. Likewise
`parseDist` reads the non-numeric `sitesA` column `x` as `RE1 = 0`. -/
theorem readRE_defaults_unparseable_to_zero :
    Atoi "x" = (0, some .ErrSyntax) ∧
      readRE exFresh [["A", "x", "100"]] = .ok (exState [⟨"A", 0, 100, false⟩] 0 []) ∧
      parseDist (fun _ => F64.nan) [["0", "1", "A", "B", "x", "5", "4", "1.5"]] =
        .ok [⟨0, 1, "A", "B", 0, 5, 4, F64.nan⟩] :=
  ⟨by decide, rfl, rfl⟩

/-- C14, amended. `readRE` and `parseDist` report no error for a column that is not an
integer: on rows with enough columns (three, respectively eight) they complete and make
one record per row, each integer field being the value `strconv.Atoi` returns with its
error dropped, which is `0` for a text that is a syntax error. -/
theorem readRE_parseDist_drop_parse_errors (ParseFloat : String → F64) (r : Partitioner)
    (recs drecs : List (List String)) (hcols : ∀ rec ∈ recs, 3 ≤ rec.length)
    (hdcols : ∀ rec ∈ drecs, 8 ≤ rec.length) :
    (∃ r', readRE r recs = .ok r' ∧
        r'.contigs = r.contigs ++ recs.map readRE.rowContig) ∧
      parseDist ParseFloat drecs = .ok (drecs.map (parseDist.rowPair ParseFloat)) ∧
      ∀ s : String, (Atoi s).2 = some .ErrSyntax → (Atoi s).1 = 0 := by
  obtain ⟨L, hrun, _⟩ := readRE_loop_spec recs r.contigs 0 hcols
  exact ⟨⟨_, readRE_eq_ok r recs _ L hrun, rfl⟩, parseDist_spec ParseFloat drecs hdcols,
    Atoi_syntax_error_value⟩

/-- C14 amended, on the rows `A x 100` and `0 1 A B x 5 4 1.5`. -/
theorem readRE_parseDist_drop_parse_errors_witness :
    (∃ r', readRE exFresh [["A", "x", "100"]] = .ok r' ∧
        r'.contigs = exFresh.contigs ++ [["A", "x", "100"]].map readRE.rowContig) ∧
      parseDist (fun _ => F64.nan) [["0", "1", "A", "B", "x", "5", "4", "1.5"]] =
        .ok ([["0", "1", "A", "B", "x", "5", "4", "1.5"]].map
          (parseDist.rowPair (fun _ => F64.nan))) ∧
      ∀ s : String, (Atoi s).2 = some .ErrSyntax → (Atoi s).1 = 0 :=
  readRE_parseDist_drop_parse_errors (fun _ => F64.nan) exFresh [["A", "x", "100"]]
    [["0", "1", "A", "B", "x", "5", "4", "1.5"]] (by decide) (by decide)

/-! ## Theorems on the name-to-index map -/

theorem lookup_mapAssign_self (m : List (String × Nat)) (k : String) (v : Nat) :
    (mapAssign m k v).lookup k = some v := by
  simp [mapAssign, List.lookup_cons]

theorem lookup_filter_ne (m : List (String × Nat)) (k key : String) (h : key ≠ k) :
    (m.filter (fun kv => kv.1 != k)).lookup key = m.lookup key := by
  induction m with
  | nil => rfl
  | cons kv rest ih =>
    obtain ⟨k', v'⟩ := kv
    by_cases hk : k' = k
    · subst hk
      have h1 : (key == k') = false := by simpa using h
      simp [List.filter_cons, List.lookup_cons, h1, ih]
    · have h2 : (k' != k) = true := by simpa using hk
      simp only [List.filter_cons, h2, if_true, List.lookup_cons, ih]

theorem lookup_mapAssign_ne (m : List (String × Nat)) (k key : String) (v : Nat)
    (h : key ≠ k) : (mapAssign m k v).lookup key = m.lookup key := by
  have h1 : (key == k) = false := by simpa using h
  simp only [mapAssign, List.lookup_cons, h1]
  exact lookup_filter_ne m k key h

theorem lookup_indexLoop_absent (contigs : List ContigInfo) (i : Nat)
    (m : List (String × Nat)) (key : String) (h : ∀ c ∈ contigs, c.name ≠ key) :
    (readRE.indexLoop contigs i m).lookup key = m.lookup key := by
  induction contigs generalizing i m with
  | nil => rfl
  | cons c rest ih =>
    simp only [readRE.indexLoop]
    rw [ih (i + 1) _ (fun x hx => h x (List.mem_cons_of_mem _ hx))]
    exact lookup_mapAssign_ne m c.name key i (fun hk => h c (List.mem_cons_self _ _) hk.symm)

/-- After the index loop a name maps to the position of its last occurrence. -/
theorem lookup_indexLoop_last (contigs : List ContigInfo) (i : Nat)
    (m : List (String × Nat)) (k : Nat) (c : ContigInfo) (hc : contigs[k]? = some c)
    (hlast : ∀ (j : Nat) (c' : ContigInfo), k < j → contigs[j]? = some c' →
      c'.name ≠ c.name) :
    (readRE.indexLoop contigs i m).lookup c.name = some (i + k) := by
  induction contigs generalizing i m k with
  | nil => simp at hc
  | cons c0 rest ih =>
    simp only [readRE.indexLoop]
    cases k with
    | zero =>
      simp only [List.getElem?_cons_zero, Option.some.injEq] at hc
      subst hc
      rw [lookup_indexLoop_absent rest (i + 1) _ c0.name, lookup_mapAssign_self]
      · rfl
      · intro x hx hname
        obtain ⟨j, hj⟩ := List.mem_iff_getElem?.1 hx
        exact hlast (j + 1) x (Nat.succ_pos j) (by simpa using hj) hname
    | succ k =>
      simp only [List.getElem?_cons_succ] at hc
      rw [ih (i + 1) _ k hc, show i + 1 + k = i + (k + 1) by omega]
      intro j c' hj hc'
      exact hlast (j + 1) c' (by omega) (by simpa using hc')

/-- With pairwise distinct names, none of them a key yet, the index loop adds exactly one
key per contig. -/
theorem keys_indexLoop (contigs : List ContigInfo) (i : Nat) (m : List (String × Nat))
    (hnodup : (contigs.map (fun c => c.name)).Nodup)
    (hnew : ∀ c ∈ contigs, c.name ∉ m.map Prod.fst) :
    (readRE.indexLoop contigs i m).map Prod.fst =
      (contigs.map (fun c => c.name)).reverse ++ m.map Prod.fst := by
  induction contigs generalizing i m with
  | nil => simp [readRE.indexLoop]
  | cons c0 rest ih =>
    simp only [List.map_cons, List.nodup_cons] at hnodup
    have hfilter : m.filter (fun kv => kv.1 != c0.name) = m := by
      rw [List.filter_eq_self]
      intro kv hkv
      have : kv.1 ≠ c0.name := fun h =>
        hnew c0 (List.mem_cons_self _ _) (h ▸ List.mem_map_of_mem Prod.fst hkv)
      simpa using this
    have hassign : mapAssign m c0.name i = (c0.name, i) :: m := by
      simp only [mapAssign, hfilter]
    simp only [readRE.indexLoop, hassign]
    rw [ih (i + 1) _ hnodup.2]
    · simp
    · intro c hc hmem
      simp only [List.map_cons, List.mem_cons] at hmem
      rcases hmem with h | h
      · exact hnodup.1 (h ▸ List.mem_map_of_mem (fun c => c.name) hc)
      · exact hnew c (List.mem_cons_of_mem _ hc) h

theorem readRE_ok (r r' : Partitioner) (recs : List (List String))
    (h : readRE r recs = .ok r') : r'.contigToIdx = readRE.contigToIdx r'.contigs := by
  unfold readRE at h
  split at h
  · cases h
  · cases h
    rfl

/-- C17. The name-to-index map matches the load order: after `readRE` every name maps to
the position of its last occurrence in the contig list; with pairwise distinct names
`contigToIdx[contigs[i].name] = i` for every `i < N`, and the keys of the map are exactly
the `N` names. -/
theorem readRE_index_matches_load_order (r r' : Partitioner) (recs : List (List String))
    (hrun : readRE r recs = .ok r') :
    (∀ (i : Nat) (c : ContigInfo), r'.contigs[i]? = some c →
        (∀ (j : Nat) (c' : ContigInfo), i < j → r'.contigs[j]? = some c' →
          c'.name ≠ c.name) →
        r'.contigToIdx.lookup c.name = some i) ∧
      ((r'.contigs.map (fun c => c.name)).Nodup →
        (∀ (i : Nat) (c : ContigInfo), r'.contigs[i]? = some c →
          r'.contigToIdx.lookup c.name = some i ∧ mapIndex r'.contigToIdx c.name = i) ∧
        r'.contigToIdx.map Prod.fst = (r'.contigs.map (fun c => c.name)).reverse ∧
        r'.contigToIdx.length = r'.contigs.length) := by
  have hidx := readRE_ok r r' recs hrun
  have hlast : ∀ (i : Nat) (c : ContigInfo), r'.contigs[i]? = some c →
      (∀ (j : Nat) (c' : ContigInfo), i < j → r'.contigs[j]? = some c' →
        c'.name ≠ c.name) →
      r'.contigToIdx.lookup c.name = some i := by
    intro i c hc hl
    rw [hidx]
    have := lookup_indexLoop_last r'.contigs 0 [] i c hc hl
    simpa [readRE.contigToIdx] using this
  refine ⟨hlast, fun hnodup => ?_⟩
  have hkeys : r'.contigToIdx.map Prod.fst = (r'.contigs.map (fun c => c.name)).reverse := by
    rw [hidx]
    have := keys_indexLoop r'.contigs 0 [] hnodup (fun c _ h => by simp at h)
    simpa [readRE.contigToIdx] using this
  refine ⟨fun i c hc => ?_, hkeys, ?_⟩
  · have hl := hlast i c hc (by
      intro j c' hij hc' hname
      have h1 : (r'.contigs.map (fun c => c.name))[i]? = some c.name := by
        rw [List.getElem?_map, hc]; rfl
      have h2 : (r'.contigs.map (fun c => c.name))[j]? = some c.name := by
        rw [List.getElem?_map, hc']; simp [hname]
      have hj : j < (r'.contigs.map (fun c => c.name)).length := by
        obtain ⟨h, _⟩ := List.getElem?_eq_some.1 h2
        exact h
      exact List.nodup_iff_getElem?_ne_getElem?.1 hnodup i j hij hj (h1.trans h2.symm))
    exact ⟨hl, by simp [mapIndex, hl]⟩
  · have := congrArg List.length hkeys
    simpa using this

/-- C17 on a table of three rows: `A`, `B`, `C` map to `0`, `1`, `2`; with the name `A`
repeated in the third row, `A` maps to `2`. -/
theorem readRE_index_matches_load_order_witness :
    readRE exFresh [["A", "10", "100"], ["B", "25", "50"], ["A", "7", "70"]] =
        .ok (exState [⟨"A", 10, 100, false⟩, ⟨"B", 25, 50, false⟩, ⟨"A", 7, 70, false⟩] 25 []) ∧
      mapIndex (readRE.contigToIdx
        [⟨"A", 10, 100, false⟩, ⟨"B", 25, 50, false⟩, ⟨"A", 7, 70, false⟩]) "A" = 2 ∧
      (exState exThreeContigs 10 []).contigToIdx = [("C", 2), ("B", 1), ("A", 0)] ∧
      ((exState exThreeContigs 10 []).contigs.map (fun c => c.name)).Nodup ∧
      ((∀ (i : Nat) (c : ContigInfo), (exState exThreeContigs 10 []).contigs[i]? = some c →
          (exState exThreeContigs 10 []).contigToIdx.lookup c.name = some i ∧
            mapIndex (exState exThreeContigs 10 []).contigToIdx c.name = i) ∧
        (exState exThreeContigs 10 []).contigToIdx.map Prod.fst =
          ((exState exThreeContigs 10 []).contigs.map (fun c => c.name)).reverse ∧
        (exState exThreeContigs 10 []).contigToIdx.length =
          (exState exThreeContigs 10 []).contigs.length) :=
  ⟨rfl, by decide, by decide, by decide,
    (readRE_index_matches_load_order exFresh (exState exThreeContigs 10 [])
      [["A", "10", "100"], ["B", "10", "50"], ["C", "10", "50"]] rfl).2 (by decide)⟩

/-! ## Theorems on `splitRE` -/

theorem digitChar_toNat (d : Nat) (h : d < 10) : (digitChar d).toNat - 48 = d := by
  interval_cases d <;> decide

theorem digitChar_ne_minus (d : Nat) (h : d < 10) : digitChar d ≠ '-' := by
  interval_cases d <;> decide

theorem formatNatAux_append (fuel n : Nat) (acc : List Char) :
    formatNatAux fuel n acc = formatNatAux fuel n [] ++ acc := by
  induction fuel generalizing n acc with
  | zero => rfl
  | succ fuel ih =>
    unfold formatNatAux
    split
    · rfl
    · rw [ih (n / 10) (digitChar (n % 10) :: acc), ih (n / 10) [digitChar (n % 10)]]
      simp

/-- Reading the digits of `formatNat` back gives the number. -/
theorem decode_formatNatAux (fuel n : Nat) (h : n < fuel) :
    (formatNatAux fuel n []).foldl (fun v c => 10 * v + (c.toNat - 48)) 0 = n := by
  induction fuel generalizing n with
  | zero => omega
  | succ fuel ih =>
    unfold formatNatAux
    split
    · next hlt => simp [digitChar_toNat n hlt]
    · next hge =>
      rw [formatNatAux_append, List.foldl_append, ih (n / 10) (by omega)]
      simp only [List.foldl_cons, List.foldl_nil]
      rw [digitChar_toNat (n % 10) (Nat.mod_lt _ (by omega))]
      omega

theorem formatNat_injective (a b : Nat) (h : formatNat a = formatNat b) : a = b := by
  have ha := decode_formatNatAux (a + 1) a (Nat.lt_succ_self a)
  have hb := decode_formatNatAux (b + 1) b (Nat.lt_succ_self b)
  unfold formatNat at h
  rw [h] at ha
  exact ha.symm.trans hb

theorem formatNatAux_digits (fuel n : Nat) (acc : List Char) (c : Char)
    (hc : c ∈ formatNatAux fuel n acc) : c ∈ acc ∨ ∃ d, d < 10 ∧ c = digitChar d := by
  induction fuel generalizing n acc with
  | zero => exact Or.inl hc
  | succ fuel ih =>
    unfold formatNatAux at hc
    split at hc
    · next hlt =>
      rcases List.mem_cons.1 hc with h | h
      · exact Or.inr ⟨n, hlt, h⟩
      · exact Or.inl h
    · rcases ih (n / 10) _ hc with h | h
      · rcases List.mem_cons.1 h with h' | h'
        · exact Or.inr ⟨n % 10, Nat.mod_lt _ (by omega), h'⟩
        · exact Or.inl h'
      · exact Or.inr h

theorem formatNat_ne_minus (n : Nat) (l : List Char) : formatNat n ≠ '-' :: l := by
  intro h
  have hmem : '-' ∈ formatNat n := by rw [h]; exact List.mem_cons_self _ _
  rcases formatNatAux_digits (n + 1) n [] '-' hmem with h' | ⟨d, hd, h'⟩
  · cases h'
  · exact digitChar_ne_minus d hd h'.symm

/-- Different integers are printed differently by `%d`. -/
theorem formatInt_injective (a b : Int) (h : formatInt a = formatInt b) : a = b := by
  unfold formatInt at h
  have hd := congrArg String.data h
  simp only at hd
  by_cases ha : a < 0 <;> by_cases hb : b < 0
  · simp only [ha, hb, if_true, List.cons.injEq, true_and] at hd
    have := formatNat_injective _ _ hd
    omega
  · simp only [ha, hb, if_true, if_false] at hd
    exact absurd hd.symm (formatNat_ne_minus _ _)
  · simp only [ha, hb, if_true, if_false] at hd
    exact absurd hd (formatNat_ne_minus _ _)
  · simp only [ha, hb, if_false] at hd
    have := formatNat_injective _ _ hd
    omega

/-- Different cluster ids give different output names. -/
theorem outfile_injective (base : String) (K j j' : Int)
    (hj : -2 ^ 63 ≤ j ∧ j < 2 ^ 63) (hj' : -2 ^ 63 ≤ j' ∧ j' < 2 ^ 63)
    (h : splitRE.outfile base K j = splitRE.outfile base K j') : j = j' := by
  unfold splitRE.outfile at h
  have hd := congrArg String.data h
  simp only [String.data_append, List.append_assoc, List.append_cancel_left_eq] at hd
  have hd' := List.append_cancel_right hd
  have hfmt : formatInt (addInt64 j 1) = formatInt (addInt64 j' 1) := String.ext hd'
  have hw := formatInt_injective _ _ hfmt
  unfold addInt64 wrapInt64 at hw
  omega

/-- The inner loop of `splitRE` on indices inside the contig list: it completes with the
records `contigs[idx]` in the order of the indices. -/
theorem gather_spec (contigs : List ContigInfo) (cl : List Int)
    (hrange : ∀ idx ∈ cl, 0 ≤ idx ∧ idx < contigs.length) :
    ∃ cs, splitRE.gather contigs cl = .ok cs ∧
      cs.map some = cl.map (fun idx => contigs[idx.toNat]?) := by
  induction cl with
  | nil => exact ⟨[], rfl, rfl⟩
  | cons idx rest ih =>
    obtain ⟨cs, hrun, hcs⟩ := ih (fun x hx => hrange x (List.mem_cons_of_mem _ hx))
    obtain ⟨h0, h1⟩ := hrange idx (List.mem_cons_self _ _)
    have hlt : idx.toNat < contigs.length := by omega
    refine ⟨contigs[idx.toNat] :: cs, ?_, ?_⟩
    · simp only [splitRE.gather, Int.not_lt.2 h0, if_false, List.getElem?_eq_getElem hlt,
        hrun]
    · simp only [List.map_cons, hcs, List.getElem?_eq_getElem hlt]

/-- The outer loop of `splitRE` on clusters whose indices are inside the contig list: one
call of `writeRE` per cluster, in the order of the iteration, with the cluster's name and
its gathered records. -/
theorem splitRE_loop_spec (contigs : List ContigInfo) (base : String) (K : Int)
    (clusters : List (Int × List Int))
    (hrange : ∀ jc ∈ clusters, ∀ idx ∈ jc.2, 0 ≤ idx ∧ idx < contigs.length) :
    ∃ writes, splitRE.loop contigs base K clusters = .ok writes ∧
      List.Forall₂
        (fun (jc : Int × List Int) (w : String × List ContigInfo) =>
          w.1 = base ++ "." ++ formatInt K ++ "g" ++ formatInt (addInt64 jc.1 1) ++ ".txt" ∧
            w.2.map some = jc.2.map (fun idx => contigs[idx.toNat]?))
        clusters writes := by
  induction clusters with
  | nil => exact ⟨[], rfl, List.Forall₂.nil⟩
  | cons jc rest ih =>
    obtain ⟨j, cl⟩ := jc
    obtain ⟨writes, hrun, hall⟩ := ih (fun x hx => hrange x (List.mem_cons_of_mem _ hx))
    obtain ⟨cs, hg, hcs⟩ := gather_spec contigs cl (hrange (j, cl) (List.mem_cons_self _ _))
    refine ⟨(splitRE.outfile base K j, cs) :: writes, ?_, List.Forall₂.cons ⟨rfl, hcs⟩ hall⟩
    simp only [splitRE.loop, hg, hrun]

/-- C15. Output Splitter: when every index of the cluster assignment is inside the contig
list, `splitRE` completes and calls the writer once per cluster, in the order of the
iteration over the clusters: for cluster `j` with the index sequence `cl`, with the
records `contigs[cl[0]], contigs[cl[1]], ...` (same length and order as `cl`) under the
name `RemoveExt(Contigsfile) + "." + K + "g" + (j+1) + ".txt"`; `OutREfiles` grows by
exactly these names, one per cluster, and different cluster ids give different names. -/
theorem splitRE_gathers_in_order (RemoveExt : String → String) (r : Partitioner)
    (hrange : ∀ jc ∈ r.clusters, ∀ idx ∈ jc.2, 0 ≤ idx ∧ idx < r.contigs.length) :
    ∃ r' writes, splitRE RemoveExt r = .ok (r', writes) ∧
      List.Forall₂
        (fun (jc : Int × List Int) (w : String × List ContigInfo) =>
          w.1 = RemoveExt r.Contigsfile ++ "." ++ formatInt r.K ++ "g" ++
              formatInt (addInt64 jc.1 1) ++ ".txt" ∧
            w.2.map some = jc.2.map (fun idx => r.contigs[idx.toNat]?))
        r.clusters writes ∧
      r'.OutREfiles = r.OutREfiles ++ writes.map (fun w => w.1) ∧
      r'.OutREfiles.length = r.OutREfiles.length + r.clusters.length ∧
      ∀ j j' : Int, (-2 ^ 63 ≤ j ∧ j < 2 ^ 63) → (-2 ^ 63 ≤ j' ∧ j' < 2 ^ 63) →
        RemoveExt r.Contigsfile ++ "." ++ formatInt r.K ++ "g" ++
            formatInt (addInt64 j 1) ++ ".txt" =
          RemoveExt r.Contigsfile ++ "." ++ formatInt r.K ++ "g" ++
            formatInt (addInt64 j' 1) ++ ".txt" →
        j = j' := by
  obtain ⟨writes, hrun, hall⟩ :=
    splitRE_loop_spec r.contigs (RemoveExt r.Contigsfile) r.K r.clusters hrange
  refine ⟨{ r with OutREfiles := r.OutREfiles ++ writes.map (fun w => w.1) }, writes, ?_,
    hall, rfl, ?_, ?_⟩
  · simp only [splitRE, hrun]
  · simp [hall.length_eq]
  · intro j j' hj hj' h
    exact outfile_injective (RemoveExt r.Contigsfile) r.K j j' hj hj' h

/-- C15 on the example, with the base name `counts_RE` and `K = 2`: cluster `0 ↦ [2, 0]`
is written as `C`, `A` to `counts_RE.2g1.txt`, cluster `1 ↦ [1]` as `B` to
`counts_RE.2g2.txt`. -/
theorem splitRE_gathers_in_order_witness :
    splitRE (fun _ => "counts_RE") exClustered =
        .ok ({ exClustered with OutREfiles := ["counts_RE.2g1.txt", "counts_RE.2g2.txt"] },
          [("counts_RE.2g1.txt", [⟨"C", 10, 50, false⟩, ⟨"A", 10, 100, false⟩]),
            ("counts_RE.2g2.txt", [⟨"B", 10, 50, false⟩])]) ∧
      ∃ r' writes, splitRE (fun _ => "counts_RE") exClustered = .ok (r', writes) ∧
        List.Forall₂
          (fun (jc : Int × List Int) (w : String × List ContigInfo) =>
            w.1 = (fun _ => "counts_RE") exClustered.Contigsfile ++ "." ++
                formatInt exClustered.K ++ "g" ++ formatInt (addInt64 jc.1 1) ++ ".txt" ∧
              w.2.map some = jc.2.map (fun idx => exClustered.contigs[idx.toNat]?))
          exClustered.clusters writes ∧
        r'.OutREfiles = exClustered.OutREfiles ++ writes.map (fun w => w.1) ∧
        r'.OutREfiles.length = exClustered.OutREfiles.length + exClustered.clusters.length ∧
        ∀ j j' : Int, (-2 ^ 63 ≤ j ∧ j < 2 ^ 63) → (-2 ^ 63 ≤ j' ∧ j' < 2 ^ 63) →
          (fun _ => "counts_RE") exClustered.Contigsfile ++ "." ++ formatInt exClustered.K ++
              "g" ++ formatInt (addInt64 j 1) ++ ".txt" =
            (fun _ => "counts_RE") exClustered.Contigsfile ++ "." ++ formatInt exClustered.K ++
              "g" ++ formatInt (addInt64 j' 1) ++ ".txt" →
          j = j' :=
  ⟨rfl, splitRE_gathers_in_order (fun _ => "counts_RE") exClustered (by decide)⟩

/-! ## Theorems on the report of `skipRepeats` -/

theorem wrapInt64_add_wrap (a b : Int) : wrapInt64 (wrapInt64 a + b) = wrapInt64 (a + b) := by
  unfold wrapInt64
  omega

theorem wrapInt64_idem (a : Int) : wrapInt64 (wrapInt64 a) = wrapInt64 a := by
  unfold wrapInt64
  omega

/-- The counters left by the second loop of `skipRepeats`: every contig whose factor
reaches the threshold adds one to `nRepetitive` and its length to `repetitiveLength`, in
`int64` arithmetic, whatever its flag was. -/
theorem skipRepeats_loop_counters (MaxLinkDensity : F64) (nLinks : List Int)
    (nLinksAvg : F64) (N : Nat) (contigs : List ContigInfo) (i : Nat) (M : Matrix)
    (nRepetitive repetitiveLength : Int) (hn : wrapInt64 nRepetitive = nRepetitive)
    (hl : wrapInt64 repetitiveLength = repetitiveLength) :
    (skipRepeats.loop MaxLinkDensity nLinks nLinksAvg N contigs i M nRepetitive
        repetitiveLength).nRepetitive =
        wrapInt64 (nRepetitive + (((contigs.enumFrom i).filter
          (fun p => F64.ge (skipRepeats.factor nLinks nLinksAvg p.1) MaxLinkDensity)).length :
            Int)) ∧
      (skipRepeats.loop MaxLinkDensity nLinks nLinksAvg N contigs i M nRepetitive
        repetitiveLength).repetitiveLength =
        wrapInt64 (repetitiveLength + (((contigs.enumFrom i).filter
          (fun p => F64.ge (skipRepeats.factor nLinks nLinksAvg p.1) MaxLinkDensity)).map
            (fun p => p.2.length)).sum) := by
  induction contigs generalizing i M nRepetitive repetitiveLength with
  | nil => simp [skipRepeats.loop, hn, hl]
  | cons c0 rest ih =>
    unfold skipRepeats.loop
    by_cases hge : F64.ge (skipRepeats.factor nLinks nLinksAvg i) MaxLinkDensity = true
    · obtain ⟨h1, h2⟩ := ih (i + 1)
        (skipRepeats.adjustRow (skipRepeats.factor nLinks nLinksAvg i) N i M)
        (addInt64 nRepetitive 1) (addInt64 repetitiveLength c0.length)
        (wrapInt64_idem _) (wrapInt64_idem _)
      simp only [hge, if_true, List.enumFrom_cons, List.filter_cons, List.length_cons,
        List.map_cons, List.sum_cons, h1, h2]
      unfold addInt64
      rw [wrapInt64_add_wrap, wrapInt64_add_wrap]
      constructor
      · congr 1
        push_cast
        omega
      · congr 1
        omega
    · have hf : F64.ge (skipRepeats.factor nLinks nLinksAvg i) MaxLinkDensity = false := by
        simpa using hge
      obtain ⟨h1, h2⟩ := ih (i + 1)
        (skipRepeats.adjustRow (skipRepeats.factor nLinks nLinksAvg i) N i M)
        nRepetitive repetitiveLength hn hl
      simp only [hf, Bool.false_eq_true, if_false, List.enumFrom_cons, List.filter_cons,
        h1, h2]
      exact ⟨trivial, trivial⟩

/-- The contigs the second loop of `skipRepeats` newly marks are those whose factor
reaches the threshold and whose flag was not set. -/
theorem skipRepeats_loop_newlyMarked (MaxLinkDensity : F64) (nLinks : List Int)
    (nLinksAvg : F64) (N : Nat) (contigs : List ContigInfo) (i : Nat) (M : Matrix)
    (nRepetitive repetitiveLength : Int) :
    newlyMarked contigs (skipRepeats.loop MaxLinkDensity nLinks nLinksAvg N contigs i M
        nRepetitive repetitiveLength).contigs =
      (((contigs.enumFrom i).filter
        (fun p => F64.ge (skipRepeats.factor nLinks nLinksAvg p.1) MaxLinkDensity)).filter
          (fun p => !p.2.skip)).length := by
  induction contigs generalizing i M nRepetitive repetitiveLength with
  | nil => rfl
  | cons c0 rest ih =>
    unfold skipRepeats.loop
    by_cases hge : F64.ge (skipRepeats.factor nLinks nLinksAvg i) MaxLinkDensity = true
    · have h := ih (i + 1)
        (skipRepeats.adjustRow (skipRepeats.factor nLinks nLinksAvg i) N i M)
        (addInt64 nRepetitive 1) (addInt64 repetitiveLength c0.length)
      unfold newlyMarked at h ⊢
      simp only [hge, if_true, List.zip_cons_cons, List.enumFrom_cons, List.filter_cons,
        Bool.and_true]
      cases hs : c0.skip
      · simp only [Bool.not_false, if_true, List.length_cons, h]
      · simp only [Bool.not_true, Bool.false_eq_true, if_false, h]
    · have hf : F64.ge (skipRepeats.factor nLinks nLinksAvg i) MaxLinkDensity = false := by
        simpa using hge
      have h := ih (i + 1)
        (skipRepeats.adjustRow (skipRepeats.factor nLinks nLinksAvg i) N i M)
        nRepetitive repetitiveLength
      unfold newlyMarked at h ⊢
      simp only [hf, Bool.false_eq_true, if_false, List.zip_cons_cons, List.enumFrom_cons,
        List.filter_cons, Bool.not_and_self, h]

/-- C16, as the code stands: on `exMarked`, where `B` is already excluded, with
`MaxLinkDensity = 1` every factor is `1`: `skipRepeats` reports 3 contigs and the average
length `(100 + 50 + 50) / 3 = 66`, while only `A` and `C` changed from not excluded to
excluded. -/
theorem skipRepeats_report_includes_already_marked :
    exMarked.contigs.map (fun c => c.skip) = [false, true, false] ∧
      (skipRepeats (F64.ofInt 1) exMarked).1.contigs.map (fun c => c.skip) =
        [true, true, true] ∧
      newlyMarked exMarked.contigs (skipRepeats (F64.ofInt 1) exMarked).1.contigs = 2 ∧
      (skipRepeats (F64.ofInt 1) exMarked).2 = ⟨3, 66⟩ := by
  refine ⟨by decide, by decide!, by decide!, by decide!⟩

/-- C16, amended. `skipRepeats` reports the number of contigs whose factor reaches
`MaxLinkDensity` and the `int64` quotient of their total length by that number, counting
a contig whether or not it was excluded before; the contigs newly marked are those among
them that were not excluded before, so the report counts exactly the newly marked
contigs when no contig was excluded before. -/
theorem skipRepeats_report_counts_reaching (MaxLinkDensity : F64) (r : Partitioner) :
    (skipRepeats MaxLinkDensity r).2.nRepetitive =
        wrapInt64 ((skipRepeats.reaching MaxLinkDensity r).length : Int) ∧
      (skipRepeats MaxLinkDensity r).2.avgRepetiveLength =
        (if 0 < wrapInt64 ((skipRepeats.reaching MaxLinkDensity r).length : Int) then
          divInt64
            (wrapInt64 ((skipRepeats.reaching MaxLinkDensity r).map (fun p => p.2.length)).sum)
            (wrapInt64 ((skipRepeats.reaching MaxLinkDensity r).length : Int))
        else 0) ∧
      newlyMarked r.contigs (skipRepeats MaxLinkDensity r).1.contigs =
        ((skipRepeats.reaching MaxLinkDensity r).filter (fun p => !p.2.skip)).length ∧
      ((∀ c ∈ r.contigs, c.skip = false) →
        newlyMarked r.contigs (skipRepeats MaxLinkDensity r).1.contigs =
          (skipRepeats.reaching MaxLinkDensity r).length) := by
  obtain ⟨h1, h2⟩ := skipRepeats_loop_counters MaxLinkDensity
    (skipRepeats.countLinks r.matrix r.contigs.length).2
    (skipRepeats.nLinksAvg (skipRepeats.countLinks r.matrix r.contigs.length).1
      r.contigs.length)
    r.contigs.length r.contigs 0 r.matrix 0 0 wrapInt64_zero wrapInt64_zero
  have h3 := skipRepeats_loop_newlyMarked MaxLinkDensity
    (skipRepeats.countLinks r.matrix r.contigs.length).2
    (skipRepeats.nLinksAvg (skipRepeats.countLinks r.matrix r.contigs.length).1
      r.contigs.length)
    r.contigs.length r.contigs 0 r.matrix 0 0
  rw [Int.zero_add] at h1 h2
  have hn : (skipRepeats MaxLinkDensity r).2.nRepetitive =
      wrapInt64 ((skipRepeats.reaching MaxLinkDensity r).length : Int) := h1
  refine ⟨hn, ?_, h3, ?_⟩
  · show (if 0 < _ then divInt64 _ _ else 0) = _
    rw [h1, h2]
    rfl
  · intro hall
    rw [skipRepeats_contigs, h3]
    congr 1
    unfold skipRepeats.reaching
    rw [List.filter_eq_self]
    intro p hp
    have hmem : p.2 ∈ r.contigs := by
      have hp' := (List.mem_filter.1 hp).1
      rw [(List.mem_enumFrom hp').2.2]
      exact List.getElem_mem _
    simp [hall p.2 hmem]

/-! ## Theorems on `skipRepeats` without links -/

theorem foldl_fixed {α β : Type} (f : β → α → β) (b : β) (l : List α)
    (h : ∀ a ∈ l, f b a = b) : l.foldl f b = b := by
  induction l with
  | nil => rfl
  | cons a rest ih =>
    rw [List.foldl_cons, h a (List.mem_cons_self _ _)]
    exact ih (fun x hx => h x (List.mem_cons_of_mem _ hx))

theorem addAt_zero (N i : Nat) :
    skipRepeats.addAt (List.replicate N 0) i 0 = List.replicate N 0 := by
  unfold skipRepeats.addAt
  apply List.ext_getElem?
  intro k
  simp only [List.getElem?_set, List.getD_eq_getElem?_getD, List.getElem?_replicate,
    List.length_replicate]
  by_cases hik : i = k
  · subst hik
    by_cases hi : i < N
    · simp [hi, addInt64, wrapInt64_zero]
    · simp [hi]
  · simp [hik]

/-- On a matrix without links the first loop nest leaves `totalLinks = 0` and every
`nLinks[i] = 0`. -/
theorem countLinks_zero (M : Matrix) (N : Nat) (hzero : ∀ i j, mget M i j = 0) :
    skipRepeats.countLinks M N = (0, List.replicate N 0) := by
  unfold skipRepeats.countLinks
  apply foldl_fixed
  intro i _
  apply foldl_fixed
  intro j _
  simp only [hzero, addAt_zero, addInt64, Int.add_zero, wrapInt64_zero]

/-- With `totalLinks = 0` every factor is the quotient `0/0`, NaN. -/
theorem factor_zero_links (N i : Nat) :
    skipRepeats.factor (List.replicate N 0) (skipRepeats.nLinksAvg 0 N) i = F64.nan := by
  have hget : (List.replicate N (0 : Int)).getD i 0 = 0 := by
    simp only [List.getD_eq_getElem?_getD, List.getElem?_replicate]
    split <;> rfl
  have h0 : F64.ofInt 0 = F64.fin false 0 (-1074) := by decide
  have h2 : F64.mul (F64.ofInt 2) (F64.ofInt 0) = F64.fin false 0 (-1074) := by decide!
  unfold skipRepeats.factor skipRepeats.nLinksAvg
  rw [hget, h2, h0]
  cases F64.ofInt (N : Int) with
  | nan => rfl
  | inf t => simp [F64.div]
  | fin t n f =>
    by_cases hn : n = 0
    · simp [F64.div, hn]
    · simp [F64.div, hn, F64.round]

theorem adjustRow_zero (factor : F64) (N i : Nat) (M : Matrix)
    (hzero : ∀ i j, mget M i j = 0) : skipRepeats.adjustRow factor N i M = M := by
  unfold skipRepeats.adjustRow
  apply foldl_fixed
  intro j _
  simp [hzero]

/-- The second loop of `skipRepeats` when no factor reaches the threshold and the matrix
has no links: nothing changes. -/
theorem skipRepeats_loop_idle (MaxLinkDensity : F64) (nLinks : List Int) (nLinksAvg : F64)
    (N : Nat) (contigs : List ContigInfo) (i : Nat) (M : Matrix)
    (nRepetitive repetitiveLength : Int) (hzero : ∀ i j, mget M i j = 0)
    (hge : ∀ k, F64.ge (skipRepeats.factor nLinks nLinksAvg k) MaxLinkDensity = false) :
    skipRepeats.loop MaxLinkDensity nLinks nLinksAvg N contigs i M nRepetitive
      repetitiveLength = ⟨M, contigs, nRepetitive, repetitiveLength⟩ := by
  induction contigs generalizing i with
  | nil => rfl
  | cons c0 rest ih =>
    unfold skipRepeats.loop
    simp only [hge i, Bool.false_eq_true, if_false, adjustRow_zero _ N i M hzero, ih (i + 1)]

theorem mget_of_all_zero (M : Matrix) (hall : ∀ row ∈ M, ∀ x ∈ row, x = 0) (i j : Nat) :
    mget M i j = 0 := by
  unfold mget
  simp only [List.getD_eq_getElem?_getD]
  cases hrow : M[i]? with
  | none => simp
  | some row =>
    simp only [Option.getD_some]
    cases hx : row[j]? with
    | none => rfl
    | some x => exact hall row (List.getElem?_mem hrow) x (List.getElem?_mem hx)

/-- C20. No links: on a matrix whose entries are all zero, `totalLinks` and every
`nLinks[i]` are `0`, every factor is the quotient `0/0` (NaN, which is not `>=` any
threshold), and `skipRepeats` leaves the matrix and every contig as they are and reports
zero repetitive contigs; no operation panics. -/
theorem skipRepeats_no_links (MaxLinkDensity : F64) (r : Partitioner)
    (hall : ∀ row ∈ r.matrix, ∀ x ∈ row, x = 0) :
    skipRepeats.countLinks r.matrix r.contigs.length = (0, List.replicate r.contigs.length 0) ∧
      (∀ i, skipRepeats.factor (skipRepeats.countLinks r.matrix r.contigs.length).2
        (skipRepeats.nLinksAvg (skipRepeats.countLinks r.matrix r.contigs.length).1
          r.contigs.length) i = F64.nan) ∧
      (skipRepeats MaxLinkDensity r).1 = r ∧
      (skipRepeats MaxLinkDensity r).2 = ⟨0, 0⟩ := by
  have hzero := mget_of_all_zero r.matrix hall
  have hc := countLinks_zero r.matrix r.contigs.length hzero
  have hf : ∀ i, skipRepeats.factor (skipRepeats.countLinks r.matrix r.contigs.length).2
      (skipRepeats.nLinksAvg (skipRepeats.countLinks r.matrix r.contigs.length).1
        r.contigs.length) i = F64.nan := by
    intro i
    rw [hc]
    exact factor_zero_links _ i
  have hloop := skipRepeats_loop_idle MaxLinkDensity
    (skipRepeats.countLinks r.matrix r.contigs.length).2
    (skipRepeats.nLinksAvg (skipRepeats.countLinks r.matrix r.contigs.length).1
      r.contigs.length)
    r.contigs.length r.contigs 0 r.matrix 0 0 hzero
    (fun k => by rw [hf k]; cases MaxLinkDensity <;> rfl)
  refine ⟨hc, hf, ?_, ?_⟩
  · unfold skipRepeats
    simp only [hloop]
  · unfold skipRepeats
    simp only [hloop]
    rfl

/-- C20 on three contigs and the zero matrix, with `B` already excluded and the threshold
`0`. -/
theorem skipRepeats_no_links_witness :
    (skipRepeats (F64.ofInt 0) exNoLinks).1 = exNoLinks ∧
      (skipRepeats (F64.ofInt 0) exNoLinks).2 = ⟨0, 0⟩ ∧
      skipRepeats.nLinksAvg 0 3 = F64.fin false 0 (-1074) ∧
      skipRepeats.factor [0, 0, 0] (skipRepeats.nLinksAvg 0 3) 1 = F64.nan :=
  ⟨(skipRepeats_no_links (F64.ofInt 0) exNoLinks (by decide)).2.2.1,
    (skipRepeats_no_links (F64.ofInt 0) exNoLinks (by decide)).2.2.2, by decide!, by decide!⟩

/-! ## Lemmas on sums -/

theorem sumBelow_zero (f : Nat → Int) : sumBelow 0 f = 0 := rfl

theorem sumBelow_succ (n : Nat) (f : Nat → Int) : sumBelow (n + 1) f = sumBelow n f + f n := by
  simp [sumBelow, List.range_succ]

theorem sumBelow_add (n : Nat) (f g : Nat → Int) :
    sumBelow n (fun i => f i + g i) = sumBelow n f + sumBelow n g := by
  induction n with
  | zero => rfl
  | succ n ih => rw [sumBelow_succ, sumBelow_succ, sumBelow_succ, ih]; omega

theorem sumBelow_congr (n : Nat) (f g : Nat → Int) (h : ∀ i, i < n → f i = g i) :
    sumBelow n f = sumBelow n g := by
  induction n with
  | zero => rfl
  | succ n ih =>
    rw [sumBelow_succ, sumBelow_succ, ih (fun i hi => h i (Nat.lt_succ_of_lt hi)),
      h n (Nat.lt_succ_self n)]

theorem sumBelow_single (n k : Nat) (f : Nat → Int) :
    sumBelow n (fun i => if i = k then f i else 0) = if k < n then f k else 0 := by
  induction n with
  | zero => rfl
  | succ n ih =>
    rw [sumBelow_succ, ih]
    by_cases h1 : k < n
    · have h2 : n ≠ k := by omega
      have h3 : k < n + 1 := by omega
      simp [h1, h2, h3]
    · by_cases h2 : n = k
      · subst h2
        simp
      · have h3 : ¬ k < n + 1 := by omega
        simp [h1, h2, h3]

theorem sumBelow_comm (n m : Nat) (f : Nat → Nat → Int) :
    sumBelow n (fun i => sumBelow m (fun j => f i j)) =
      sumBelow m (fun j => sumBelow n (fun i => f i j)) := by
  induction n with
  | zero =>
    simp only [sumBelow_zero]
    induction m with
    | zero => rfl
    | succ m ih => rw [sumBelow_succ, ← ih]; rfl
  | succ n ih =>
    rw [sumBelow_succ, ih, ← sumBelow_add]
    apply sumBelow_congr
    intro j _
    rw [sumBelow_succ]

theorem sumBelow_nonneg (n : Nat) (f : Nat → Int) (h : ∀ i, i < n → 0 ≤ f i) :
    0 ≤ sumBelow n f := by
  induction n with
  | zero => exact Int.le_refl 0
  | succ n ih =>
    rw [sumBelow_succ]
    have := ih (fun i hi => h i (Nat.lt_succ_of_lt hi))
    have := h n (Nat.lt_succ_self n)
    omega

theorem sumBelow_term_le (n k : Nat) (f : Nat → Int) (h : ∀ i, i < n → 0 ≤ f i)
    (hk : k < n) : f k ≤ sumBelow n f := by
  induction n with
  | zero => omega
  | succ n ih =>
    rw [sumBelow_succ]
    have hnn := sumBelow_nonneg n f (fun i hi => h i (Nat.lt_succ_of_lt hi))
    have hn := h n (Nat.lt_succ_self n)
    by_cases hkn : k = n
    · subst hkn; omega
    · have := ih (fun i hi => h i (Nat.lt_succ_of_lt hi)) (by omega)
      omega

theorem sum_eq_sumBelow (l : List Int) : l.sum = sumBelow l.length (fun k => l.getD k 0) := by
  induction l using List.reverseRecOn with
  | nil => rfl
  | append_singleton l a ih =>
    rw [List.sum_append, List.length_append, List.length_singleton, sumBelow_succ, ih]
    simp only [List.sum_singleton]
    congr 1
    · apply sumBelow_congr
      intro i hi
      simp [List.getD_eq_getElem?_getD, List.getElem?_append_left hi]
    · simp [List.getD_eq_getElem?_getD]

/-- The sum over the columns after `i` is the sum over all columns below `N` of the
entries right of `i`. -/
theorem sum_range'_eq_sumBelow (N i : Nat) (f : Nat → Int) :
    ((List.range' (i + 1) (N - (i + 1))).map f).sum =
      sumBelow N (fun j => if i < j then f j else 0) := by
  induction N with
  | zero => simp [sumBelow_zero]
  | succ N ih =>
    rw [sumBelow_succ, ← ih]
    by_cases h : i < N
    · have hlen : N + 1 - (i + 1) = (N - (i + 1)) + 1 := by omega
      rw [hlen, List.range'_concat, List.map_append, List.sum_append]
      have hN : i + 1 + (N - (i + 1)) = N := by omega
      simp [hN, h]
    · have h1 : N + 1 - (i + 1) = 0 := by omega
      have h2 : N - (i + 1) = 0 := by omega
      simp [h1, h2, h]

/-! ## Lemmas on the first loop nest of `skipRepeats` -/

theorem length_addAt (L : List Int) (i : Nat) (c : Int) :
    (skipRepeats.addAt L i c).length = L.length := by
  simp [skipRepeats.addAt]

theorem getD_addAt (L : List Int) (i k : Nat) (c : Int) (hi : i < L.length) :
    (skipRepeats.addAt L i c).getD k 0 =
      if k = i then wrapInt64 (L.getD i 0 + c) else L.getD k 0 := by
  unfold skipRepeats.addAt addInt64
  simp only [List.getD_eq_getElem?_getD, List.getElem?_set]
  by_cases hki : i = k
  · subst hki
    simp [hi]
  · have : ¬ k = i := fun h => hki h.symm
    simp [hki, this]

/-- The inner loop of the first loop nest, run for row `i` over the columns
`s, ..., s + len - 1`: `totalLinks` and `nLinks[i]` grow by the sum of the entries, each
`nLinks[j]` by its entry, all in `int64` arithmetic. -/
theorem countLinks_inner (M : Matrix) (N i : Nat) (len s : Nat) (T : Int) (L : List Int)
    (his : i < s) (hs : s + len ≤ N) (hlen : L.length = N) (hT : wrapInt64 T = T)
    (hL : ∀ k, k < N → wrapInt64 (L.getD k 0) = L.getD k 0) :
    ((List.range' s len).foldl
        (fun acc j =>
          let counts := mget M i j
          (addInt64 acc.1 counts,
            skipRepeats.addAt (skipRepeats.addAt acc.2 i counts) j counts))
        (T, L)).1 = wrapInt64 (T + ((List.range' s len).map (fun j => mget M i j)).sum) ∧
      ((List.range' s len).foldl
        (fun acc j =>
          let counts := mget M i j
          (addInt64 acc.1 counts,
            skipRepeats.addAt (skipRepeats.addAt acc.2 i counts) j counts))
        (T, L)).2.length = N ∧
      ∀ k, k < N → ((List.range' s len).foldl
        (fun acc j =>
          let counts := mget M i j
          (addInt64 acc.1 counts,
            skipRepeats.addAt (skipRepeats.addAt acc.2 i counts) j counts))
        (T, L)).2.getD k 0 =
        wrapInt64 (L.getD k 0 +
          (if k = i then ((List.range' s len).map (fun j => mget M i j)).sum
            else if s ≤ k ∧ k < s + len then mget M i k else 0)) := by
  induction len generalizing s T L with
  | zero =>
    refine ⟨by simp [hT], by simpa using hlen, fun k hk => ?_⟩
    have h0 : ¬ (s ≤ k ∧ k < s + 0) := by omega
    simp only [List.range'_zero, List.foldl_nil, List.map_nil, List.sum_nil, h0, if_false,
      ite_self, Int.add_zero]
    exact (hL k hk).symm
  | succ len ih =>
    have hi : i < N := by omega
    have hsN : s < N := by omega
    have hlen1 : (skipRepeats.addAt (skipRepeats.addAt L i (mget M i s)) s (mget M i s)).length
        = N := by rw [length_addAt, length_addAt, hlen]
    have hget1 : ∀ k, (skipRepeats.addAt (skipRepeats.addAt L i (mget M i s)) s
        (mget M i s)).getD k 0 =
        if k = s then wrapInt64 (L.getD s 0 + mget M i s)
        else if k = i then wrapInt64 (L.getD i 0 + mget M i s) else L.getD k 0 := by
      intro k
      rw [getD_addAt _ s k _ (by rw [length_addAt, hlen]; exact hsN),
        getD_addAt L i s _ (by rw [hlen]; exact hi),
        getD_addAt L i k _ (by rw [hlen]; exact hi)]
      have : ¬ s = i := by omega
      simp [this]
    obtain ⟨h1, h2, h3⟩ := ih (s + 1) (addInt64 T (mget M i s))
      (skipRepeats.addAt (skipRepeats.addAt L i (mget M i s)) s (mget M i s))
      (by omega) (by omega) hlen1 (wrapInt64_idem _)
      (fun k hk => by
        rw [hget1 k]
        split
        · exact wrapInt64_idem _
        · split
          · exact wrapInt64_idem _
          · exact hL k hk)
    simp only [List.range'_succ, List.foldl_cons, List.map_cons, List.sum_cons]
    refine ⟨?_, h2, fun k hk => ?_⟩
    · rw [h1]
      unfold addInt64
      rw [wrapInt64_add_wrap, Int.add_assoc]
    · rw [h3 k hk, hget1 k]
      by_cases hks : k = s
      · subst hks
        have hne : ¬ k = i := by omega
        have h4 : ¬ (k + 1 ≤ k ∧ k < k + 1 + len) := by omega
        have h5 : (k ≤ k ∧ k < k + (len + 1)) := by omega
        simp only [hne, if_false, h4, h5, if_true, Int.add_zero]
        exact wrapInt64_idem _
      · by_cases hki : k = i
        · subst hki
          simp only [hks, if_false, if_true]
          rw [wrapInt64_add_wrap, Int.add_assoc]
        · have h4 : (s + 1 ≤ k ∧ k < s + 1 + len) ↔ (s ≤ k ∧ k < s + (len + 1)) := by omega
          simp only [hks, hki, if_false, h4]

/-- The first loop nest run over the rows `a, ..., a + len - 1`. -/
theorem countLinks_outer (M : Matrix) (N : Nat) (len a : Nat) (T : Int) (L : List Int)
    (ha : a + len ≤ N) (hlen : L.length = N) (hT : wrapInt64 T = T)
    (hL : ∀ k, k < N → wrapInt64 (L.getD k 0) = L.getD k 0) :
    ((List.range' a len).foldl
        (fun acc i =>
          (List.range' (i + 1) (N - (i + 1))).foldl
            (fun acc j =>
              let counts := mget M i j
              (addInt64 acc.1 counts,
                skipRepeats.addAt (skipRepeats.addAt acc.2 i counts) j counts))
            acc)
        (T, L)).1 =
        wrapInt64 (T + ((List.range' a len).map (fun i =>
          ((List.range' (i + 1) (N - (i + 1))).map (fun j => mget M i j)).sum)).sum) ∧
      ((List.range' a len).foldl
        (fun acc i =>
          (List.range' (i + 1) (N - (i + 1))).foldl
            (fun acc j =>
              let counts := mget M i j
              (addInt64 acc.1 counts,
                skipRepeats.addAt (skipRepeats.addAt acc.2 i counts) j counts))
            acc)
        (T, L)).2.length = N ∧
      ∀ k, k < N → ((List.range' a len).foldl
        (fun acc i =>
          (List.range' (i + 1) (N - (i + 1))).foldl
            (fun acc j =>
              let counts := mget M i j
              (addInt64 acc.1 counts,
                skipRepeats.addAt (skipRepeats.addAt acc.2 i counts) j counts))
            acc)
        (T, L)).2.getD k 0 =
        wrapInt64 (L.getD k 0 + ((List.range' a len).map (fun i =>
          if k = i then ((List.range' (i + 1) (N - (i + 1))).map (fun j => mget M i j)).sum
          else if i < k then mget M i k else 0)).sum) := by
  induction len generalizing a T L with
  | zero =>
    refine ⟨by simp [hT], by simpa using hlen, fun k hk => ?_⟩
    simp only [List.range'_zero, List.foldl_nil, List.map_nil, List.sum_nil, Int.add_zero]
    exact (hL k hk).symm
  | succ len ih =>
    obtain ⟨i1, i2, i3⟩ := countLinks_inner M N a (N - (a + 1)) (a + 1) T L
      (Nat.lt_succ_self a) (by omega) hlen hT hL
    simp only [List.range'_succ, List.foldl_cons, List.map_cons, List.sum_cons]
    generalize (List.range' (a + 1) (N - (a + 1))).foldl
      (fun acc j =>
        let counts := mget M a j
        (addInt64 acc.1 counts,
          skipRepeats.addAt (skipRepeats.addAt acc.2 a counts) j counts))
      (T, L) = acc1 at i1 i2 i3
    obtain ⟨T1, L1⟩ := acc1
    simp only at i1 i2 i3
    obtain ⟨h1, h2, h3⟩ := ih (a + 1) T1 L1 (by omega) i2
      (by rw [i1]; exact wrapInt64_idem _)
      (fun k hk => by rw [i3 k hk]; exact wrapInt64_idem _)
    refine ⟨?_, h2, fun k hk => ?_⟩
    · rw [h1, i1, wrapInt64_add_wrap, Int.add_assoc]
    · rw [h3 k hk, i3 k hk, wrapInt64_add_wrap, Int.add_assoc]
      have hcond : (a + 1 ≤ k ∧ k < a + 1 + (N - (a + 1))) ↔ a < k := by omega
      simp only [hcond]

/-- The totals of the first loop nest in closed form: `totalLinks` is the sum over all
pairs and `nLinks[k]` the sum over the pairs containing `k`, wrapped to `int64`. -/
theorem countLinks_spec (M : Matrix) (N : Nat) :
    (skipRepeats.countLinks M N).1 = wrapInt64 (pairTotal M N) ∧
      (skipRepeats.countLinks M N).2.length = N ∧
      ∀ k, k < N → (skipRepeats.countLinks M N).2.getD k 0 = wrapInt64 (linkTotal M N k) := by
  obtain ⟨h1, h2, h3⟩ := countLinks_outer M N N 0 0 (List.replicate N 0) (by omega)
    (by simp) wrapInt64_zero
    (fun k hk => by simp [List.getD_eq_getElem?_getD, List.getElem?_replicate, hk,
      wrapInt64_zero])
  unfold skipRepeats.countLinks
  rw [List.range_eq_range']
  refine ⟨?_, h2, fun k hk => ?_⟩
  · rw [h1, Int.zero_add]
    congr 1
    unfold pairTotal
    rw [sumBelow, List.range_eq_range']
    congr 1
    apply List.map_congr_left
    intro i _
    exact sum_range'_eq_sumBelow N i (fun j => mget M i j)
  · rw [h3 k hk]
    have hz : (List.replicate N (0 : Int)).getD k 0 = 0 := by
      simp [List.getD_eq_getElem?_getD, List.getElem?_replicate, hk]
    rw [hz, Int.zero_add]
    congr 1
    rw [← List.range_eq_range']
    show sumBelow N _ = linkTotal M N k
    unfold linkTotal
    have hL : sumBelow N (fun i =>
        if k = i then ((List.range' (i + 1) (N - (i + 1))).map (fun j => mget M i j)).sum
        else if i < k then mget M i k else 0) =
        sumBelow N (fun i =>
          (if i = k then sumBelow N (fun j => if i < j then mget M i j else 0) else 0) +
            (if i < k then mget M i k else 0)) := by
      apply sumBelow_congr
      intro i _
      by_cases hik : k = i
      · subst hik
        simp [sum_range'_eq_sumBelow]
      · have : ¬ i = k := fun h => hik h.symm
        simp [hik, this]
    have hR : sumBelow N (fun j =>
        if k < j then mget M k j else if j < k then mget M j k else 0) =
        sumBelow N (fun j =>
          (if k < j then mget M k j else 0) + (if j < k then mget M j k else 0)) := by
      apply sumBelow_congr
      intro j _
      by_cases h1 : k < j
      · have : ¬ j < k := by omega
        simp [h1, this]
      · simp [h1]
    rw [hL, hR, sumBelow_add, sumBelow_add,
      sumBelow_single N k (fun i => sumBelow N (fun j => if i < j then mget M i j else 0))]
    simp [hk]

/-! ## Theorems on the totals of `skipRepeats` -/

theorem wrapInt64_sumBelow_wrap (n : Nat) (f : Nat → Int) :
    wrapInt64 (sumBelow n (fun k => wrapInt64 (f k))) = wrapInt64 (sumBelow n f) := by
  induction n with
  | zero => rfl
  | succ n ih =>
    rw [sumBelow_succ, sumBelow_succ]
    have h1 := wrapInt64_modEq (sumBelow n (fun k => wrapInt64 (f k)))
    have h2 := wrapInt64_modEq (sumBelow n f)
    have h3 := wrapInt64_modEq (f n)
    rw [ih] at h1
    apply wrapInt64_congr
    omega

/-- Every pair is counted once for each of its two contigs. -/
theorem sumBelow_linkTotal (M : Matrix) (N : Nat) :
    sumBelow N (fun k => linkTotal M N k) = 2 * pairTotal M N := by
  unfold linkTotal pairTotal
  have hsplit : sumBelow N (fun k => sumBelow N (fun j =>
      if k < j then mget M k j else if j < k then mget M j k else 0)) =
      sumBelow N (fun k => sumBelow N (fun j => if k < j then mget M k j else 0) +
        sumBelow N (fun j => if j < k then mget M j k else 0)) := by
    apply sumBelow_congr
    intro k _
    rw [← sumBelow_add]
    apply sumBelow_congr
    intro j _
    by_cases h1 : k < j
    · have : ¬ j < k := by omega
      simp [h1, this]
    · simp [h1]
  rw [hsplit, sumBelow_add,
    sumBelow_comm N N (fun k j => if j < k then mget M j k else 0)]
  omega

theorem linkTotal_eq_rowTotal (M : Matrix) (N k : Nat)
    (hsym : ∀ i j, mget M i j = mget M j i) (hdiag : ∀ i, mget M i i = 0) :
    linkTotal M N k = rowTotal M N k := by
  unfold linkTotal rowTotal
  apply sumBelow_congr
  intro j _
  by_cases h1 : k < j
  · simp [h1]
  · by_cases h2 : j < k
    · simp [h1, h2, hsym j k]
    · have : j = k := by omega
      subst this
      simp [hdiag]

theorem pairTotal_nonneg (M : Matrix) (N : Nat) (hpos : ∀ i j, 0 ≤ mget M i j) :
    0 ≤ pairTotal M N := by
  unfold pairTotal
  apply sumBelow_nonneg
  intro i _
  apply sumBelow_nonneg
  intro j _
  split
  · exact hpos i j
  · exact Int.le_refl 0

theorem linkTotal_nonneg (M : Matrix) (N k : Nat) (hpos : ∀ i j, 0 ≤ mget M i j) :
    0 ≤ linkTotal M N k := by
  unfold linkTotal
  apply sumBelow_nonneg
  intro j _
  split
  · exact hpos k j
  · split
    · exact hpos j k
    · exact Int.le_refl 0

theorem linkTotal_le (M : Matrix) (N k : Nat) (hpos : ∀ i j, 0 ≤ mget M i j) (hk : k < N) :
    linkTotal M N k ≤ 2 * pairTotal M N := by
  rw [← sumBelow_linkTotal]
  exact sumBelow_term_le N k (fun k => linkTotal M N k)
    (fun i _ => linkTotal_nonneg M N i hpos) hk

/-- Without overflow the totals of the first loop nest are the exact sums. -/
theorem countLinks_exact (M : Matrix) (N : Nat) (hpos : ∀ i j, 0 ≤ mget M i j)
    (hsmall : pairTotal M N < 2 ^ 62) :
    (skipRepeats.countLinks M N).1 = pairTotal M N ∧
      ∀ k, k < N → (skipRepeats.countLinks M N).2.getD k 0 = linkTotal M N k := by
  obtain ⟨h1, _, h3⟩ := countLinks_spec M N
  have hT := pairTotal_nonneg M N hpos
  refine ⟨?_, fun k hk => ?_⟩
  · rw [h1]
    exact wrapInt64_of_inRange _ (by omega) (by omega)
  · rw [h3 k hk]
    have := linkTotal_nonneg M N k hpos
    have := linkTotal_le M N k hpos hk
    exact wrapInt64_of_inRange _ (by omega) (by omega)

theorem sum_map_div_rat (l : List Int) (c : ℚ) :
    (l.map (fun x : Int => (x : ℚ) / c)).sum = ((l.sum : Int) : ℚ) / c := by
  induction l with
  | nil => simp
  | cons a l ih =>
    simp only [List.map_cons, List.sum_cons, ih]
    push_cast
    rw [add_div]

theorem pairTotal_zero (M : Matrix) : pairTotal M 0 = 0 := rfl

theorem countLinks_sum (M : Matrix) (N : Nat) :
    (skipRepeats.countLinks M N).2.sum =
      sumBelow N (fun k => (skipRepeats.countLinks M N).2.getD k 0) := by
  have h := sum_eq_sumBelow (skipRepeats.countLinks M N).2
  rw [(countLinks_spec M N).2.1] at h
  exact h

/-- C19, as the code stands: on `exOverflow` (built by `makeMatrix`; two weights `2^62`)
the `int64` totals wrap: `totalLinks = nLinks[0] = -2^63`, the sum of `nLinks` is `0` and
not `2 * totalLinks`, and the computed `nLinksAvg` is about `-6.1e18`, not the mean `0` of
`nLinks`. -/
theorem countLinks_totals_can_wrap :
    makeMatrix (exState exOverflow.contigs 1 [])
        [exEdge "A" "B" 1 1 4611686018427387904, exEdge "A" "C" 1 1 4611686018427387904] =
        .ok exOverflow ∧
      skipRepeats.countLinks exOverflow.matrix 3 =
        (-9223372036854775808,
          [-9223372036854775808, 4611686018427387904, 4611686018427387904]) ∧
      (skipRepeats.countLinks exOverflow.matrix 3).2.sum = 0 ∧
      (skipRepeats.countLinks exOverflow.matrix 3).2.sum ≠
        2 * (skipRepeats.countLinks exOverflow.matrix 3).1 ∧
      skipRepeats.nLinksAvg (skipRepeats.countLinks exOverflow.matrix 3).1 3 =
        F64.fin true 6004799503160661 10 := by
  refine ⟨rfl, by decide!, by decide!, by decide!, by decide!⟩

/-- C19, amended. For every matrix the totals of `skipRepeats` satisfy
`sum of nLinks[i] = 2 * totalLinks` in `int64` arithmetic (modulo `2^64`). When the
entries are non-negative and the exact sum over all pairs is below `2^62`, nothing wraps:
the sum of `nLinks` is exactly `2 * totalLinks`, so the exact quotient
`2 * totalLinks / N` is the arithmetic mean of `nLinks` and the exact quotients
`nLinks[i] / (2 * totalLinks / N)` average to `1` when `totalLinks > 0`. When the matrix
is symmetric with a zero diagonal, `nLinks[i]` is the sum of row `i`, wrapped to `int64`,
and exactly that sum when nothing wraps. -/
theorem countLinks_totals (M : Matrix) (N : Nat) :
    wrapInt64 (skipRepeats.countLinks M N).2.sum =
        wrapInt64 (2 * (skipRepeats.countLinks M N).1) ∧
      ((∀ i j, 0 ≤ mget M i j) → pairTotal M N < 2 ^ 62 →
        (skipRepeats.countLinks M N).2.sum = 2 * (skipRepeats.countLinks M N).1 ∧
          (2 * ((skipRepeats.countLinks M N).1 : ℚ)) / (N : ℚ) =
            (((skipRepeats.countLinks M N).2.sum : Int) : ℚ) / (N : ℚ) ∧
          (0 < (skipRepeats.countLinks M N).1 →
            ((skipRepeats.countLinks M N).2.map (fun l : Int =>
              (l : ℚ) / (2 * ((skipRepeats.countLinks M N).1 : ℚ) / (N : ℚ)))).sum / (N : ℚ) =
              1)) ∧
      ((∀ i j, mget M i j = mget M j i) → (∀ i, mget M i i = 0) →
        (∀ k, k < N →
          (skipRepeats.countLinks M N).2.getD k 0 = wrapInt64 (rowTotal M N k)) ∧
        ((∀ i j, 0 ≤ mget M i j) → pairTotal M N < 2 ^ 62 →
          ∀ k, k < N → (skipRepeats.countLinks M N).2.getD k 0 = rowTotal M N k)) := by
  obtain ⟨h1, h2, h3⟩ := countLinks_spec M N
  refine ⟨?_, fun hpos hsmall => ?_, fun hsym hdiag => ⟨fun k hk => ?_, fun hpos hsmall k hk => ?_⟩⟩
  · rw [countLinks_sum, sumBelow_congr N _ (fun k => wrapInt64 (linkTotal M N k)) h3,
      wrapInt64_sumBelow_wrap, sumBelow_linkTotal, h1]
    exact (mulInt64_wrap_right 2 (pairTotal M N)).symm
  · obtain ⟨e1, e2⟩ := countLinks_exact M N hpos hsmall
    have hsum : (skipRepeats.countLinks M N).2.sum = 2 * (skipRepeats.countLinks M N).1 := by
      rw [countLinks_sum, sumBelow_congr N _ (fun k => linkTotal M N k) e2,
        sumBelow_linkTotal, e1]
    refine ⟨hsum, ?_, fun hT => ?_⟩
    · rw [hsum]
      push_cast
      rfl
    · have hN : N ≠ 0 := by
        intro h0
        subst h0
        rw [e1, pairTotal_zero] at hT
        exact absurd hT (by decide)
      have hNq : (N : ℚ) ≠ 0 := by exact_mod_cast hN
      have hTq : ((skipRepeats.countLinks M N).1 : ℚ) ≠ 0 := by
        have : (skipRepeats.countLinks M N).1 ≠ 0 := by omega
        exact_mod_cast this
      rw [sum_map_div_rat, hsum]
      push_cast
      field_simp
  · rw [h3 k hk, linkTotal_eq_rowTotal M N k hsym hdiag]
  · rw [(countLinks_exact M N hpos hsmall).2 k hk, linkTotal_eq_rowTotal M N k hsym hdiag]

/-! ## Bounds on float rounding -/

theorem F64.round_eq (neg : Bool) (p q : Nat) (hp : p ≠ 0) :
    F64.round neg p q =
      if F64.roundMant p q (F64.roundExp p q) = 2 ^ 53 then
        (if 971 < F64.roundExp p q + 1 then F64.inf neg
          else F64.fin neg (2 ^ 52) (F64.roundExp p q + 1))
      else if 971 < F64.roundExp p q then F64.inf neg
      else F64.fin neg (F64.roundMant p q (F64.roundExp p q)) (F64.roundExp p q) := by
  have h : F64.round neg p q =
      (if p = 0 then F64.fin neg 0 (-1074) else
        match (if F64.roundMant p q (F64.roundExp p q) = 2 ^ 53
          then ((2 ^ 52 : Nat), F64.roundExp p q + 1)
          else (F64.roundMant p q (F64.roundExp p q), F64.roundExp p q)) with
        | (m, e) => if 971 < e then F64.inf neg else F64.fin neg m e) := rfl
  rw [h, if_neg hp]
  by_cases hm : F64.roundMant p q (F64.roundExp p q) = 2 ^ 53
  · rw [if_pos hm, if_pos hm]
  · rw [if_neg hm, if_neg hm]

theorem bitLenAux_zero (fuel : Nat) : bitLenAux fuel 0 = 0 := by
  cases fuel <;> simp [bitLenAux]

theorem bitLenAux_spec (fuel n : Nat) (h : n ≤ fuel) (hn : 0 < n) :
    2 ^ (bitLenAux fuel n - 1) ≤ n ∧ n < 2 ^ (bitLenAux fuel n) := by
  induction fuel generalizing n with
  | zero => omega
  | succ fuel ih =>
    have hne : n ≠ 0 := by omega
    simp only [bitLenAux, hne, if_false]
    by_cases h2 : n / 2 = 0
    · have h1 : n = 1 := by omega
      subst h1
      simp [bitLenAux_zero]
    · obtain ⟨ih1, ih2⟩ := ih (n / 2) (by omega) (by omega)
      generalize bitLenAux fuel (n / 2) = b at ih1 ih2
      have hb : b ≠ 0 := by
        intro hb
        subst hb
        simp at ih2
        omega
      obtain ⟨c, rfl⟩ := Nat.exists_eq_succ_of_ne_zero hb
      simp only [Nat.add_sub_cancel, Nat.succ_eq_add_one] at ih1 ⊢
      rw [pow_succ] at ih2 ⊢
      constructor
      · omega
      · rw [pow_succ]
        omega

theorem bitLen_spec (n : Nat) (hn : 0 < n) : 2 ^ (bitLen n - 1) ≤ n ∧ n < 2 ^ (bitLen n) :=
  bitLenAux_spec n n (Nat.le_refl n) hn

theorem F64.scaled_div (p q : Nat) (e : Int) (hq : 0 < q) :
    ((p * 2 ^ (-e).toNat : Nat) : ℚ) / ((q * 2 ^ e.toNat : Nat) : ℚ) =
      (p : ℚ) / (q : ℚ) * (2 : ℚ) ^ (-e) := by
  have hq' : (q : ℚ) ≠ 0 := by exact_mod_cast (Nat.pos_iff_ne_zero.1 hq)
  rcases le_or_lt 0 e with h | h
  · obtain ⟨n, rfl⟩ := Int.eq_ofNat_of_zero_le h
    have h1 : (-(n : Int)).toNat = 0 := by omega
    have h2 : ((n : Int)).toNat = n := by omega
    rw [h1, h2, zpow_neg, zpow_natCast]
    push_cast
    field_simp
  · obtain ⟨n, hn⟩ := Int.eq_ofNat_of_zero_le (show 0 ≤ -e by omega)
    have h1 : (-e).toNat = n := by omega
    have h2 : e.toNat = 0 := by omega
    rw [h1, h2, hn, zpow_natCast]
    push_cast
    field_simp

/-- The rounded mantissa is at least every integer below the scaled quotient. -/
theorem F64.le_roundMant (p q : Nat) (e : Int) (K : Nat)
    (h : K * (q * 2 ^ e.toNat) ≤ p * 2 ^ (-e).toNat) (hq : 0 < q) :
    K ≤ F64.roundMant p q e := by
  have hden : 0 < q * 2 ^ e.toNat := Nat.mul_pos hq (Nat.pow_pos (by decide))
  have h0 : K ≤ p * 2 ^ (-e).toNat / (q * 2 ^ e.toNat) :=
    (Nat.le_div_iff_mul_le hden).2 h
  unfold F64.roundMant
  simp only
  split <;> omega

/-- The rounded mantissa is at most every integer above the scaled quotient. -/
theorem F64.roundMant_le (p q : Nat) (e : Int) (K : Nat)
    (h : p * 2 ^ (-e).toNat ≤ K * (q * 2 ^ e.toNat)) (hq : 0 < q) :
    F64.roundMant p q e ≤ K := by
  have hden : 0 < q * 2 ^ e.toNat := Nat.mul_pos hq (Nat.pow_pos (by decide))
  unfold F64.roundMant
  simp only
  generalize p * 2 ^ (-e).toNat = num at h
  generalize q * 2 ^ e.toNat = den at h hden
  have hdm := Nat.div_add_mod num den
  have hmod := Nat.mod_lt num hden
  have hm0 : num / den ≤ K := by
    by_contra hc
    have h1 : K + 1 ≤ num / den := by omega
    have h2 : (K + 1) * den ≤ num := (Nat.le_div_iff_mul_le hden).1 h1
    have h3 : (K + 1) * den = K * den + den := by ring
    omega
  rcases Nat.lt_or_ge (num / den) K with hlt | hge
  · split <;> omega
  · have hKe : num / den = K := by omega
    have hr : num % den = 0 := by
      rw [hKe] at hdm
      have : den * K = K * den := Nat.mul_comm _ _
      omega
    rw [hr]
    have hc : ¬ (den < 2 * 0 ∨ 2 * 0 = den ∧ num / den % 2 = 1) := by omega
    rw [if_neg hc]
    omega

theorem F64.two_zpow_toNat (d : Int) (hd : 0 ≤ d) : ((2 ^ d.toNat : Nat) : ℚ) = (2 : ℚ) ^ d := by
  obtain ⟨n, rfl⟩ := Int.eq_ofNat_of_zero_le hd
  have : ((n : Int)).toNat = n := by omega
  rw [this, zpow_natCast]
  push_cast
  rfl

theorem F64.mul_le_iff_scaled (p q : Nat) (e : Int) (K : Nat) (hq : 0 < q) :
    K * (q * 2 ^ e.toNat) ≤ p * 2 ^ (-e).toNat ↔
      (K : ℚ) ≤ (p : ℚ) / (q : ℚ) * (2 : ℚ) ^ (-e) := by
  have hden : 0 < q * 2 ^ e.toNat := Nat.mul_pos hq (Nat.pow_pos (by decide))
  have hdenq : (0 : ℚ) < ((q * 2 ^ e.toNat : Nat) : ℚ) := by exact_mod_cast hden
  rw [← F64.scaled_div p q e hq, le_div_iff₀ hdenq]
  constructor
  · intro h
    exact_mod_cast h
  · intro h
    exact_mod_cast h

theorem F64.le_mul_iff_scaled (p q : Nat) (e : Int) (K : Nat) (hq : 0 < q) :
    p * 2 ^ (-e).toNat ≤ K * (q * 2 ^ e.toNat) ↔
      (p : ℚ) / (q : ℚ) * (2 : ℚ) ^ (-e) ≤ (K : ℚ) := by
  have hden : 0 < q * 2 ^ e.toNat := Nat.mul_pos hq (Nat.pow_pos (by decide))
  have hdenq : (0 : ℚ) < ((q * 2 ^ e.toNat : Nat) : ℚ) := by exact_mod_cast hden
  rw [← F64.scaled_div p q e hq, div_le_iff₀ hdenq]
  constructor
  · intro h
    exact_mod_cast h
  · intro h
    exact_mod_cast h

theorem F64.two_zpow_pos (d : Int) : (0 : ℚ) < (2 : ℚ) ^ d := zpow_pos (by norm_num) d

theorem F64.two_zpow_split (a b : Int) : (2 : ℚ) ^ (a - b) = (2 : ℚ) ^ a * (2 : ℚ) ^ (-b) := by
  rw [sub_eq_add_neg, zpow_add₀ (by norm_num)]

theorem F64.roundMant_value_lower (p q : Nat) (e lo : Int) (hq : 0 < q) (hlo : e ≤ lo)
    (h : (2 : ℚ) ^ lo ≤ (p : ℚ) / (q : ℚ)) :
    (2 : ℚ) ^ lo ≤ (F64.roundMant p q e : ℚ) * (2 : ℚ) ^ e := by
  have hK : ((2 ^ (lo - e).toNat : Nat) : ℚ) = (2 : ℚ) ^ (lo - e) :=
    F64.two_zpow_toNat _ (by omega)
  have h1 : (2 ^ (lo - e).toNat) * (q * 2 ^ e.toNat) ≤ p * 2 ^ (-e).toNat := by
    rw [F64.mul_le_iff_scaled p q e _ hq, hK, F64.two_zpow_split]
    exact mul_le_mul_of_nonneg_right h (le_of_lt (F64.two_zpow_pos _))
  have h2 := F64.le_roundMant p q e _ h1 hq
  have h3 : ((2 ^ (lo - e).toNat : Nat) : ℚ) ≤ (F64.roundMant p q e : ℚ) := by
    exact_mod_cast h2
  rw [hK] at h3
  have h4 := mul_le_mul_of_nonneg_right h3 (le_of_lt (F64.two_zpow_pos e))
  rw [← zpow_add₀ (by norm_num : (2 : ℚ) ≠ 0)] at h4
  simpa using h4

theorem F64.roundMant_value_upper (p q : Nat) (e hi : Int) (hq : 0 < q) (hhi : e ≤ hi)
    (h : (p : ℚ) / (q : ℚ) ≤ (2 : ℚ) ^ hi) :
    (F64.roundMant p q e : ℚ) * (2 : ℚ) ^ e ≤ (2 : ℚ) ^ hi := by
  have hK : ((2 ^ (hi - e).toNat : Nat) : ℚ) = (2 : ℚ) ^ (hi - e) :=
    F64.two_zpow_toNat _ (by omega)
  have h1 : p * 2 ^ (-e).toNat ≤ (2 ^ (hi - e).toNat) * (q * 2 ^ e.toNat) := by
    rw [F64.le_mul_iff_scaled p q e _ hq, hK, F64.two_zpow_split]
    exact mul_le_mul_of_nonneg_right h (le_of_lt (F64.two_zpow_pos _))
  have h2 := F64.roundMant_le p q e _ h1 hq
  have h3 : (F64.roundMant p q e : ℚ) ≤ ((2 ^ (hi - e).toNat : Nat) : ℚ) := by
    exact_mod_cast h2
  rw [hK] at h3
  have h4 := mul_le_mul_of_nonneg_right h3 (le_of_lt (F64.two_zpow_pos e))
  rw [← zpow_add₀ (by norm_num : (2 : ℚ) ≠ 0)] at h4
  simpa using h4

/-- At the exponent `e`, a quotient of at least `2^(k + e)` has a mantissa of at least
`2^k`. -/
theorem F64.roundMant_ge_pow (p q : Nat) (e : Int) (k : Nat) (hq : 0 < q)
    (h : (2 : ℚ) ^ ((k : Int) + e) ≤ (p : ℚ) / (q : ℚ)) : 2 ^ k ≤ F64.roundMant p q e := by
  apply F64.le_roundMant p q e _ _ hq
  rw [F64.mul_le_iff_scaled p q e _ hq]
  have h1 := mul_le_mul_of_nonneg_right h (le_of_lt (F64.two_zpow_pos (-e)))
  rw [← zpow_add₀ (by norm_num : (2 : ℚ) ≠ 0)] at h1
  have h2 : (k : Int) + e + -e = (k : Int) := by omega
  rw [h2, zpow_natCast] at h1
  push_cast
  exact h1

theorem F64.two_zpow_le (a b : Int) (h : a ≤ b) : (2 : ℚ) ^ a ≤ (2 : ℚ) ^ b :=
  zpow_le_zpow_right₀ (by norm_num) h

theorem F64.two_zpow_le_iff (a b : Int) : (2 : ℚ) ^ a ≤ (2 : ℚ) ^ b ↔ a ≤ b :=
  zpow_le_zpow_iff_right₀ (by norm_num)

/-- Above the smallest exponent the chosen exponent puts the quotient at or above
`2^52` units. -/
theorem F64.roundExp_spec (p q : Nat) (hp : 0 < p) (hq : 0 < q)
    (h : -1074 < F64.roundExp p q) :
    (2 : ℚ) ^ (52 + F64.roundExp p q) ≤ (p : ℚ) / (q : ℚ) := by
  have hqq : (0 : ℚ) < (q : ℚ) := by exact_mod_cast hq
  unfold F64.roundExp at h ⊢
  simp only at h ⊢
  by_cases hc : p * 2 ^ (-((bitLen p : Int) - (bitLen q : Int) - 52)).toNat /
      (q * 2 ^ ((bitLen p : Int) - (bitLen q : Int) - 52).toNat) < 2 ^ 52
  · rw [if_pos hc] at h ⊢
    have he : ¬ ((bitLen p : Int) - (bitLen q : Int) - 52 - 1 < -1074) := by
      intro hlt
      rw [if_pos hlt] at h
      omega
    rw [if_neg he]
    obtain ⟨hp1, _⟩ := bitLen_spec p hp
    obtain ⟨_, hq2⟩ := bitLen_spec q hq
    have hbp : 1 ≤ bitLen p := by
      rcases Nat.eq_zero_or_pos (bitLen p) with h0 | h0
      · exfalso
        have := (bitLen_spec p hp).2
        rw [h0] at this
        omega
      · exact h0
    have hp1q : ((2 ^ (bitLen p - 1) : Nat) : ℚ) ≤ (p : ℚ) := by exact_mod_cast hp1
    have hq2q : (q : ℚ) ≤ ((2 ^ (bitLen q) : Nat) : ℚ) := by exact_mod_cast (le_of_lt hq2)
    have e1 : ((2 ^ (bitLen p - 1) : Nat) : ℚ) = (2 : ℚ) ^ ((bitLen p : Int) - 1) := by
      rw [← F64.two_zpow_toNat _ (by omega)]
      congr 2
      omega
    have e2 : ((2 ^ (bitLen q) : Nat) : ℚ) = (2 : ℚ) ^ ((bitLen q : Int)) := by
      rw [zpow_natCast]
      push_cast
      rfl
    rw [e1] at hp1q
    rw [e2] at hq2q
    rw [le_div_iff₀ hqq]
    have hexp : (52 : Int) + ((bitLen p : Int) - (bitLen q : Int) - 52 - 1) =
        ((bitLen p : Int) - 1) + -(bitLen q : Int) := by ring
    rw [hexp, zpow_add₀ (by norm_num : (2 : ℚ) ≠ 0)]
    calc (2 : ℚ) ^ ((bitLen p : Int) - 1) * (2 : ℚ) ^ (-(bitLen q : Int)) * (q : ℚ)
        ≤ (2 : ℚ) ^ ((bitLen p : Int) - 1) * (2 : ℚ) ^ (-(bitLen q : Int)) *
            (2 : ℚ) ^ ((bitLen q : Int)) := by
          apply mul_le_mul_of_nonneg_left hq2q
          exact le_of_lt (mul_pos (F64.two_zpow_pos _) (F64.two_zpow_pos _))
      _ = (2 : ℚ) ^ ((bitLen p : Int) - 1) := by
          rw [mul_assoc, ← zpow_add₀ (by norm_num : (2 : ℚ) ≠ 0)]
          simp
      _ ≤ (p : ℚ) := hp1q
  · rw [if_neg hc] at h ⊢
    have he : ¬ ((bitLen p : Int) - (bitLen q : Int) - 52 < -1074) := by
      intro hlt
      rw [if_pos hlt] at h
      omega
    rw [if_neg he]
    have hden : 0 < q * 2 ^ ((bitLen p : Int) - (bitLen q : Int) - 52).toNat :=
      Nat.mul_pos hq (Nat.pow_pos (by decide))
    have h1 : 2 ^ 52 * (q * 2 ^ ((bitLen p : Int) - (bitLen q : Int) - 52).toNat) ≤
        p * 2 ^ (-((bitLen p : Int) - (bitLen q : Int) - 52)).toNat :=
      (Nat.le_div_iff_mul_le hden).1 (by omega)
    rw [F64.mul_le_iff_scaled p q _ _ hq] at h1
    have h2 := mul_le_mul_of_nonneg_right h1
      (le_of_lt (F64.two_zpow_pos ((bitLen p : Int) - (bitLen q : Int) - 52)))
    rw [mul_assoc, ← zpow_add₀ (by norm_num : (2 : ℚ) ≠ 0)] at h2
    rw [neg_add_cancel, zpow_zero, mul_one] at h2
    rw [zpow_add₀ (by norm_num : (2 : ℚ) ≠ 0)]
    have h3 : (2 : ℚ) ^ (52 : Int) = ((2 ^ 52 : Nat) : ℚ) := by norm_num
    rw [h3]
    exact h2

/-- Rounding a quotient that lies between two powers of two inside the finite range gives
a finite positive float between the same powers. -/
theorem F64.round_between (p q : Nat) (lo hi : Int) (hq : 0 < q)
    (hlo : (2 : ℚ) ^ lo ≤ (p : ℚ) / (q : ℚ)) (hhi : (p : ℚ) / (q : ℚ) ≤ (2 : ℚ) ^ hi)
    (h1 : -1074 ≤ lo) (h2 : hi ≤ 1023) : F64.Between (F64.round false p q) lo hi := by
  have hqq : (0 : ℚ) < (q : ℚ) := by exact_mod_cast hq
  have hp : 0 < p := by
    rcases Nat.eq_zero_or_pos p with h0 | h0
    · exfalso
      rw [h0] at hlo
      simp at hlo
      have := F64.two_zpow_pos lo
      linarith
    · exact h0
  have hlohi : lo ≤ hi := (F64.two_zpow_le_iff lo hi).1 (le_trans hlo hhi)
  have hge : -1074 ≤ F64.roundExp p q := by
    unfold F64.roundExp
    simp only
    split <;> omega
  -- the value of the rounded mantissa lies between the same powers
  have hmlo : (2 : ℚ) ^ lo ≤ (F64.roundMant p q (F64.roundExp p q) : ℚ) *
      (2 : ℚ) ^ (F64.roundExp p q) := by
    rcases le_or_lt (F64.roundExp p q) lo with hc | hc
    · exact F64.roundMant_value_lower p q _ lo hq hc hlo
    · have hB := F64.roundExp_spec p q hp hq (by omega)
      have hm : 2 ^ 52 ≤ F64.roundMant p q (F64.roundExp p q) :=
        F64.roundMant_ge_pow p q _ 52 hq (by simpa using hB)
      have hmq : ((2 ^ 52 : Nat) : ℚ) ≤ (F64.roundMant p q (F64.roundExp p q) : ℚ) := by
        exact_mod_cast hm
      calc (2 : ℚ) ^ lo ≤ (2 : ℚ) ^ (F64.roundExp p q) := F64.two_zpow_le _ _ (le_of_lt hc)
        _ = 1 * (2 : ℚ) ^ (F64.roundExp p q) := (one_mul _).symm
        _ ≤ (F64.roundMant p q (F64.roundExp p q) : ℚ) * (2 : ℚ) ^ (F64.roundExp p q) := by
          apply mul_le_mul_of_nonneg_right _ (le_of_lt (F64.two_zpow_pos _))
          refine le_trans ?_ hmq
          norm_num
  have hehi : F64.roundExp p q ≤ hi := by
    by_contra hc
    have hB := F64.roundExp_spec p q hp hq (by omega)
    have := (F64.two_zpow_le_iff _ _).1 (le_trans hB hhi)
    omega
  have hmhi : (F64.roundMant p q (F64.roundExp p q) : ℚ) * (2 : ℚ) ^ (F64.roundExp p q) ≤
      (2 : ℚ) ^ hi := F64.roundMant_value_upper p q _ hi hq hehi hhi
  rw [F64.round_eq false p q (by omega)]
  by_cases hm : F64.roundMant p q (F64.roundExp p q) = 2 ^ 53
  · rw [if_pos hm]
    rw [hm] at hmlo hmhi
    have hval : ((2 ^ 53 : Nat) : ℚ) * (2 : ℚ) ^ (F64.roundExp p q) =
        ((2 ^ 52 : Nat) : ℚ) * (2 : ℚ) ^ (F64.roundExp p q + 1) := by
      rw [zpow_add₀ (by norm_num : (2 : ℚ) ≠ 0)]
      push_cast
      ring
    have hpow : ((2 ^ 53 : Nat) : ℚ) * (2 : ℚ) ^ (F64.roundExp p q) =
        (2 : ℚ) ^ (53 + F64.roundExp p q) := by
      rw [zpow_add₀ (by norm_num : (2 : ℚ) ≠ 0)]
      push_cast
      norm_num
    have hle : 53 + F64.roundExp p q ≤ hi := by
      rw [hpow] at hmhi
      exact (F64.two_zpow_le_iff _ _).1 hmhi
    rw [if_neg (by omega)]
    exact ⟨2 ^ 52, F64.roundExp p q + 1, rfl, by rw [← hval]; exact hmlo,
      by rw [← hval]; exact hmhi⟩
  · rw [if_neg hm]
    have hle : F64.roundExp p q ≤ 971 := by
      by_contra hc
      have hB := F64.roundExp_spec p q hp hq (by omega)
      have := (F64.two_zpow_le_iff _ _).1 (le_trans hB hhi)
      omega
    rw [if_neg (by omega)]
    exact ⟨_, _, rfl, hmlo, hmhi⟩

/-- Converting a positive integer between two powers of two gives a float between them. -/
theorem F64.ofInt_between (x : Int) (lo hi : Int) (hlo : (2 : ℚ) ^ lo ≤ (x : ℚ))
    (hhi : (x : ℚ) ≤ (2 : ℚ) ^ hi) (h1 : -1074 ≤ lo) (h2 : hi ≤ 1023) :
    F64.Between (F64.ofInt x) lo hi := by
  have hx : 0 < x := by
    have := F64.two_zpow_pos lo
    have h0 : (0 : ℚ) < (x : ℚ) := lt_of_lt_of_le this hlo
    exact_mod_cast h0
  have hneg : decide (x < 0) = false := by
    rw [decide_eq_false_iff_not]
    omega
  have hcast : ((x.natAbs : Nat) : ℚ) / ((1 : Nat) : ℚ) = (x : ℚ) := by
    obtain ⟨n, rfl⟩ := Int.eq_ofNat_of_zero_le (le_of_lt hx)
    rw [Nat.cast_one, div_one, Int.natAbs_ofNat, Int.cast_natCast]
  unfold F64.ofInt
  rw [hneg]
  exact F64.round_between _ _ lo hi (by decide) (by rw [hcast]; exact hlo)
    (by rw [hcast]; exact hhi) h1 h2

theorem F64.Between.pos {x : F64} {lo hi : Int} (h : F64.Between x lo hi) :
    ∃ m e, x = F64.fin false m e ∧ 0 < m ∧ (2 : ℚ) ^ lo ≤ (m : ℚ) * (2 : ℚ) ^ e ∧
      (m : ℚ) * (2 : ℚ) ^ e ≤ (2 : ℚ) ^ hi := by
  obtain ⟨m, e, rfl, h1, h2⟩ := h
  refine ⟨m, e, rfl, ?_, h1, h2⟩
  rcases Nat.eq_zero_or_pos m with h0 | h0
  · exfalso
    rw [h0] at h1
    simp at h1
    have := F64.two_zpow_pos lo
    linarith
  · exact h0

/-- The quotient of two floats between powers of two lies between the quotients of the
bounds. -/
theorem F64.div_between (x y : F64) (a b c d : Int) (hx : F64.Between x a b)
    (hy : F64.Between y c d) (h1 : -1074 ≤ a - d) (h2 : b - c ≤ 1023) :
    F64.Between (F64.div x y) (a - d) (b - c) := by
  obtain ⟨m, e, rfl, hm, hx1, hx2⟩ := hx.pos
  obtain ⟨n, f, rfl, hn, hy1, hy2⟩ := hy.pos
  have hn0 : n ≠ 0 := by omega
  have hdiv : F64.div (F64.fin false m e) (F64.fin false n f) =
      F64.round false (m * 2 ^ (-(f - e)).toNat) (n * 2 ^ (f - e).toNat) := by
    have hef : e - f = -(f - e) := by ring
    simp only [F64.div, if_neg hn0, Bool.xor_false, hef]
  rw [hdiv]
  have hnq : (0 : ℚ) < (n : ℚ) := by exact_mod_cast hn
  have hval : ((m * 2 ^ (-(f - e)).toNat : Nat) : ℚ) / ((n * 2 ^ (f - e).toNat : Nat) : ℚ) =
      ((m : ℚ) * (2 : ℚ) ^ e) / ((n : ℚ) * (2 : ℚ) ^ f) := by
    rw [F64.scaled_div m n (f - e) hn]
    have : -(f - e) = e + -f := by ring
    rw [this, zpow_add₀ (by norm_num : (2 : ℚ) ≠ 0), zpow_neg]
    field_simp
  have hypos : (0 : ℚ) < (n : ℚ) * (2 : ℚ) ^ f := mul_pos hnq (F64.two_zpow_pos f)
  have hxpos : (0 : ℚ) < (m : ℚ) * (2 : ℚ) ^ e :=
    mul_pos (by exact_mod_cast hm) (F64.two_zpow_pos e)
  apply F64.round_between _ _ _ _ (Nat.mul_pos hn (Nat.pow_pos (by decide))) _ _ h1 h2
  · rw [hval, F64.two_zpow_split, zpow_neg, ← div_eq_mul_inv]
    exact div_le_div₀ (le_of_lt hxpos) hx1 hypos hy2
  · rw [hval, F64.two_zpow_split, zpow_neg, ← div_eq_mul_inv]
    exact div_le_div₀ (le_of_lt (F64.two_zpow_pos b)) hx2 (F64.two_zpow_pos c) hy1

/-- The product of two floats between powers of two lies between the products of the
bounds. -/
theorem F64.mul_between (x y : F64) (a b c d : Int) (hx : F64.Between x a b)
    (hy : F64.Between y c d) (h1 : -1074 ≤ a + c) (h2 : b + d ≤ 1023) :
    F64.Between (F64.mul x y) (a + c) (b + d) := by
  obtain ⟨m, e, rfl, hm, hx1, hx2⟩ := hx.pos
  obtain ⟨n, f, rfl, hn, hy1, hy2⟩ := hy.pos
  have hmul : F64.mul (F64.fin false m e) (F64.fin false n f) =
      F64.round false (m * n * 2 ^ (-(-(e + f))).toNat) (1 * 2 ^ (-(e + f)).toNat) := by
    simp only [F64.mul, Bool.xor_false, neg_neg, Nat.one_mul]
  rw [hmul]
  have hval : ((m * n * 2 ^ (-(-(e + f))).toNat : Nat) : ℚ) /
      ((1 * 2 ^ (-(e + f)).toNat : Nat) : ℚ) =
      ((m : ℚ) * (2 : ℚ) ^ e) * ((n : ℚ) * (2 : ℚ) ^ f) := by
    rw [F64.scaled_div (m * n) 1 (-(e + f)) (by decide)]
    rw [neg_neg, zpow_add₀ (by norm_num : (2 : ℚ) ≠ 0)]
    push_cast
    ring
  have hypos : (0 : ℚ) < (n : ℚ) * (2 : ℚ) ^ f :=
    mul_pos (by exact_mod_cast hn) (F64.two_zpow_pos f)
  have hxpos : (0 : ℚ) < (m : ℚ) * (2 : ℚ) ^ e :=
    mul_pos (by exact_mod_cast hm) (F64.two_zpow_pos e)
  apply F64.round_between _ _ _ _ (Nat.mul_pos (by decide) (Nat.pow_pos (by decide))) _ _ h1 h2
  · rw [hval, zpow_add₀ (by norm_num : (2 : ℚ) ≠ 0)]
    exact mul_le_mul hx1 hy1 (le_of_lt (F64.two_zpow_pos c)) (le_of_lt hxpos)
  · rw [hval, zpow_add₀ (by norm_num : (2 : ℚ) ≠ 0)]
    exact mul_le_mul hx2 hy2 (le_of_lt hypos) (le_of_lt (F64.two_zpow_pos b))

/-- The ceiling of a positive float that is at most `2^hi`, `hi ≥ 0`, lies between `1`
and `2^hi`. -/
theorem F64.ceil_between (x : F64) (lo hi : Int) (hx : F64.Between x lo hi) (h1 : 0 ≤ hi)
    (h2 : hi ≤ 1023) : F64.Between (F64.ceil x) 0 hi := by
  obtain ⟨m, e, rfl, hm, _, hx2⟩ := hx.pos
  have hmq : (1 : ℚ) ≤ (m : ℚ) := by exact_mod_cast hm
  by_cases he : 0 ≤ e
  · have hc : F64.ceil (F64.fin false m e) = F64.fin false m e := by
      simp only [F64.ceil, if_pos he]
    rw [hc]
    refine ⟨m, e, rfl, ?_, hx2⟩
    have h2e : (1 : ℚ) ≤ (2 : ℚ) ^ e := by
      have := F64.two_zpow_le 0 e he
      simpa using this
    rw [zpow_zero]
    calc (1 : ℚ) = 1 * 1 := by norm_num
      _ ≤ (m : ℚ) * (2 : ℚ) ^ e := mul_le_mul hmq h2e (by norm_num) (by linarith)
  · have hc : F64.ceil (F64.fin false m e) =
        F64.round false ((m + 2 ^ (-e).toNat - 1) / 2 ^ (-e).toNat) 1 := by
      simp only [F64.ceil, if_neg he]
      rfl
    rw [hc]
    obtain ⟨k, hk⟩ := Int.eq_ofNat_of_zero_le (show 0 ≤ -e by omega)
    obtain ⟨h, hh⟩ := Int.eq_ofNat_of_zero_le h1
    have hk1 : (-e).toNat = k := by omega
    have hek : e = -(k : Int) := by omega
    rw [hk1]
    have hpk : 0 < 2 ^ k := Nat.pow_pos (by decide)
    have hmle : m ≤ 2 ^ h * 2 ^ k := by
      have h3 := mul_le_mul_of_nonneg_right hx2 (le_of_lt (F64.two_zpow_pos (k : Int)))
      rw [mul_assoc, ← zpow_add₀ (by norm_num : (2 : ℚ) ≠ 0), hek, neg_add_cancel, zpow_zero,
        mul_one, hh, zpow_natCast, zpow_natCast] at h3
      exact_mod_cast h3
    have hc1 : 1 ≤ (m + 2 ^ k - 1) / 2 ^ k := by
      rw [Nat.le_div_iff_mul_le hpk]
      omega
    have hc2 : (m + 2 ^ k - 1) / 2 ^ k ≤ 2 ^ h := by
      have : (m + 2 ^ k - 1) / 2 ^ k < 2 ^ h + 1 := by
        rw [Nat.div_lt_iff_lt_mul hpk]
        have : (2 ^ h + 1) * 2 ^ k = 2 ^ h * 2 ^ k + 2 ^ k := by ring
        omega
      omega
    apply F64.round_between _ _ 0 hi (by decide) _ _ (by decide) h2
    · rw [zpow_zero, Nat.cast_one, div_one]
      exact_mod_cast hc1
    · rw [Nat.cast_one, div_one, hh, zpow_natCast]
      exact_mod_cast hc2

/-- Converting a float between `1` and `2^62` to `int64` gives an integer between `1` and
`2^62`. -/
theorem F64.toInt64_between (x : F64) (hx : F64.Between x 0 62) :
    1 ≤ F64.toInt64 x ∧ F64.toInt64 x ≤ 2 ^ 62 := by
  obtain ⟨m, e, rfl, hm, hx1, hx2⟩ := hx.pos
  have hB : 0 < 1 * 2 ^ (-e).toNat := Nat.mul_pos (by decide) (Nat.pow_pos (by decide))
  have h1 : 1 * (1 * 2 ^ (-e).toNat) ≤ m * 2 ^ (-(-e)).toNat := by
    rw [F64.mul_le_iff_scaled m 1 (-e) 1 (by decide), neg_neg]
    simpa using hx1
  have h2 : m * 2 ^ (-(-e)).toNat ≤ 2 ^ 62 * (1 * 2 ^ (-e).toNat) := by
    rw [F64.le_mul_iff_scaled m 1 (-e) _ (by decide), neg_neg]
    have : ((2 ^ 62 : Nat) : ℚ) = (2 : ℚ) ^ (62 : Int) := by norm_num
    rw [this]
    simpa using hx2
  rw [neg_neg, Nat.one_mul] at h1 h2
  have hpk : 0 < 2 ^ (-e).toNat := Nat.pow_pos (by decide)
  have hq1 : 1 ≤ m * 2 ^ e.toNat / 2 ^ (-e).toNat := by
    rw [Nat.le_div_iff_mul_le hpk]
    omega
  have hq2 : m * 2 ^ e.toNat / 2 ^ (-e).toNat ≤ 2 ^ 62 := by
    have : m * 2 ^ e.toNat / 2 ^ (-e).toNat < 2 ^ 62 + 1 := by
      rw [Nat.div_lt_iff_lt_mul hpk]
      have : (2 ^ 62 + 1) * 2 ^ (-e).toNat = 2 ^ 62 * 2 ^ (-e).toNat + 2 ^ (-e).toNat := by ring
      omega
    omega
  have ht : F64.toInt64 (F64.fin false m e) =
      (if -2 ^ 63 ≤ (1 : Int) * ((m * 2 ^ e.toNat / 2 ^ (-e).toNat : Nat) : Int) ∧
          (1 : Int) * ((m * 2 ^ e.toNat / 2 ^ (-e).toNat : Nat) : Int) < 2 ^ 63
        then (1 : Int) * ((m * 2 ^ e.toNat / 2 ^ (-e).toNat : Nat) : Int) else -2 ^ 63) := rfl
  rw [ht]
  generalize m * 2 ^ e.toNat / 2 ^ (-e).toNat = t at hq1 hq2
  have ht1 : (1 : Int) ≤ (t : Int) := by exact_mod_cast hq1
  have ht2 : (t : Int) ≤ 2 ^ 62 := by exact_mod_cast hq2
  rw [Int.one_mul, if_pos (by constructor <;> omega)]
  exact ⟨ht1, ht2⟩

/-! ## The zero pattern under `skipRepeats` -/

theorem mget_outside (M : Matrix) (N : Nat) (hM : IsSquare N M) (i j : Nat)
    (h : ¬ (i < N ∧ j < N)) : mget M i j = 0 := by
  unfold mget
  by_cases hi : i < N
  · have hlen := hM.2 i hi
    have hj : (M.getD i []).length ≤ j := by omega
    simp only [List.getD_eq_getElem?_getD] at hj ⊢
    rw [List.getElem?_eq_none hj]
    rfl
  · have hlen : M.length ≤ i := by
      have := hM.1
      omega
    simp only [List.getD_eq_getElem?_getD]
    rw [List.getElem?_eq_none hlen]
    rfl

theorem nonneg_of_bounded (M : Matrix) (N : Nat) (hM : IsSquare N M)
    (hpos : ∀ i, i < N → ∀ j, j < N → 0 ≤ mget M i j) (i j : Nat) : 0 ≤ mget M i j := by
  by_cases h : i < N ∧ j < N
  · exact hpos i h.1 j h.2
  · rw [mget_outside M N hM i j h]

theorem symm_of_bounded (M : Matrix) (N : Nat) (hM : IsSquare N M)
    (hsym : ∀ i, i < N → ∀ j, j < N → mget M i j = mget M j i) (i j : Nat) :
    mget M i j = mget M j i := by
  by_cases h : i < N ∧ j < N
  · exact hsym i h.1 j h.2
  · rw [mget_outside M N hM i j h, mget_outside M N hM j i (by omega)]

theorem diag_of_bounded (M : Matrix) (N : Nat) (hM : IsSquare N M)
    (hdiag : ∀ i, i < N → mget M i i = 0) (i : Nat) : mget M i i = 0 := by
  by_cases h : i < N
  · exact hdiag i h
  · exact mget_outside M N hM i i (by omega)

/-- An entry off the diagonal of a symmetric non-negative matrix is at most the link
total of its row. -/
theorem entry_le_linkTotal (M : Matrix) (N : Nat) (hpos : ∀ i j, 0 ≤ mget M i j)
    (hsym : ∀ i, i < N → ∀ j, j < N → mget M i j = mget M j i) (i j : Nat) (hi : i < N)
    (hj : j < N) (hij : i ≠ j) : mget M i j ≤ linkTotal M N i := by
  have h := sumBelow_term_le N j
    (fun j => if i < j then mget M i j else if j < i then mget M j i else 0)
    (fun k _ => by
      show 0 ≤ (if i < k then mget M i k else if k < i then mget M k i else 0)
      split
      · exact hpos i k
      · split
        · exact hpos k i
        · exact Int.le_refl 0) hj
  have hterm : (if i < j then mget M i j else if j < i then mget M j i else 0) =
      mget M i j := by
    by_cases h1 : i < j
    · rw [if_pos h1]
    · rw [if_neg h1, if_pos (by omega), hsym i hi j hj]
  unfold linkTotal
  rw [← hterm]
  exact h

/-- The float computation of `skipRepeats` on exact totals that do not overflow: for an
entry `v ≥ 1` of a row with link total `L`, `v ≤ L ≤ 2 * T`, the factor is a finite
positive float and the rescaled entry is between `1` and `2^62`. -/
theorem rescale_bounds (T L v : Int) (N : Nat) (hv : 1 ≤ v) (hvL : v ≤ L) (hLT : L ≤ 2 * T)
    (hT : T < 2 ^ 61) (hN2 : 2 ≤ N) (hN : N < 2 ^ 63) :
    (∃ m e, F64.div (F64.ofInt L) (skipRepeats.nLinksAvg T N) = F64.fin false m e ∧
        0 < m) ∧
      1 ≤ skipRepeats.rescale (F64.div (F64.ofInt L) (skipRepeats.nLinksAvg T N)) v ∧
      skipRepeats.rescale (F64.div (F64.ofInt L) (skipRepeats.nLinksAvg T N)) v ≤ 2 ^ 62 := by
  obtain ⟨n, rfl⟩ := Int.eq_ofNat_of_zero_le (show 0 ≤ v by omega)
  have hn : n ≠ 0 := by omega
  have ha1 : 2 ^ Nat.log 2 n ≤ n := Nat.pow_log_le_self 2 hn
  have ha2 : n < 2 ^ (Nat.log 2 n + 1) := Nat.lt_pow_succ_log_self (by decide) n
  generalize Nat.log 2 n = a at ha1 ha2
  have hn62 : n < 2 ^ 62 := by omega
  have ha : a < 62 := by
    by_contra hc
    have : 2 ^ 62 ≤ 2 ^ a := Nat.pow_le_pow_right (by decide) (by omega)
    omega
  have e61 : (2 : ℚ) ^ (61 : Int) = ((2 ^ 61 : Int) : ℚ) := by norm_num
  have e62 : (2 : ℚ) ^ (62 : Int) = ((2 ^ 62 : Int) : ℚ) := by norm_num
  have e63 : (2 : ℚ) ^ (63 : Int) = ((2 ^ 63 : Nat) : ℚ) := by norm_num
  have ea : (2 : ℚ) ^ (a : Int) = ((2 ^ a : Nat) : ℚ) := by
    rw [zpow_natCast]
    push_cast
    rfl
  have ea1 : (2 : ℚ) ^ ((a : Int) + 1) = ((2 ^ (a + 1) : Nat) : ℚ) := by
    rw [show ((a : Int) + 1) = ((a + 1 : Nat) : Int) by push_cast; rfl, zpow_natCast]
    push_cast
    rfl
  -- float64(totalLinks)
  have hfT : F64.Between (F64.ofInt T) 0 61 := by
    apply F64.ofInt_between T 0 61 _ _ (by decide) (by decide)
    · rw [zpow_zero]
      have : (1 : Int) ≤ T := by omega
      exact_mod_cast this
    · rw [e61]
      have : T ≤ 2 ^ 61 := by omega
      exact_mod_cast this
  have hf2 : F64.Between (F64.ofInt 2) 1 1 := by
    apply F64.ofInt_between 2 1 1 _ _ (by decide) (by decide) <;> norm_num
  have hmul : F64.Between (F64.mul (F64.ofInt 2) (F64.ofInt T)) 1 62 :=
    F64.mul_between _ _ 1 1 0 61 hf2 hfT (by decide) (by decide)
  have hfN : F64.Between (F64.ofInt (N : Int)) 1 63 := by
    apply F64.ofInt_between (N : Int) 1 63 _ _ (by decide) (by decide)
    · have : (2 : ℚ) ≤ (N : ℚ) := by exact_mod_cast hN2
      simpa using this
    · rw [e63]
      have : N ≤ 2 ^ 63 := by omega
      exact_mod_cast this
  have havg : F64.Between (skipRepeats.nLinksAvg T N) (-62) 61 :=
    F64.div_between _ _ 1 62 1 63 hmul hfN (by decide) (by decide)
  have hfL : F64.Between (F64.ofInt L) (a : Int) 62 := by
    apply F64.ofInt_between L (a : Int) 62 _ _ (by omega) (by decide)
    · rw [ea]
      have : ((2 ^ a : Nat) : Int) ≤ L := by
        have : ((2 ^ a : Nat) : Int) ≤ (n : Int) := by exact_mod_cast ha1
        omega
      exact_mod_cast this
    · rw [e62]
      have : L ≤ 2 ^ 62 := by omega
      exact_mod_cast this
  have hfac : F64.Between (F64.div (F64.ofInt L) (skipRepeats.nLinksAvg T N))
      ((a : Int) - 61) (62 - (-62)) :=
    F64.div_between _ _ (a : Int) 62 (-62) 61 hfL havg (by omega) (by decide)
  have hfv : F64.Between (F64.ofInt (n : Int)) (a : Int) ((a : Int) + 1) := by
    apply F64.ofInt_between (n : Int) (a : Int) ((a : Int) + 1) _ _ (by omega) (by omega)
    · rw [ea]
      exact_mod_cast ha1
    · rw [ea1]
      exact_mod_cast (le_of_lt ha2)
  have hq := F64.div_between _ _ (a : Int) ((a : Int) + 1) ((a : Int) - 61) (62 - (-62))
    hfv hfac (by omega) (by omega)
  rw [show (a : Int) + 1 - ((a : Int) - 61) = 62 by ring] at hq
  have hceil := F64.ceil_between _ _ 62 hq (by decide) (by decide)
  have hres := F64.toInt64_between _ hceil
  refine ⟨?_, hres⟩
  obtain ⟨m, e, hme, hm, _, _⟩ := hfac.pos
  exact ⟨m, e, hme, hm⟩

/-- The entry `[i][j]` after `skipRepeats`, for a matrix of `N` rows of `N` entries. -/
theorem skipRepeats_entry (MaxLinkDensity : F64) (r : Partitioner)
    (hM : IsSquare r.contigs.length r.matrix) (i j : Nat) (hi : i < r.contigs.length)
    (hj : j < r.contigs.length) :
    mget (skipRepeats MaxLinkDensity r).1.matrix i j =
      if mget r.matrix i j ≠ 0 then
        skipRepeats.rescale
          (skipRepeats.factor (skipRepeats.countLinks r.matrix r.contigs.length).2
            (skipRepeats.nLinksAvg (skipRepeats.countLinks r.matrix r.contigs.length).1
              r.contigs.length) i)
          (mget r.matrix i j)
      else mget r.matrix i j := by
  obtain ⟨_, hget⟩ := skipRepeats_loop_matrix MaxLinkDensity
    (skipRepeats.countLinks r.matrix r.contigs.length).2
    (skipRepeats.nLinksAvg (skipRepeats.countLinks r.matrix r.contigs.length).1
      r.contigs.length)
    r.contigs.length r.contigs 0 r.matrix 0 0 hM (by omega)
  rw [skipRepeats_matrix, hget i j]
  have hrow : (0 ≤ i ∧ i < 0 + r.contigs.length) ∧ j < r.contigs.length :=
    ⟨⟨Nat.zero_le i, by omega⟩, hj⟩
  rw [if_pos hrow]

/-- The factor and the rescaled entry of a non-zero entry when the totals do not
overflow. -/
theorem skipRepeats_factor_bounds (M : Matrix) (N : Nat) (hM : IsSquare N M)
    (hsym : ∀ i, i < N → ∀ j, j < N → mget M i j = mget M j i)
    (hdiag : ∀ i, i < N → mget M i i = 0)
    (hpos : ∀ i, i < N → ∀ j, j < N → 0 ≤ mget M i j)
    (hsmall : pairTotal M N < 2 ^ 61) (hN : N < 2 ^ 63) (i j : Nat) (hi : i < N)
    (hj : j < N) (hv : mget M i j ≠ 0) :
    (∃ m e, skipRepeats.factor (skipRepeats.countLinks M N).2
        (skipRepeats.nLinksAvg (skipRepeats.countLinks M N).1 N) i = F64.fin false m e ∧
        0 < m) ∧
      1 ≤ skipRepeats.rescale
        (skipRepeats.factor (skipRepeats.countLinks M N).2
          (skipRepeats.nLinksAvg (skipRepeats.countLinks M N).1 N) i) (mget M i j) := by
  have hpos' := nonneg_of_bounded M N hM hpos
  obtain ⟨e1, e2⟩ := countLinks_exact M N hpos' (by omega)
  have hij : i ≠ j := by
    intro h
    subst h
    exact hv (hdiag i hi)
  have hfac : skipRepeats.factor (skipRepeats.countLinks M N).2
      (skipRepeats.nLinksAvg (skipRepeats.countLinks M N).1 N) i =
      F64.div (F64.ofInt (linkTotal M N i)) (skipRepeats.nLinksAvg (pairTotal M N) N) := by
    unfold skipRepeats.factor
    rw [e1, e2 i hi]
  rw [hfac]
  have hb := rescale_bounds (pairTotal M N) (linkTotal M N i) (mget M i j) N
    (by have := hpos i hi j hj; omega)
    (entry_le_linkTotal M N hpos' hsym i j hi hj hij)
    (linkTotal_le M N i hpos' hi) hsmall (by omega) hN
  exact ⟨hb.1, hb.2.1⟩

/-- C18, as the code stands: on `exWrapped` (built by `makeMatrix`; symmetric, zero
diagonal, non-negative, two weights `2^63 - 1`) the `int64` totals wrap to
`totalLinks = -1` and `nLinks[3] = 1`, so `factor[3]` is `-2`, and the entry `[3][0]`,
which was `1`, is rescaled to `int64(ceil(-0.5)) = 0`. -/
theorem skipRepeats_zero_pattern_can_break :
    makeMatrix (exState exWrapped.contigs 1 [])
        [exEdge "A" "B" 1 1 9223372036854775807, exEdge "A" "C" 1 1 9223372036854775807,
          exEdge "A" "D" 1 1 1] = .ok exWrapped ∧
      (∀ i, i < 4 → ∀ j, j < 4 →
        mget exWrapped.matrix i j = mget exWrapped.matrix j i ∧
          0 ≤ mget exWrapped.matrix i j ∧ mget exWrapped.matrix i i = 0) ∧
      mget exWrapped.matrix 3 0 = 1 ∧
      skipRepeats.factor (skipRepeats.countLinks exWrapped.matrix 4).2
        (skipRepeats.nLinksAvg (skipRepeats.countLinks exWrapped.matrix 4).1 4) 3 =
        F64.fin true 4503599627370496 (-51) ∧
      mget (skipRepeats (F64.ofInt 2) exWrapped).1.matrix 3 0 = 0 := by
  refine ⟨rfl, by decide, by decide, by decide!, by decide!⟩

/-- C18, amended. For a symmetric, zero-diagonal matrix of `N` rows of `N` non-negative
entries whose exact sum over all pairs is below `2^61` (then no `int64` total wraps), with
`N` in the range of `int`: whenever `skipRepeats` rescales an entry `matrix[i][j]` (the entry is
non-zero) the computed `factor[i]` is a finite, strictly positive `float64` and the
rescaled entry is `>= 1`; hence after `skipRepeats` an entry is zero if and only if it was
zero before, and the diagonal is still zero. -/
theorem skipRepeats_keeps_zero_pattern (MaxLinkDensity : F64) (r : Partitioner)
    (hM : IsSquare r.contigs.length r.matrix)
    (hsym : ∀ i, i < r.contigs.length → ∀ j, j < r.contigs.length →
      mget r.matrix i j = mget r.matrix j i)
    (hdiag : ∀ i, i < r.contigs.length → mget r.matrix i i = 0)
    (hpos : ∀ i, i < r.contigs.length → ∀ j, j < r.contigs.length → 0 ≤ mget r.matrix i j)
    (hsmall : pairTotal r.matrix r.contigs.length < 2 ^ 61)
    (hN : r.contigs.length < 2 ^ 63) (i j : Nat) (hi : i < r.contigs.length)
    (hj : j < r.contigs.length) :
    (mget r.matrix i j ≠ 0 →
      (∃ m e, skipRepeats.factor (skipRepeats.countLinks r.matrix r.contigs.length).2
          (skipRepeats.nLinksAvg (skipRepeats.countLinks r.matrix r.contigs.length).1
            r.contigs.length) i = F64.fin false m e ∧ 0 < m) ∧
        1 ≤ mget (skipRepeats MaxLinkDensity r).1.matrix i j) ∧
      (mget (skipRepeats MaxLinkDensity r).1.matrix i j = 0 ↔ mget r.matrix i j = 0) ∧
      mget (skipRepeats MaxLinkDensity r).1.matrix i i = 0 := by
  have hentry := skipRepeats_entry MaxLinkDensity r hM i j hi hj
  have hnz : mget r.matrix i j ≠ 0 →
      (∃ m e, skipRepeats.factor (skipRepeats.countLinks r.matrix r.contigs.length).2
          (skipRepeats.nLinksAvg (skipRepeats.countLinks r.matrix r.contigs.length).1
            r.contigs.length) i = F64.fin false m e ∧ 0 < m) ∧
        1 ≤ mget (skipRepeats MaxLinkDensity r).1.matrix i j := by
    intro hv
    obtain ⟨h1, h2⟩ := skipRepeats_factor_bounds r.matrix r.contigs.length hM hsym hdiag hpos
      hsmall hN i j hi hj hv
    rw [hentry, if_pos hv]
    exact ⟨h1, h2⟩
  refine ⟨hnz, ⟨fun h0 => ?_, fun h0 => ?_⟩, ?_⟩
  · by_contra hv
    have := (hnz hv).2
    omega
  · rw [hentry, if_neg (by simpa using h0)]
    exact h0
  · rw [skipRepeats_entry MaxLinkDensity r hM i i hi hi, if_neg (by simpa using hdiag i hi)]
    exact hdiag i hi

/-- C18, on the chain example `[[0,1,0],[1,0,2],[0,2,0]]`: the entry `[0][1]` is non-zero
before and after `skipRepeats`, and `factor[0]` is positive. -/
theorem skipRepeats_keeps_zero_pattern_witness :
    pairTotal exChain.matrix 3 = 3 ∧
      (mget exChain.matrix 0 1 ≠ 0 →
        (∃ m e, skipRepeats.factor (skipRepeats.countLinks exChain.matrix 3).2
            (skipRepeats.nLinksAvg (skipRepeats.countLinks exChain.matrix 3).1 3) 0 =
            F64.fin false m e ∧ 0 < m) ∧
          1 ≤ mget (skipRepeats (F64.ofInt 2) exChain).1.matrix 0 1) ∧
      (mget (skipRepeats (F64.ofInt 2) exChain).1.matrix 0 1 = 0 ↔
        mget exChain.matrix 0 1 = 0) ∧
      mget (skipRepeats (F64.ofInt 2) exChain).1.matrix 0 0 = 0 :=
  ⟨by decide,
    skipRepeats_keeps_zero_pattern (F64.ofInt 2) exChain ⟨rfl, by decide⟩ (by decide)
      (by decide) (by decide) (by decide) (by decide) 0 1 (by decide) (by decide)⟩

/-- C19, on the uniform example `[[0,10,10],[10,0,10],[10,10,0]]`: the entries are
non-negative and sum to 30 over the pairs, the matrix is symmetric with a zero diagonal,
so the sum of `nLinks` is `2 * totalLinks` and every `nLinks[k]` is the sum of row `k`. -/
theorem countLinks_totals_witness :
    pairTotal exUniform.matrix 3 = 30 ∧
      (skipRepeats.countLinks exUniform.matrix 3).2.sum =
        2 * (skipRepeats.countLinks exUniform.matrix 3).1 ∧
      (∀ k, k < 3 →
        (skipRepeats.countLinks exUniform.matrix 3).2.getD k 0 =
          rowTotal exUniform.matrix 3 k) :=
  ⟨by decide,
    ((countLinks_totals exUniform.matrix 3).2.1
      (nonneg_of_bounded exUniform.matrix 3 ⟨rfl, by decide⟩ (by decide)) (by decide)).1,
    ((countLinks_totals exUniform.matrix 3).2.2
      (symm_of_bounded exUniform.matrix 3 ⟨rfl, by decide⟩ (by decide))
      (diag_of_bounded exUniform.matrix 3 ⟨rfl, by decide⟩ (by decide))).2
      (nonneg_of_bounded exUniform.matrix 3 ⟨rfl, by decide⟩ (by decide)) (by decide)⟩

end Allhic
